import Mathlib

/-!
Verification of the PolySURF surface-slab construction core.

The Rust source is shallowly embedded over exact arithmetic: `f64` values
become `ℚ` (the floating-point computations are modelled exactly), `i32`
becomes `ℤ`, `usize` becomes `ℕ`.  Square roots computed by the source
(vector norms) are modelled by passing the computed norm as an explicit
parameter constrained by hypotheses of the form `0 ≤ r ∧ r ^ 2 = normSq v`;
statements about norms are phrased through squared norms or `Real.sqrt`.
Rust loops whose termination is not structural are embedded with an explicit
fuel parameter; where the loop provably terminates the fuel bound is proved
sufficient, so the embedding agrees with the source.
-/

namespace PolySurf

/-- 3-component vector, mirroring `nalgebra::Vector3`. -/
structure Vec3 (α : Type) where
  x : α
  y : α
  z : α
deriving DecidableEq, Repr

namespace Vec3

variable {α : Type}

def zero [OfNat α 0] : Vec3 α := ⟨0, 0, 0⟩

instance [OfNat α 0] : OfNat (Vec3 α) 0 := ⟨Vec3.zero⟩

def add [Add α] (a b : Vec3 α) : Vec3 α := ⟨a.x + b.x, a.y + b.y, a.z + b.z⟩

instance [Add α] : Add (Vec3 α) := ⟨Vec3.add⟩

def sub [Sub α] (a b : Vec3 α) : Vec3 α := ⟨a.x - b.x, a.y - b.y, a.z - b.z⟩

instance [Sub α] : Sub (Vec3 α) := ⟨Vec3.sub⟩

def neg [Neg α] (a : Vec3 α) : Vec3 α := ⟨-a.x, -a.y, -a.z⟩

instance [Neg α] : Neg (Vec3 α) := ⟨Vec3.neg⟩

def smul [Mul α] (c : α) (a : Vec3 α) : Vec3 α := ⟨c * a.x, c * a.y, c * a.z⟩

instance [Mul α] : SMul α (Vec3 α) := ⟨Vec3.smul⟩

/-- Componentwise scalar division (used for centre-of-mass division). -/
def sdivide [Div α] (a : Vec3 α) (c : α) : Vec3 α := ⟨a.x / c, a.y / c, a.z / c⟩

def dot [Mul α] [Add α] (a b : Vec3 α) : α := a.x * b.x + a.y * b.y + a.z * b.z

def cross [Mul α] [Sub α] (a b : Vec3 α) : Vec3 α :=
  ⟨a.y * b.z - a.z * b.y, a.z * b.x - a.x * b.z, a.x * b.y - a.y * b.x⟩

/-- Squared Euclidean norm (`norm_squared` in nalgebra). -/
def normSq [Mul α] [Add α] (a : Vec3 α) : α := a.dot a

def map {β : Type} (f : α → β) (a : Vec3 α) : Vec3 β := ⟨f a.x, f a.y, f a.z⟩

/-- Cast an integer vector to a rational vector (`as f64` in the source). -/
def toQ (a : Vec3 ℤ) : Vec3 ℚ := ⟨(a.x : ℚ), (a.y : ℚ), (a.z : ℚ)⟩

end Vec3

/-- 3×3 matrix given by its three columns, mirroring `nalgebra::Matrix3`
(whose columns are the lattice vectors). -/
structure Mat3 where
  c0 : Vec3 ℚ
  c1 : Vec3 ℚ
  c2 : Vec3 ℚ
deriving DecidableEq, Repr

namespace Mat3

/-- Matrix-vector product: linear combination of the columns. -/
def mulVec (m : Mat3) (v : Vec3 ℚ) : Vec3 ℚ :=
  (v.x • m.c0) + (v.y • m.c1) + (v.z • m.c2)

/-- Transpose: the columns of the transpose are the rows of `m`. -/
def transpose (m : Mat3) : Mat3 :=
  ⟨⟨m.c0.x, m.c1.x, m.c2.x⟩, ⟨m.c0.y, m.c1.y, m.c2.y⟩, ⟨m.c0.z, m.c1.z, m.c2.z⟩⟩

/-- Determinant (scalar triple product of the columns). -/
def det (m : Mat3) : ℚ := (m.c0.cross m.c1).dot m.c2

/-- Inverse via the adjugate; `none` exactly when the determinant vanishes
(models nalgebra's `try_inverse`). -/
def inv? (m : Mat3) : Option Mat3 :=
  if m.det = 0 then none
  else
    let d := m.det
    some ⟨⟨(m.c1.y * m.c2.z - m.c2.y * m.c1.z) / d,
           (m.c2.x * m.c1.z - m.c1.x * m.c2.z) / d,
           (m.c1.x * m.c2.y - m.c2.x * m.c1.y) / d⟩,
          ⟨(m.c2.y * m.c0.z - m.c0.y * m.c2.z) / d,
           (m.c0.x * m.c2.z - m.c2.x * m.c0.z) / d,
           (m.c2.x * m.c0.y - m.c0.x * m.c2.y) / d⟩,
          ⟨(m.c0.y * m.c1.z - m.c1.y * m.c0.z) / d,
           (m.c1.x * m.c0.z - m.c0.x * m.c1.z) / d,
           (m.c0.x * m.c1.y - m.c1.x * m.c0.y) / d⟩⟩

/-- The identity matrix. -/
def one : Mat3 := ⟨⟨1, 0, 0⟩, ⟨0, 1, 0⟩, ⟨0, 0, 1⟩⟩

end Mat3

/-- `f64::round` of Rust: round to the nearest integer, halfway cases away
from zero. -/
def rustRound (q : ℚ) : ℤ := if 0 ≤ q then ⌊q + 1/2⌋ else -⌊-q + 1/2⌋

/-- One component of the minimum-image wrap: `d - d.round()`
(src/core/structure.rs, `get_shortest_distance_vector`). -/
def wrapComp (q : ℚ) : ℚ := q - rustRound q

/-- The fractional minimum-image vector: `d = f2 - f1` wrapped componentwise
by `d - round(d)` (the loop body of `get_shortest_distance_vector` before the
final conversion to Cartesian coordinates). -/
def minImageFrac (f1 f2 : Vec3 ℚ) : Vec3 ℚ :=
  let d := f2 - f1
  ⟨wrapComp d.x, wrapComp d.y, wrapComp d.z⟩

/-- Semantic role of an atom (src/core/structure.rs `ComponentType`). -/
inductive ComponentType where
  | Unknown
  | MetalNode
  | OrganicLinker
  | Solvent
  | Adsorbate
deriving DecidableEq, Repr

/-- src/core/structure.rs `Lattice`: real-space matrix and its reciprocal
partner `(M⁻¹)ᵀ` as stored by the constructor. -/
structure Lattice where
  matrix : Mat3
  reciprocal_matrix : Mat3
deriving DecidableEq, Repr

namespace Lattice

/-- `Lattice::new`: reject near-singular matrices, store `(M⁻¹)ᵀ`. -/
def new (m : Mat3) : Option Lattice :=
  if |m.det| < 1/1000000 then none
  else match m.inv? with
    | none => none
    | some i => some ⟨m, i.transpose⟩

def to_cartesian (lat : Lattice) (frac : Vec3 ℚ) : Vec3 ℚ := lat.matrix.mulVec frac

def to_fractional (lat : Lattice) (cart : Vec3 ℚ) : Vec3 ℚ :=
  lat.reciprocal_matrix.transpose.mulVec cart

/-- `get_shortest_distance_vector`: wrap `f2 - f1` componentwise by
`d - round(d)`, then convert to Cartesian coordinates. -/
def get_shortest_distance_vector (lat : Lattice) (f1 f2 : Vec3 ℚ) : Vec3 ℚ :=
  lat.to_cartesian (minImageFrac f1 f2)

end Lattice

/-- src/core/structure.rs `Atom`. -/
structure Atom where
  element : String
  fractional_coords : Vec3 ℚ
  component_type : ComponentType
deriving DecidableEq, Repr

def defaultAtom : Atom := ⟨"", Vec3.zero, ComponentType.Unknown⟩

/-- src/core/structure.rs `Crystal`. -/
structure Crystal where
  lattice : Lattice
  atoms : List Atom
deriving DecidableEq, Repr

/-- src/core/structure.rs `Molecule`: element names with unwrapped Cartesian
positions, plus the centre of mass. -/
structure Molecule where
  atoms : List (String × Vec3 ℚ)
  center_of_mass : Vec3 ℚ
deriving DecidableEq, Repr

/-- The error kinds surfaced by the core (the source uses `anyhow` strings;
only the identity of the error path matters for the specification). -/
inductive SlabError where
  | degenerateIndices
  | invalidIndices
  | degenerateCell
  | emptySlab
  | singularSlab
deriving DecidableEq, Repr

/-- `gcd(gcd(x, y), z)` of src/math/integer_basis.rs (`gcd` there is the
Euclidean algorithm on absolute values, i.e. the natural gcd). -/
def gcd3 (v : Vec3 ℤ) : ℕ := Int.gcd (Int.gcd v.x v.y) v.z

/-- Componentwise `Vector3<i32> / i32`.  Rust's `/` truncates toward zero;
at every call site the divisor divides each component exactly, where all
integer-division conventions agree. -/
def Vec3.idiv (v : Vec3 ℤ) (c : ℤ) : Vec3 ℤ := ⟨v.x / c, v.y / c, v.z / c⟩

/-- The trial vector of `find_primitive_in_plane_basis`: `(0,0,1)`, replaced
by `(0,1,0)` when the cross product with the normal vanishes. -/
def inPlaneTrial (n : Vec3 ℤ) : Vec3 ℤ :=
  if n.cross ⟨0, 0, 1⟩ = Vec3.zero then ⟨0, 1, 0⟩ else ⟨0, 0, 1⟩

/-- Divide an integer vector by the gcd of its components
(`u_raw / common_u` in the source). -/
def primitiveAlong (v : Vec3 ℤ) : Vec3 ℤ := v.idiv (gcd3 v)

/-- src/math/integer_basis.rs `find_primitive_in_plane_basis`. -/
def findPrimitiveInPlaneBasis (h k l : ℤ) :
    Except SlabError (Vec3 ℤ × Vec3 ℤ) :=
  if h = 0 ∧ k = 0 ∧ l = 0 then .error .degenerateIndices
  else
    let n : Vec3 ℤ := ⟨h, k, l⟩
    let u := primitiveAlong (n.cross (inPlaneTrial n))
    .ok (u, primitiveAlong (n.cross u))

/-- src/math/integer_basis.rs `find_stacking_vector` (not needed by the
claims' theorems but part of the component's interface). -/
def findStackingVector (h k l : ℤ) : Vec3 ℤ :=
  let n : Vec3 ℤ := ⟨h, k, l⟩
  let target : ℤ := Int.gcd (Int.gcd h k) l
  let cands := (List.range 21).flatMap (fun a =>
    (List.range 21).flatMap (fun b =>
      (List.range 21).map (fun c =>
        (⟨(a : ℤ) - 10, (b : ℤ) - 10, (c : ℤ) - 10⟩ : Vec3 ℤ))))
  match cands.find? (fun w => n.dot w = target) with
  | some w => w
  | none => if h ≠ 0 then ⟨1, 0, 0⟩ else if k ≠ 0 then ⟨0, 1, 0⟩ else ⟨0, 0, 1⟩

/-- Fuelled body of the Lagrange-Gauss `loop` of `reduce_2d_integer`
(src/math/lll.rs).  Each continuing iteration strictly decreases `v·v`, so
the fuel bound used by `reduce2dInteger` is provably sufficient; `none` is
the (unreachable) out-of-fuel result.  `μ` is computed by the source as
`(dot as f64 / norm_sq as f64).round() as i32`, modelled as exact rational
division followed by round-half-away-from-zero. -/
def gaussGo : ℕ → Vec3 ℤ → Vec3 ℤ → Option (Vec3 ℤ × Vec3 ℤ)
  | 0, _, _ => none
  | fuel + 1, u, v =>
    if u.dot u = 0 then some (u, v)
    else
      let mu : ℤ := rustRound ((u.dot v : ℚ) / ((u.dot u : ℤ) : ℚ))
      if mu = 0 then some (u, v)
      else
        let v_new := v - mu • u
        if v.dot v ≤ v_new.dot v_new then some (u, v)
        else if v_new.dot v_new < u.dot u then gaussGo fuel v_new u
        else gaussGo fuel u v_new

/-- Fuel that provably suffices for `gaussGo`. -/
def gaussFuel (u v : Vec3 ℤ) : ℕ := (u.dot u + v.dot v).toNat + 1

/-- src/math/lll.rs `reduce_2d_integer`: initial swap so that `u·u ≤ v·v`,
then the Lagrange-Gauss loop. -/
def reduce2dInteger (u0 v0 : Vec3 ℤ) : Vec3 ℤ × Vec3 ℤ :=
  let p := if v0.dot v0 < u0.dot u0 then (v0, u0) else (u0, v0)
  (gaussGo (gaussFuel p.1 p.2) p.1 p.2).getD p

/-- Membership in the 2D integer sublattice spanned by `u` and `v`. -/
def inSpan (u v w : Vec3 ℤ) : Prop := ∃ a b : ℤ, w = a • u + b • v


/-! ### Floating-point LLL (fuelled) and the slab-geometry solver -/

namespace Mat3

/-- Column access by index (columns 0, 1, 2; out-of-range hits column 2,
which never occurs in the embedded loops). -/
def col (m : Mat3) : ℕ → Vec3 ℚ
  | 0 => m.c0
  | 1 => m.c1
  | _ => m.c2

def setCol (m : Mat3) (i : ℕ) (v : Vec3 ℚ) : Mat3 :=
  match i with
  | 0 => { m with c0 := v }
  | 1 => { m with c1 := v }
  | _ => { m with c2 := v }

def swapCols (m : Mat3) (i j : ℕ) : Mat3 :=
  (m.setCol i (m.col j)).setCol j (m.col i)

end Mat3

/-- One inner update of the Gram-Schmidt recomputation in `lll_reduce`
(src/math/lll.rs): subtract from working column `i` its projection onto the
already-orthogonalised column `j`.  `μ` uses the original column `i` of `b`,
as in the source. -/
def gsStep (b bstar : Mat3) (i j : ℕ) : Mat3 :=
  let mu := (b.col i).dot (bstar.col j) / (bstar.col j).dot (bstar.col j)
  bstar.setCol i ((bstar.col i) - mu • (bstar.col j))

/-- The `for i in 0..k+1 { for j in 0..i { .. } }` Gram-Schmidt loops. -/
def computeBStar (b : Mat3) (k : ℕ) : Mat3 :=
  (List.range (k + 1)).foldl
    (fun bs i => (List.range i).foldl (fun bs2 j => gsStep b bs2 i j) bs) b

/-- The size-reduction loop `for j in (0..k).rev()`: subtract
`round(μ) · b_j` from `b_k` whenever `|μ| > 1/2`. -/
def sizeReduce (b bstar : Mat3) (k : ℕ) : Mat3 :=
  ((List.range k).reverse).foldl
    (fun bb j =>
      let mu := (bb.col k).dot (bstar.col j) / (bstar.col j).dot (bstar.col j)
      if 1/2 < |mu| then
        bb.setCol k ((bb.col k) - ((rustRound mu : ℤ) : ℚ) • (bb.col j))
      else bb) b

/-- One iteration of the `while k < n` loop of `lll_reduce` (δ = 3/4):
recompute Gram-Schmidt, size-reduce column `k`, test the Lovász condition,
then either advance `k` or swap and clamp `k` to at least 1. -/
def lllStep (b : Mat3) (k : ℕ) : Mat3 × ℕ :=
  let bstar := computeBStar b k
  let b2 := sizeReduce b bstar k
  let mu := (b2.col k).dot (bstar.col (k - 1)) / (bstar.col (k - 1)).dot (bstar.col (k - 1))
  if (3/4 - mu ^ 2) * ((bstar.col (k - 1)).dot (bstar.col (k - 1))) ≤
      (bstar.col k).dot (bstar.col k) then
    (b2, k + 1)
  else
    (b2.swapCols k (k - 1), max 1 (k - 1))

/-- Fuelled `while k < n` loop of `lll_reduce`.  The source's loop has no
fuel; termination for non-singular inputs is a property of the algorithm.
When the fuel runs out the current basis is returned; all statements about
the geometry solver below are independent of the fuel because the slab
`c`-column is not produced by this loop. -/
def lllGo : ℕ → Mat3 → ℕ → Mat3
  | 0, b, _ => b
  | fuel + 1, b, k =>
    if k < 3 then
      let bk := lllStep b k
      lllGo fuel bk.1 bk.2
    else b

/-- src/math/lll.rs `lll_reduce` (fuelled). -/
def lll_reduce (fuel : ℕ) (basis : Mat3) : Mat3 := lllGo fuel basis 1

/-- The same loop as `lllGo` but recording whether the `while` loop actually
finished within the given fuel (`none` = still running).  Termination of
`lll_reduce` on an input is exactly `∃ fuel, (lllGo? fuel b 1).isSome`. -/
def lllGo? : ℕ → Mat3 → ℕ → Option Mat3
  | 0, b, k => if k < 3 then none else some b
  | fuel + 1, b, k =>
    if k < 3 then
      let bk := lllStep b k
      lllGo? fuel bk.1 bk.2
    else some b

/-- src/synthesis/builder.rs `SlabGeometry`. -/
structure SlabGeometry where
  basis : Mat3
  d_hkl : ℚ
  n_layers : ℕ
  vacuum_thickness : ℚ
deriving DecidableEq, Repr

/-- src/synthesis/builder.rs `SlabBuilder::compute_geometry`.

`gnorm` is the norm `‖R·(h,k,l)‖` computed by the source with `f64::sqrt`;
theorems constrain it by `0 ≤ gnorm` and `gnorm² = ‖R·(h,k,l)‖²`.  `lllFuel`
fuels the embedded `lll_reduce` call (whose output only feeds the first two
basis columns).  The aspect-ratio check of the source only prints a warning
and does not affect the result, so it is not modelled. -/
def computeGeometry (crystal : Crystal) (h k l : ℤ) (thickness vacuum : ℚ)
    (gnorm : ℚ) (lllFuel : ℕ) : Except SlabError SlabGeometry :=
  match findPrimitiveInPlaneBasis h k l with
  | .error e => .error e
  | .ok uvraw =>
    let uv := reduce2dInteger uvraw.1 uvraw.2
    let u_cart := crystal.lattice.to_cartesian uv.1.toQ
    let v_cart := crystal.lattice.to_cartesian uv.2.toQ
    let reciprocal_n := crystal.lattice.reciprocal_matrix.mulVec ⟨(h : ℚ), (k : ℚ), (l : ℚ)⟩
    if gnorm < 1/1000000000 then .error .invalidIndices
    else
      let d_hkl := 1 / gnorm
      let n_layers : ℕ := (max (rustRound (thickness / d_hkl)) 1).toNat
      let slab_height := (n_layers : ℚ) * d_hkl
      let normal := (1 / gnorm) • reciprocal_n
      let c_slab := (slab_height + vacuum) • normal
      let temp : Mat3 := ⟨u_cart, v_cart, (10000 : ℚ) • normal⟩
      let reduced := lll_reduce lllFuel temp
      .ok ⟨⟨reduced.c0, reduced.c1, c_slab⟩, d_hkl, n_layers, vacuum⟩



/-! ### Dipole reconstruction (src/synthesis/ionic.rs) -/

/-- src/synthesis/ionic.rs `ReconstructionMode`. -/
inductive ReconstructionMode where
  | None
  | DipoleCorrection
deriving DecidableEq, Repr

/-- `IonicReconstructor::guess_charges`, per atom. -/
def guessCharge (a : Atom) : ℚ :=
  match a.element with
  | "Li" | "Na" | "K" | "H" => 1
  | "Mg" | "Ca" | "Zn" | "Fe" => 2
  | "Al" => 3
  | "F" | "Cl" | "Br" | "I" => -1
  | "O" | "S" => -2
  | "N" => -3
  | _ => 0

/-- Cartesian `z` of an atom under the given lattice. -/
def zCart (lat : Lattice) (a : Atom) : ℚ := (lat.to_cartesian a.fractional_coords).z

/-- Sort key used by `stabilize`: the Cartesian `z` of atom `i`. -/
def zKey (lat : Lattice) (atoms : List Atom) : ℕ → ℚ :=
  fun i => zCart lat (atoms.getD i defaultAtom)

/-- Stable insertion of index `i` into an already-sorted index list: `i` is
placed after every entry whose key is `≤` its own, which together with
left-to-right insertion reproduces the (stable) `sort_by` of the source. -/
def insertByZ (key : ℕ → ℚ) (i : ℕ) : List ℕ → List ℕ
  | [] => [i]
  | j :: t => if key j ≤ key i then j :: insertByZ key i t else i :: j :: t

/-- Stable sort of an index list by `key` (the source sorts indices by
Cartesian `z` with a stable `sort_by`). -/
def sortIdxByZ (key : ℕ → ℚ) (l : List ℕ) : List ℕ :=
  l.foldl (fun acc i => insertByZ key i acc) []

/-- The plane-clustering loop of `stabilize`: an atom joins the current
plane when its `z` differs from the `z` of the plane's FIRST atom
(`current_z`) by less than the tolerance 0.25; otherwise a new plane starts
at it. -/
def clusterGo (key : ℕ → ℚ) : List ℕ → List ℕ → ℚ → List (List ℕ) → List (List ℕ)
  | [], cur, _, acc => acc ++ [cur]
  | idx :: t, cur, cz, acc =>
    if |key idx - cz| < 1/4 then clusterGo key t (cur ++ [idx]) cz acc
    else clusterGo key t [idx] (key idx) (acc ++ [cur])

def planesOf (key : ℕ → ℚ) (idxs : List ℕ) : List (List ℕ) :=
  match idxs with
  | [] => []
  | h :: t => clusterGo key t [h] (key h) []

/-- The planes computed by `stabilize` for a given atom list. -/
def stabPlanes (lat : Lattice) (atoms : List Atom) : List (List ℕ) :=
  planesOf (zKey lat atoms) (sortIdxByZ (zKey lat atoms) (List.range atoms.length))

def vecSum (l : List (Vec3 ℚ)) : Vec3 ℚ := l.foldl (· + ·) Vec3.zero

/-- `IonicReconstructor::average_pos`. -/
def avgPos (lat : Lattice) (idxs : List ℕ) (atoms : List Atom) : Vec3 ℚ :=
  (vecSum (idxs.map
    (fun i => lat.to_cartesian ((atoms.getD i defaultAtom).fractional_coords)))).sdivide
    (idxs.length : ℚ)

/-- The net dipole `Σ qᵢ·zᵢ` over the original atom order. -/
def dipoleZ (lat : Lattice) (atoms : List Atom) : ℚ :=
  (atoms.map (fun a => guessCharge a * zCart lat a)).sum

/-- The top plane as accessed by the source (`planes.last()`); `[]` when
there are no planes (empty atom list). -/
def topPlane (lat : Lattice) (atoms : List Atom) : List ℕ :=
  ((stabPlanes lat atoms).getLast?).getD []

/-- The condition under which `stabilize` in `DipoleCorrection` mode moves
atoms: `|D| > 0.5`, at least two planes, and at least two atoms in the top
plane (the source tests `num_to_move > 0 && planes.len() > 1` with
`num_to_move = top.len() / 2`). -/
def stabCond (lat : Lattice) (atoms : List Atom) : Prop :=
  1/2 < |dipoleZ lat atoms| ∧
  2 ≤ (stabPlanes lat atoms).length ∧ 2 ≤ (topPlane lat atoms).length

instance (lat : Lattice) (atoms : List Atom) : Decidable (stabCond lat atoms) := by
  unfold stabCond
  infer_instance

/-- The ghost centre: bottom-plane centroid plus
`v_down = -(centroid(plane[1]) - centroid(plane[0]))`. -/
def ghostCenter (lat : Lattice) (atoms : List Atom) : Vec3 ℚ :=
  avgPos lat ((stabPlanes lat atoms).getD 0 []) atoms +
    -(avgPos lat ((stabPlanes lat atoms).getD 1 []) atoms -
      avgPos lat ((stabPlanes lat atoms).getD 0 []) atoms)

/-- The new value of a moved atom: same element and tag, fractional
coordinates of `ghost_center + (cartesian(atom) - top_centroid)`. -/
def movedAtomNew (lat : Lattice) (atoms : List Atom) (i : ℕ) : Atom :=
  let a := atoms.getD i defaultAtom
  { a with fractional_coords :=
      lat.to_fractional (ghostCenter lat atoms +
        (lat.to_cartesian a.fractional_coords - avgPos lat (topPlane lat atoms) atoms)) }

/-- The indices `stabilize` mutates (the first `⌊top/2⌋` entries of the top
plane, when the mode is `DipoleCorrection` and the move condition holds). -/
def movedIndices (lat : Lattice) (atoms : List Atom) (mode : ReconstructionMode) : List ℕ :=
  if mode = ReconstructionMode.None ∨ atoms = [] then []
  else if 1/2 < |dipoleZ lat atoms| then
    match (stabPlanes lat atoms).getLast? with
    | none => []
    | some top =>
      if 0 < top.length / 2 ∧ 1 < (stabPlanes lat atoms).length then
        top.take (top.length / 2)
      else []
  else []

/-- src/synthesis/ionic.rs `IonicReconstructor::stabilize`.  The returned
report strings of the source are interpolated `format!` strings; only their
identity per control path is modelled. -/
def stabilize (atoms : List Atom) (lat : Lattice) (mode : ReconstructionMode) :
    List Atom × String :=
  if mode = ReconstructionMode.None ∨ atoms = [] then
    (atoms, "No reconstruction applied.")
  else
    let planes := stabPlanes lat atoms
    if 1/2 < |dipoleZ lat atoms| then
      match planes.getLast? with
      | none => (atoms, "Surface is stable.")
      | some top =>
        if 0 < top.length / 2 ∧ 1 < planes.length then
          let top_avg := avgPos lat top atoms
          let v_up := avgPos lat (planes.getD 1 []) atoms -
            avgPos lat (planes.getD 0 []) atoms
          let ghost := avgPos lat (planes.getD 0 []) atoms + -v_up
          let newAtoms := (top.take (top.length / 2)).foldl (fun acc i =>
            let a := acc.getD i defaultAtom
            acc.set i { a with fractional_coords :=
              lat.to_fractional (ghost +
                (lat.to_cartesian a.fractional_coords - top_avg)) }) atoms
          (newAtoms, "Dipole detected. Moved atoms to crystallographic bottom sites.")
        else (atoms, "Surface is stable.")
    else (atoms, "Surface is stable.")



/-! ### Molecule finder (src/core/connectivity.rs) -/

/-- The bonding test of `GraphRepresentation::from_crystal`: squared
minimum-image distance strictly below `cutoff²`. -/
def distCond (c : Crystal) (cutoff : ℚ) (i j : ℕ) : Prop :=
  (c.lattice.get_shortest_distance_vector
      (c.atoms.getD i defaultAtom).fractional_coords
      (c.atoms.getD j defaultAtom).fractional_coords).normSq < cutoff ^ 2

instance (c : Crystal) (cutoff : ℚ) (i j : ℕ) : Decidable (distCond c cutoff i j) := by
  unfold distCond
  infer_instance

/-- The edge list in insertion order (`for i { for j in i+1.. }`), as built
by `from_crystal`.  (`(range N).filter (i < ·)` is the list
`[i+1, …, N-1]`, matching the source's inner loop.) -/
def edgeList (c : Crystal) (cutoff : ℚ) : List (ℕ × ℕ) :=
  ((List.range c.atoms.length).flatMap (fun i =>
    (((List.range c.atoms.length).filter (fun j => decide (i < j))).map
      (fun j => (i, j))))).filter
    (fun p => decide (distCond c cutoff p.1 p.2))

/-- Undirected adjacency of the distance graph. -/
def isBond (c : Crystal) (cutoff : ℚ) (i j : ℕ) : Prop :=
  (i, j) ∈ edgeList c cutoff ∨ (j, i) ∈ edgeList c cutoff

instance (c : Crystal) (cutoff : ℚ) (i j : ℕ) : Decidable (isBond c cutoff i j) := by
  unfold isBond
  infer_instance

/-- Neighbour iteration order of petgraph's `UnGraph`: incident edges in
reverse insertion order, mapped to the opposite endpoint. -/
def neighbors (c : Crystal) (cutoff : ℚ) (a : ℕ) : List ℕ :=
  ((((edgeList c cutoff).filter (fun e => decide (e.1 = a ∨ e.2 = a))).map
    (fun e => if e.1 = a then e.2 else e.1))).reverse

/-- The partial map from atom index to unwrapped Cartesian position built
by the reconstruction BFS (`reassembled_atoms`). -/
abbrev PosMap : Type := List (ℕ × Vec3 ℚ)

def PosMap.lookup (m : PosMap) (x : ℕ) : Option (Vec3 ℚ) := List.lookup x m

def PosMap.keys (m : PosMap) : List ℕ := m.map Prod.fst

/-- Reachability in the distance graph along neighbour steps. -/
def Reach (c : Crystal) (cutoff : ℚ) (s x : ℕ) : Prop :=
  Relation.ReflTransGen (fun a b => b ∈ neighbors c cutoff a) s x

/-- The minimum-image step vector used by the unwrap. -/
def sdv (c : Crystal) (i j : ℕ) : Vec3 ℚ :=
  c.lattice.get_shortest_distance_vector
    (c.atoms.getD i defaultAtom).fractional_coords
    (c.atoms.getD j defaultAtom).fractional_coords

/-- The inner `for neighbor in graph.neighbors(current)` loop of the unwrap
BFS: each not-yet-assigned neighbour is placed at
`current_pos + shortest_vec` and enqueued. -/
def stepNbrs (c : Crystal) (cur : ℕ) (curPos : Vec3 ℚ) :
    List ℕ → PosMap → List ℕ → PosMap × List ℕ
  | [], pos, newq => (pos, newq)
  | nb :: t, pos, newq =>
    if (pos.lookup nb).isSome then stepNbrs c cur curPos t pos newq
    else stepNbrs c cur curPos t ((nb, curPos + sdv c cur nb) :: pos) (newq ++ [nb])

/-- Fuelled queue loop of the unwrap BFS (`while let Some(current_idx) =
queue.pop_front()`); `none` is the unreachable out-of-fuel result. -/
def bfsGo (c : Crystal) (cutoff : ℚ) : ℕ → PosMap → List ℕ → Option PosMap
  | 0, pos, q => match q with | [] => some pos | _ :: _ => none
  | fuel + 1, pos, q =>
    match q with
    | [] => some pos
    | cur :: rest =>
      let curPos := (pos.lookup cur).getD Vec3.zero
      let pr := stepNbrs c cur curPos (neighbors c cutoff cur) pos []
      bfsGo c cutoff fuel pr.1 (rest ++ pr.2)

/-- Fuel that provably suffices for the BFS queue loop. -/
def bfsFuel (c : Crystal) : ℕ := (c.atoms.length + 1) * (c.atoms.length + 1)

/-- The unwrap BFS from a start atom: the start is fixed at its Cartesian
position; the loop then assigns every reachable atom exactly once. -/
def bfsMap (c : Crystal) (cutoff : ℚ) (start : ℕ) : PosMap :=
  (bfsGo c cutoff (bfsFuel c)
      [(start, c.lattice.to_cartesian ((c.atoms.getD start defaultAtom).fractional_coords))]
      [start]).getD
    [(start, c.lattice.to_cartesian ((c.atoms.getD start defaultAtom).fractional_coords))]

/-- Ascending sort of a component (`component.sort_unstable()`; the indices
are pairwise distinct, so any correct sort gives the same list). -/
def sortNat (l : List ℕ) : List ℕ := List.insertionSort (· ≤ ·) l

/-- One outer step of `find_connected_components`: skip visited indices,
otherwise collect the BFS-reachable set, drop already-visited members (the
source re-checks `visited` per reached node), sort, and record. -/
def componentsStep (c : Crystal) (cutoff : ℚ)
    (st : List (List ℕ) × List ℕ) (i : ℕ) : List (List ℕ) × List ℕ :=
  if st.2.contains i then st
  else
    let comp := (sortNat (PosMap.keys (bfsMap c cutoff i))).filter
      (fun j => ! st.2.contains j)
    if comp.isEmpty then st
    else (st.1 ++ [comp], st.2 ++ comp)

/-- `GraphRepresentation::find_connected_components`. -/
def findConnectedComponents (c : Crystal) (cutoff : ℚ) : List (List ℕ) :=
  ((List.range c.atoms.length).foldl (componentsStep c cutoff) ([], [])).1

/-- The unwrap map used for a component: BFS from the component's lowest
index (`indices[0]`). -/
def molMap (c : Crystal) (cutoff : ℚ) (comp : List ℕ) : PosMap :=
  bfsMap c cutoff (comp.headD 0)

/-- Step 4 of `find_molecules_with_indices`: the centre of mass summed over
`reassembled_atoms.values()` in the oracle order `valOrder` (a `HashMap`
iteration order), divided by the map's size. -/
def molCom (c : Crystal) (cutoff : ℚ) (valOrder : List (Vec3 ℚ) → List (Vec3 ℚ))
    (comp : List ℕ) : Vec3 ℚ :=
  (vecSum (valOrder ((molMap c cutoff comp).map Prod.snd))).sdivide
    ((molMap c cutoff comp).length : ℚ)

/-- Step 5: canonical shift `to_cartesian(-⌊to_fractional(COM)⌋)`. -/
def molShiftCart (c : Crystal) (cutoff : ℚ) (valOrder : List (Vec3 ℚ) → List (Vec3 ℚ))
    (comp : List ℕ) : Vec3 ℚ :=
  c.lattice.to_cartesian
    ⟨-(⌊(c.lattice.to_fractional (molCom c cutoff valOrder comp)).x⌋ : ℚ),
     -(⌊(c.lattice.to_fractional (molCom c cutoff valOrder comp)).y⌋ : ℚ),
     -(⌊(c.lattice.to_fractional (molCom c cutoff valOrder comp)).z⌋ : ℚ)⟩

/-- The shifted atom list of a molecule (in sorted component order; the
lookup mirrors the source's `if let Some(&pos) = reassembled_atoms.get`). -/
def molAtomsCart (c : Crystal) (cutoff : ℚ) (valOrder : List (Vec3 ℚ) → List (Vec3 ℚ))
    (comp : List ℕ) : List (String × Vec3 ℚ) :=
  comp.filterMap (fun idx =>
    ((molMap c cutoff comp).lookup idx).map (fun p =>
      ((c.atoms.getD idx defaultAtom).element, p + molShiftCart c cutoff valOrder comp)))

/-- Steps 3-5 of `find_molecules_with_indices` for one component. -/
def buildMolecule (c : Crystal) (cutoff : ℚ)
    (valOrder : List (Vec3 ℚ) → List (Vec3 ℚ)) (comp : List ℕ) : Molecule :=
  ⟨molAtomsCart c cutoff valOrder comp,
   (vecSum ((molAtomsCart c cutoff valOrder comp).map Prod.snd)).sdivide
     ((molAtomsCart c cutoff valOrder comp).length : ℚ)⟩

/-- src/core/connectivity.rs `MoleculeFinder::find_molecules_with_indices`
(the `Result` of the source is always `Ok`; the assigned-index `HashSet` is
modelled as the list of assigned indices in insertion order). -/
def findMoleculesWithIndices (valOrder : List (Vec3 ℚ) → List (Vec3 ℚ))
    (c : Crystal) (cutoff : ℚ) : List Molecule × List ℕ :=
  if c.atoms.isEmpty then ([], [])
  else
    ((findConnectedComponents c cutoff).map (buildMolecule c cutoff valOrder),
     (findConnectedComponents c cutoff).flatten)

/-- A one-atom test crystal in a unit cube (identity lattice). -/
def singleC : Crystal :=
  ⟨⟨Mat3.one, Mat3.one⟩, [⟨"H", Vec3.zero, ComponentType.Unknown⟩]⟩

/-- A three-atom chain along x in a 3x3x3 cube that closes into a ring
through the periodic boundary: each of the pairs (0,1), (1,2) and (0,2)
is within minimum-image distance 1 < 6/5 of the other. -/
def ringC : Crystal :=
  ⟨⟨⟨⟨3, 0, 0⟩, ⟨0, 3, 0⟩, ⟨0, 0, 3⟩⟩, ⟨⟨1/3, 0, 0⟩, ⟨0, 1/3, 0⟩, ⟨0, 0, 1/3⟩⟩⟩,
   [⟨"C", ⟨0, 0, 0⟩, ComponentType.Unknown⟩,
    ⟨"C", ⟨1/3, 0, 0⟩, ComponentType.Unknown⟩,
    ⟨"C", ⟨2/3, 0, 0⟩, ComponentType.Unknown⟩]⟩

/-- Number of atom indices not yet assigned an unwrapped position; the
dominant component of the BFS termination measure. -/
def missCount (c : Crystal) (pos : PosMap) : ℕ :=
  ((List.range c.atoms.length).filter (fun i => decide (i ∉ PosMap.keys pos))).length

/-- Termination measure of the BFS queue loop: each iteration either
assigns at least one new atom or shortens the queue. -/
def bfsMeasure (c : Crystal) (pos : PosMap) (q : List ℕ) : ℕ :=
  missCount c pos * (c.atoms.length + 1) + q.length

/-- Loop invariant of the unwrap BFS from `start`: assigned keys are
distinct, queued atoms are assigned, every assigned atom other than the
anchored start has a parent (an assigned graph-neighbour from which its
position was derived by one minimum-image step), every assigned atom is
reachable from the start, and every assigned atom is either still queued
or has all its neighbours assigned. -/
def BfsInv (c : Crystal) (cutoff : ℚ) (start : ℕ) (pos : PosMap) (q : List ℕ) : Prop :=
  (PosMap.keys pos).Nodup ∧
  (∀ x ∈ q, x ∈ PosMap.keys pos) ∧
  (∀ x p, PosMap.lookup pos x = some p →
    (x = start ∧
      p = c.lattice.to_cartesian ((c.atoms.getD start defaultAtom).fractional_coords)) ∨
    ∃ cp pp, PosMap.lookup pos cp = some pp ∧ x ∈ neighbors c cutoff cp ∧
      p = pp + sdv c cp x) ∧
  (∀ x ∈ PosMap.keys pos, Reach c cutoff start x) ∧
  (∀ x ∈ PosMap.keys pos, x ∈ q ∨ ∀ y ∈ neighbors c cutoff x, y ∈ PosMap.keys pos)

/-! ### src/synthesis/population.rs: `SlabPopulator::populate` -/

/-- The integer sweep `-repeats..=repeats` of `populate`. -/
def intRange (r : ℤ) : List ℤ :=
  (List.range (2 * r + 1).toNat).map (fun t => (t : ℤ) - r)

/-- The replication shifts, in iteration order (`i` outer, then `j`, then
`k`). -/
def shiftList (r : ℤ) : List (Vec3 ℚ) :=
  (intRange r).flatMap (fun i =>
    (intRange r).flatMap (fun j =>
      (intRange r).map (fun k => ⟨(i : ℚ), (j : ℚ), (k : ℚ)⟩)))

/-- `slab_normal = slab_c.normalize()`; `cnorm` stands for the `f64` norm
`‖slab_c‖` computed with `sqrt`, constrained in the theorems by
`0 < cnorm ∧ cnorm² = ‖slab_c‖²`. -/
def slabNormal (geometry : SlabGeometry) (cnorm : ℚ) : Vec3 ℚ :=
  (geometry.basis.col 2).sdivide cnorm

/-- The layer index of a Cartesian point: its projection on the slab normal
divided by `d_hkl`. -/
def layerVal (geometry : SlabGeometry) (cnorm : ℚ) (p : Vec3 ℚ) : ℚ :=
  p.dot (slabNormal geometry cnorm) / geometry.d_hkl

/-- The acceptance test of `populate`:
`layer_val >= min_idx && layer_val < max_idx` with
`min_idx = offset_z/d_hkl - 1e-3`, `max_idx = offset_z/d_hkl + n_layers - 1e-3`. -/
def acceptPos (geometry : SlabGeometry) (offset_z cnorm : ℚ) (p : Vec3 ℚ) : Prop :=
  offset_z / geometry.d_hkl - 1/1000 ≤ layerVal geometry cnorm p ∧
  layerVal geometry cnorm p < offset_z / geometry.d_hkl + (geometry.n_layers : ℚ) - 1/1000

instance (geometry : SlabGeometry) (offset_z cnorm : ℚ) (p : Vec3 ℚ) :
    Decidable (acceptPos geometry offset_z cnorm p) := by
  unfold acceptPos
  infer_instance

/-- `cell_height_ang`: the largest absolute projection of a bulk lattice
vector on the slab normal. -/
def cellHeight (crystal : Crystal) (geometry : SlabGeometry) (cnorm : ℚ) : ℚ :=
  max (max |crystal.lattice.matrix.c0.dot (slabNormal geometry cnorm)|
        |crystal.lattice.matrix.c1.dot (slabNormal geometry cnorm)|)
    |crystal.lattice.matrix.c2.dot (slabNormal geometry cnorm)|

/-- `repeats = ceil(n_layers * d_hkl / cell_height) + 3`. -/
def popRepeats (crystal : Crystal) (geometry : SlabGeometry) (cnorm : ℚ) : ℤ :=
  ⌈(geometry.n_layers : ℚ) * geometry.d_hkl / cellHeight crystal geometry cnorm⌉ + 3

/-- Interim atom list of the molecular branch: for every accepted shifted
molecule (by its shifted centre of mass), all its atoms are emitted. -/
def interimMol (crystal : Crystal) (geometry : SlabGeometry) (molecules : List Molecule)
    (offset_z cnorm : ℚ) : List (String × Vec3 ℚ × ComponentType) :=
  (shiftList (popRepeats crystal geometry cnorm)).flatMap (fun s =>
    molecules.flatMap (fun mol =>
      if acceptPos geometry offset_z cnorm
          (mol.center_of_mass + crystal.lattice.to_cartesian s)
      then mol.atoms.map (fun ep =>
        (ep.1, ep.2 + crystal.lattice.to_cartesian s, ComponentType.Unknown))
      else []))

/-- Interim atom list of the atomic branch: every accepted shifted atom. -/
def interimAtomic (crystal : Crystal) (geometry : SlabGeometry)
    (offset_z cnorm : ℚ) : List (String × Vec3 ℚ × ComponentType) :=
  (shiftList (popRepeats crystal geometry cnorm)).flatMap (fun s =>
    crystal.atoms.filterMap (fun atom =>
      if acceptPos geometry offset_z cnorm
          (crystal.lattice.to_cartesian atom.fractional_coords +
            crystal.lattice.to_cartesian s)
      then some (atom.element,
        crystal.lattice.to_cartesian atom.fractional_coords +
          crystal.lattice.to_cartesian s, atom.component_type)
      else none))

/-- `final_atoms` of `populate` just before the emptiness check. -/
def interimAtoms (crystal : Crystal) (geometry : SlabGeometry) (molecules : List Molecule)
    (offset_z cnorm : ℚ) : List (String × Vec3 ℚ × ComponentType) :=
  if molecules.isEmpty then interimAtomic crystal geometry offset_z cnorm
  else interimMol crystal geometry molecules offset_z cnorm

/-- src/synthesis/population.rs `SlabPopulator::populate`.  The final
centring maps every interim atom by the normal shift
`target_z_start - min_z` and converts to slab-fractional coordinates with
the inverse slab basis (`total_box_height = ‖slab_c‖ = cnorm`). -/
def populate (crystal : Crystal) (geometry : SlabGeometry) (molecules : List Molecule)
    (offset_z cnorm : ℚ) : Except SlabError (List Atom) :=
  if cellHeight crystal geometry cnorm < 1/1000000000 then .error .degenerateCell
  else
    match interimAtoms crystal geometry molecules offset_z cnorm with
    | [] => .error .emptySlab
    | a :: rest =>
      match (geometry.basis).inv? with
      | none => .error .singularSlab
      | some binv =>
        .ok ((a :: rest).map (fun t =>
          ⟨t.1,
           binv.mulVec (t.2.1 + Vec3.smul
             ((cnorm -
                 ((rest.foldl (fun m u => max m (u.2.1.dot (slabNormal geometry cnorm)))
                     (a.2.1.dot (slabNormal geometry cnorm))) -
                   rest.foldl (fun m u => min m (u.2.1.dot (slabNormal geometry cnorm)))
                     (a.2.1.dot (slabNormal geometry cnorm)))) / 2 -
               rest.foldl (fun m u => min m (u.2.1.dot (slabNormal geometry cnorm)))
                 (a.2.1.dot (slabNormal geometry cnorm)))
             (slabNormal geometry cnorm)),
           t.2.2⟩))

/-- A trivial slab geometry over the unit cube: identity basis, one layer,
`d_hkl = 1`, no vacuum; its third basis column has exact norm 1. -/
def geomOne : SlabGeometry := ⟨Mat3.one, 1, 1, 0⟩

/-- A molecule with no atoms (and centre of mass at the origin). -/
def emptyMol : Molecule := ⟨[], Vec3.zero⟩

/-! ### Proof-side quantities for the termination of `lll_reduce` (C7) -/

/-- First Gram-Schmidt vector of columns 0,1 (as recomputed by the source's
inner loops): `b₁* = b₁ - μ₁₀ b₀`. -/
def s1v (b : Mat3) : Vec3 ℚ :=
  b.c1 - (b.c1.dot b.c0 / b.c0.dot b.c0) • b.c0

/-- Second Gram-Schmidt vector: `b₂* = b₂ - μ₂₀ b₀ - μ₂₁ b₁*`. -/
def s2v (b : Mat3) : Vec3 ℚ :=
  b.c2 - (b.c2.dot b.c0 / b.c0.dot b.c0) • b.c0 -
    (b.c2.dot (s1v b) / (s1v b).dot (s1v b)) • s1v b

/-- The Lovász `μ` at `k = 1` after a size reduction by `m`. -/
def lmu1 (b : Mat3) (m : ℤ) : ℚ :=
  ((b.c1 - (m : ℚ) • b.c0).dot b.c0) / (b.c0.dot b.c0)

/-- The Lovász `μ` at `k = 2` after size reductions by `m1, m0`. -/
def lmu2 (b : Mat3) (m1 m0 : ℤ) : ℚ :=
  ((b.c2 - (m1 : ℚ) • b.c1 - (m0 : ℚ) • b.c0).dot (s1v b)) /
    ((s1v b).dot (s1v b))

/-- First LLL subdeterminant: `d₁ = ‖b₀‖²`. -/
def d1 (b : Mat3) : ℚ := b.c0.dot b.c0

/-- Second LLL subdeterminant: `d₂ = det Gram(b₀,b₁) = ‖b₀ × b₁‖²`. -/
def d2 (b : Mat3) : ℚ := (b.c0.cross b.c1).normSq

/-- The LLL potential `d₁ · d₂`: constant under size reductions and `k`
advances, shrunk by a factor `< 3/4` at every swap. -/
def lllPot (b : Mat3) : ℚ := d1 b * d2 b

/-- Membership in the integer lattice generated by three vectors. -/
def inLat (u0 u1 u2 v : Vec3 ℚ) : Prop :=
  ∃ a b c : ℤ, v = (a : ℚ) • u0 + (b : ℚ) • u1 + (c : ℚ) • u2

/-- Loop invariant of `lll_reduce`: the working columns stay in the integer
lattice of the input columns and the basis stays non-singular. -/
def lllInv (u0 u1 u2 : Vec3 ℚ) (b : Mat3) : Prop :=
  inLat u0 u1 u2 b.c0 ∧ inLat u0 u1 u2 b.c1 ∧ inLat u0 u1 u2 b.c2 ∧ b.det ≠ 0

/-- The invariant carried by `find_connected_components` over its outer
loop: every recorded component is a non-empty duplicate-free list that is
exactly one reachability class, and the visited set is the union of the
recorded components. -/
def ComponentsInv (c : Crystal) (cutoff : ℚ) (st : List (List ℕ) × List ℕ) : Prop :=
  (∀ x, x ∈ st.2 ↔ ∃ comp ∈ st.1, x ∈ comp) ∧
  (∀ comp ∈ st.1, comp ≠ [] ∧ comp.Nodup ∧
    ∃ i, i < c.atoms.length ∧ (∀ x, x ∈ comp ↔ Reach c cutoff i x))


end PolySurf

namespace PolySurf

/-! ### Basic algebraic lemmas about the embedding -/

theorem Vec3.add_def {α : Type} [Add α] (a b : Vec3 α) :
    a + b = ⟨a.x + b.x, a.y + b.y, a.z + b.z⟩ := rfl

theorem Vec3.sub_def {α : Type} [Sub α] (a b : Vec3 α) :
    a - b = ⟨a.x - b.x, a.y - b.y, a.z - b.z⟩ := rfl

theorem Vec3.smul_def {α : Type} [Mul α] (c : α) (a : Vec3 α) :
    c • a = ⟨c * a.x, c * a.y, c * a.z⟩ := rfl

theorem Vec3.neg_def {α : Type} [Neg α] (a : Vec3 α) : -a = ⟨-a.x, -a.y, -a.z⟩ := rfl

theorem rustRound_le_half (q : ℚ) : |q - rustRound q| ≤ 1/2 := by
  unfold rustRound
  by_cases h : 0 ≤ q
  · rw [if_pos h, abs_le]
    have h1 := Int.lt_floor_add_one (q + 1/2)
    have h2 := Int.floor_le (q + 1/2)
    constructor <;> [skip; skip] <;> push_cast <;> linarith
  · rw [if_neg h, abs_le]
    have h1 := Int.lt_floor_add_one (-q + 1/2)
    have h2 := Int.floor_le (-q + 1/2)
    constructor <;> [skip; skip] <;> push_cast <;> linarith

theorem wrapComp_mem_Icc (q : ℚ) : -(1/2) ≤ wrapComp q ∧ wrapComp q ≤ 1/2 := by
  have h := rustRound_le_half q
  rw [abs_le] at h
  exact ⟨h.1, h.2⟩

/-- CLAIM C3 (amended): the minimum-image computation forms `d = f2 - f1`
and replaces each component by `d - round(d)`; each resulting component lies
in the closed interval `[-1/2, 1/2]` (the left endpoint is attained, so the
half-open interval `(-1/2, 1/2]` of the original claim is wrong). -/
theorem minImage_components_in_closed_half
    (f1 f2 : Vec3 ℚ) :
    minImageFrac f1 f2 = ⟨wrapComp (f2 - f1).x, wrapComp (f2 - f1).y, wrapComp (f2 - f1).z⟩ ∧
    (-(1/2) ≤ (minImageFrac f1 f2).x ∧ (minImageFrac f1 f2).x ≤ 1/2) ∧
    (-(1/2) ≤ (minImageFrac f1 f2).y ∧ (minImageFrac f1 f2).y ≤ 1/2) ∧
    (-(1/2) ≤ (minImageFrac f1 f2).z ∧ (minImageFrac f1 f2).z ≤ 1/2) := by
  refine ⟨rfl, ?_, ?_, ?_⟩ <;> exact wrapComp_mem_Icc _

/-- CLAIM C3 counterexample: for `f1 = 0`, `f2 = (1/2, 0, 0)` the wrapped
first component is `-1/2`, which does not lie in the half-open interval
`(-1/2, 1/2]` asserted by the claim. -/
theorem minImage_left_endpoint_attained :
    (minImageFrac ⟨0, 0, 0⟩ ⟨1/2, 0, 0⟩).x = -(1/2) ∧
    ¬ (-(1/2) < (minImageFrac ⟨0, 0, 0⟩ ⟨1/2, 0, 0⟩).x) := by
  constructor
  · with_unfolding_all decide
  · with_unfolding_all decide

/-! ### Integer vector algebra (for C4) -/

theorem Vec3.dot_cross_self_left (a b : Vec3 ℤ) : a.dot (a.cross b) = 0 := by
  cases a; cases b; simp only [Vec3.dot, Vec3.cross]; ring

theorem Vec3.dot_cross_self_right (a b : Vec3 ℤ) : b.dot (a.cross b) = 0 := by
  cases a; cases b; simp only [Vec3.dot, Vec3.cross]; ring

/-- Lagrange's identity specialised to the cross product. -/
theorem Vec3.normSq_cross (a b : Vec3 ℤ) :
    (a.cross b).dot (a.cross b) = a.dot a * b.dot b - (a.dot b) ^ 2 := by
  cases a; cases b; simp only [Vec3.dot, Vec3.cross]; ring

theorem Vec3.dot_self_nonneg (v : Vec3 ℤ) : 0 ≤ v.dot v := by
  obtain ⟨x, y, z⟩ := v
  simp only [Vec3.dot]
  nlinarith [mul_self_nonneg x, mul_self_nonneg y, mul_self_nonneg z]

theorem Vec3.dot_self_eq_zero (v : Vec3 ℤ) : v.dot v = 0 ↔ v = Vec3.zero := by
  obtain ⟨x, y, z⟩ := v
  simp only [Vec3.dot, Vec3.zero, Vec3.mk.injEq]
  constructor
  · intro h
    refine ⟨?_, ?_, ?_⟩ <;> nlinarith [mul_self_nonneg x, mul_self_nonneg y, mul_self_nonneg z]
  · rintro ⟨rfl, rfl, rfl⟩; ring

theorem gcd3_dvd_x (v : Vec3 ℤ) : (gcd3 v : ℤ) ∣ v.x :=
  dvd_trans (dvd_trans Int.gcd_dvd_left Int.gcd_dvd_left) dvd_rfl

theorem gcd3_dvd_y (v : Vec3 ℤ) : (gcd3 v : ℤ) ∣ v.y :=
  dvd_trans Int.gcd_dvd_left Int.gcd_dvd_right

theorem gcd3_dvd_z (v : Vec3 ℤ) : (gcd3 v : ℤ) ∣ v.z := Int.gcd_dvd_right

theorem gcd3_eq_zero (v : Vec3 ℤ) : gcd3 v = 0 ↔ v = Vec3.zero := by
  obtain ⟨x, y, z⟩ := v
  simp only [gcd3, Int.gcd_eq_zero_iff, Int.natCast_eq_zero, Vec3.zero, Vec3.mk.injEq]
  tauto

theorem Vec3.dot_self_pos (v : Vec3 ℤ) (hv : v ≠ Vec3.zero) : 0 < v.dot v :=
  lt_of_le_of_ne (Vec3.dot_self_nonneg v)
    (fun h => hv ((Vec3.dot_self_eq_zero v).mp h.symm))

theorem idiv_gcd3_smul (v : Vec3 ℤ) :
    (gcd3 v : ℤ) • (v.idiv (gcd3 v)) = v := by
  obtain ⟨x, y, z⟩ := v
  show Vec3.smul _ _ = _
  simp only [Vec3.idiv, Vec3.smul]
  have hx := Int.mul_ediv_cancel' (gcd3_dvd_x ⟨x, y, z⟩)
  have hy := Int.mul_ediv_cancel' (gcd3_dvd_y ⟨x, y, z⟩)
  have hz := Int.mul_ediv_cancel' (gcd3_dvd_z ⟨x, y, z⟩)
  simp only at hx hy hz
  rw [hx, hy, hz]

theorem idiv_gcd3_ne_zero (v : Vec3 ℤ) (hv : v ≠ Vec3.zero) :
    v.idiv (gcd3 v) ≠ Vec3.zero := by
  intro h0
  apply hv
  have := idiv_gcd3_smul v
  rw [h0] at this
  rw [← this]
  show Vec3.smul _ _ = _
  simp [Vec3.smul, Vec3.zero]

theorem dot_idiv_eq_zero (n v : Vec3 ℤ) (c : ℕ) (hc : (c : ℤ) ∣ v.x ∧ (c : ℤ) ∣ v.y ∧ (c : ℤ) ∣ v.z)
    (hc0 : c ≠ 0) (h : n.dot v = 0) : n.dot (v.idiv c) = 0 := by
  have hmul : (c : ℤ) * n.dot (v.idiv c) = n.dot v := by
    obtain ⟨x, y, z⟩ := v
    simp only [Vec3.dot, Vec3.idiv] at *
    have hx := Int.mul_ediv_cancel' hc.1
    have hy := Int.mul_ediv_cancel' hc.2.1
    have hz := Int.mul_ediv_cancel' hc.2.2
    simp only at hx hy hz
    calc (c : ℤ) * (n.x * (x / c) + n.y * (y / c) + n.z * (z / c))
        = n.x * ((c : ℤ) * (x / c)) + n.y * ((c : ℤ) * (y / c)) + n.z * ((c : ℤ) * (z / c)) := by ring
      _ = n.x * x + n.y * y + n.z * z := by rw [hx, hy, hz]
  rw [h] at hmul
  have : (c : ℤ) ≠ 0 := Int.natCast_ne_zero.mpr hc0
  exact (mul_eq_zero.mp hmul).resolve_left this

theorem gcd3_idiv_eq_one (v : Vec3 ℤ) (hv : v ≠ Vec3.zero) :
    gcd3 (v.idiv (gcd3 v)) = 1 := by
  set g := gcd3 v with hg
  have hg0 : g ≠ 0 := fun h => hv ((gcd3_eq_zero v).mp h)
  set w := v.idiv g with hw
  set d := gcd3 w with hd
  have hdx : (d : ℤ) ∣ w.x := gcd3_dvd_x w
  have hdy : (d : ℤ) ∣ w.y := gcd3_dvd_y w
  have hdz : (d : ℤ) ∣ w.z := gcd3_dvd_z w
  have hvx : ((d * g : ℕ) : ℤ) ∣ v.x := by
    obtain ⟨kx, hkx⟩ := hdx
    refine ⟨kx, ?_⟩
    have := idiv_gcd3_smul v
    rw [← hg, ← hw] at this
    have hx : (g : ℤ) * w.x = v.x := congrArg Vec3.x this
    push_cast
    rw [← hx, hkx]; ring
  have hvy : ((d * g : ℕ) : ℤ) ∣ v.y := by
    obtain ⟨ky, hky⟩ := hdy
    refine ⟨ky, ?_⟩
    have := idiv_gcd3_smul v
    rw [← hg, ← hw] at this
    have hy : (g : ℤ) * w.y = v.y := congrArg Vec3.y this
    push_cast
    rw [← hy, hky]; ring
  have hvz : ((d * g : ℕ) : ℤ) ∣ v.z := by
    obtain ⟨kz, hkz⟩ := hdz
    refine ⟨kz, ?_⟩
    have := idiv_gcd3_smul v
    rw [← hg, ← hw] at this
    have hz : (g : ℤ) * w.z = v.z := congrArg Vec3.z this
    push_cast
    rw [← hz, hkz]; ring
  have hdg : ((d * g : ℕ) : ℤ) ∣ (g : ℤ) := by
    have h1 : ((d * g : ℕ) : ℤ) ∣ (Int.gcd v.x v.y : ℤ) := Int.dvd_gcd hvx hvy
    have h2 : ((d * g : ℕ) : ℤ) ∣ (g : ℤ) := by
      rw [hg]
      unfold gcd3
      exact Int.dvd_gcd h1 hvz
    exact h2
  have hdgn : d * g ∣ g := Int.natCast_dvd_natCast.mp hdg
  have hgpos : 0 < g := Nat.pos_of_ne_zero hg0
  have hle : d * g ≤ g := Nat.le_of_dvd hgpos hdgn
  have hd1 : d ≤ 1 := by
    by_contra hcon
    push_neg at hcon
    have : 2 * g ≤ d * g := Nat.mul_le_mul_right g hcon
    omega
  have hd0 : d ≠ 0 := by
    intro h0
    have hw0 : w = Vec3.zero := (gcd3_eq_zero w).mp h0
    exact idiv_gcd3_ne_zero v hv (hw ▸ hw0)
  omega

theorem Vec3.dot_comm (a b : Vec3 ℤ) : a.dot b = b.dot a := by
  cases a; cases b; simp only [Vec3.dot]; ring

theorem Vec3.dot_smul_add (w u v : Vec3 ℤ) (a b : ℤ) :
    w.dot (a • u + b • v) = a * w.dot u + b * w.dot v := by
  cases w; cases u; cases v
  simp only [Vec3.dot, Vec3.smul_def, Vec3.add_def]
  ring

/-- `primitiveAlong` keeps orthogonality with `n`, keeps being nonzero, and
makes the components coprime. -/
theorem primitiveAlong_props (n w : Vec3 ℤ) (hw : w ≠ Vec3.zero) (hdot : n.dot w = 0) :
    n.dot (primitiveAlong w) = 0 ∧ primitiveAlong w ≠ Vec3.zero ∧
      gcd3 (primitiveAlong w) = 1 := by
  refine ⟨?_, idiv_gcd3_ne_zero w hw, gcd3_idiv_eq_one w hw⟩
  exact dot_idiv_eq_zero n w (gcd3 w)
    ⟨gcd3_dvd_x w, gcd3_dvd_y w, gcd3_dvd_z w⟩
    (fun h0 => hw ((gcd3_eq_zero w).mp h0)) hdot

/-- CLAIM C4: `find_primitive_in_plane_basis` fails exactly on the zero
Miller triple; otherwise the returned pair `(u, v)` satisfies
`h*u.x + k*u.y + l*u.z = 0` (and likewise for `v`), `u` and `v` are linearly
independent over `ℤ`, and each has coprime components (gcd 1). -/
theorem findPrimitiveInPlaneBasis_correct (h k l : ℤ) :
    (findPrimitiveInPlaneBasis h k l = .error .degenerateIndices ↔ h = 0 ∧ k = 0 ∧ l = 0) ∧
    (∀ u v : Vec3 ℤ, findPrimitiveInPlaneBasis h k l = .ok (u, v) →
      h * u.x + k * u.y + l * u.z = 0 ∧
      h * v.x + k * v.y + l * v.z = 0 ∧
      (∀ a b : ℤ, a • u + b • v = Vec3.zero → a = 0 ∧ b = 0) ∧
      gcd3 u = 1 ∧ gcd3 v = 1) := by
  by_cases hz : h = 0 ∧ k = 0 ∧ l = 0
  · constructor
    · simp [findPrimitiveInPlaneBasis, hz]
    · intro u v huv
      simp [findPrimitiveInPlaneBasis, hz] at huv
  · have hn : (⟨h, k, l⟩ : Vec3 ℤ) ≠ Vec3.zero := by
      intro hcon
      exact hz ⟨congrArg Vec3.x hcon, congrArg Vec3.y hcon, congrArg Vec3.z hcon⟩
    refine ⟨by simp [findPrimitiveInPlaneBasis, hz], ?_⟩
    intro u v huv
    simp only [findPrimitiveInPlaneBasis, if_neg hz, Except.ok.injEq, Prod.mk.injEq] at huv
    obtain ⟨hu_eq, hv_eq⟩ := huv
    -- the raw first vector is nonzero
    have huraw_ne : (⟨h, k, l⟩ : Vec3 ℤ).cross (inPlaneTrial ⟨h, k, l⟩) ≠ Vec3.zero := by
      unfold inPlaneTrial
      by_cases hc : (⟨h, k, l⟩ : Vec3 ℤ).cross ⟨0, 0, 1⟩ = Vec3.zero
      · rw [if_pos hc]
        have hx := congrArg Vec3.x hc
        have hy := congrArg Vec3.y hc
        simp only [Vec3.cross, Vec3.zero] at hx hy
        have hh : h = 0 := by omega
        have hk : k = 0 := by omega
        have hl : l ≠ 0 := fun h0 => hz ⟨hh, hk, h0⟩
        intro hcon
        have hx2 := congrArg Vec3.x hcon
        simp only [Vec3.cross, Vec3.zero] at hx2
        omega
      · rw [if_neg hc]; exact hc
    have hnu_raw : (⟨h, k, l⟩ : Vec3 ℤ).dot ((⟨h, k, l⟩ : Vec3 ℤ).cross (inPlaneTrial ⟨h, k, l⟩)) = 0 :=
      Vec3.dot_cross_self_left _ _
    obtain ⟨hu_dot, hu_ne, hu_gcd⟩ := primitiveAlong_props _ _ huraw_ne hnu_raw
    rw [hu_eq] at hu_dot hu_ne hu_gcd hv_eq
    -- the raw second vector is nonzero: Lagrange identity
    have hvraw_ne : (⟨h, k, l⟩ : Vec3 ℤ).cross u ≠ Vec3.zero := by
      intro hcon
      have hL := Vec3.normSq_cross (⟨h, k, l⟩ : Vec3 ℤ) u
      rw [hcon] at hL
      have hz0 : (Vec3.zero : Vec3 ℤ).dot Vec3.zero = 0 := by
        simp [Vec3.dot, Vec3.zero]
      rw [hz0] at hL
      have hnd : (⟨h, k, l⟩ : Vec3 ℤ).dot u = 0 := hu_dot
      rw [hnd] at hL
      have hp1 := Vec3.dot_self_pos _ hn
      have hp2 := Vec3.dot_self_pos _ hu_ne
      nlinarith
    have hnv_raw : (⟨h, k, l⟩ : Vec3 ℤ).dot ((⟨h, k, l⟩ : Vec3 ℤ).cross u) = 0 :=
      Vec3.dot_cross_self_left _ _
    obtain ⟨hv_dot, hv_ne, hv_gcd⟩ := primitiveAlong_props _ _ hvraw_ne hnv_raw
    rw [hv_eq] at hv_dot hv_ne hv_gcd
    -- u is orthogonal to v
    have huv_dot : u.dot v = 0 := by
      rw [← hv_eq]
      refine dot_idiv_eq_zero u _ (gcd3 ((⟨h, k, l⟩ : Vec3 ℤ).cross u))
        ⟨gcd3_dvd_x _, gcd3_dvd_y _, gcd3_dvd_z _⟩
        (fun h0 => hvraw_ne ((gcd3_eq_zero _).mp h0)) ?_
      exact Vec3.dot_cross_self_right _ _
    have hdotu : (⟨h, k, l⟩ : Vec3 ℤ).dot u = 0 := hu_dot
    have hdotv : (⟨h, k, l⟩ : Vec3 ℤ).dot v = 0 := hv_dot
    refine ⟨by simpa [Vec3.dot] using hdotu, by simpa [Vec3.dot] using hdotv, ?_, hu_gcd, hv_gcd⟩
    intro a b hab
    have h1 : u.dot (a • u + b • v) = 0 := by rw [hab]; simp [Vec3.dot, Vec3.zero]
    rw [Vec3.dot_smul_add] at h1
    rw [huv_dot, mul_zero, add_zero] at h1
    have ha : a = 0 := by
      rcases mul_eq_zero.mp h1 with ha | hc
      · exact ha
      · exact absurd hc (ne_of_gt (Vec3.dot_self_pos u hu_ne))
    subst ha
    have h2 : v.dot ((0 : ℤ) • u + b • v) = 0 := by rw [hab]; simp [Vec3.dot, Vec3.zero]
    rw [Vec3.dot_smul_add] at h2
    have h2' : b * v.dot v = 0 := by linarith
    rcases mul_eq_zero.mp h2' with hb | hc
    · exact ⟨rfl, hb⟩
    · exact absurd hc (ne_of_gt (Vec3.dot_self_pos v hv_ne))



/-! ### Lagrange-Gauss reduction (C5) -/

theorem Vec3.zero_dot (v : Vec3 ℤ) : Vec3.dot Vec3.zero v = 0 := by
  cases v; simp [Vec3.dot, Vec3.zero]

theorem Vec3.sub_smul_dot (u v : Vec3 ℤ) (m : ℤ) :
    (v - m • u).dot (v - m • u) =
      v.dot v - 2 * m * (u.dot v) + m ^ 2 * (u.dot u) := by
  cases u; cases v
  simp only [Vec3.dot, Vec3.smul_def, Vec3.sub_def]
  ring

theorem rustRound_zero_of (q : ℚ) (h : rustRound q = 0) : |q| < 1/2 := by
  unfold rustRound at h
  by_cases hq : 0 ≤ q
  · rw [if_pos hq] at h
    have h1 := Int.lt_floor_add_one (q + 1/2)
    rw [h] at h1
    rw [abs_of_nonneg hq]
    push_cast at h1
    linarith
  · rw [if_neg hq] at h
    have h0 : ⌊-q + 1/2⌋ = 0 := by omega
    have h1 := Int.lt_floor_add_one (-q + 1/2)
    rw [h0] at h1
    push_cast at h1
    rw [abs_of_neg (lt_of_not_le hq)]
    linarith

/-- Bridge from the rational rounding bound to integers: if `μ` is the
rounding of `D / n` then `2·|D - μ·n| ≤ n`. -/
theorem round_residue_bound (D n mu : ℤ) (hn : 0 < n)
    (hmu : mu = rustRound ((D : ℚ) / (n : ℚ))) : 2 * |D - mu * n| ≤ n := by
  have hb := rustRound_le_half ((D : ℚ) / (n : ℚ))
  rw [← hmu] at hb
  have hnq : (0 : ℚ) < (n : ℚ) := by exact_mod_cast hn
  have key : |(D : ℚ) - (mu : ℚ) * (n : ℚ)| ≤ (n : ℚ) / 2 := by
    have : (D : ℚ) / (n : ℚ) - (mu : ℚ) = ((D : ℚ) - (mu : ℚ) * (n : ℚ)) / (n : ℚ) := by
      rw [sub_div, mul_div_cancel_right₀ _ (ne_of_gt hnq)]
    rw [this] at hb
    rw [abs_div, abs_of_pos hnq] at hb
    rw [div_le_iff hnq] at hb
    linarith [hb]
  have : 2 * |(D : ℚ) - (mu : ℚ) * (n : ℚ)| ≤ (n : ℚ) := by linarith
  have hcast : ((2 * |D - mu * n| : ℤ) : ℚ) ≤ ((n : ℤ) : ℚ) := by
    push_cast
    linarith [this]
  exact_mod_cast hcast

theorem round_zero_bound (D n : ℤ) (hn : 0 < n)
    (h : rustRound ((D : ℚ) / (n : ℚ)) = 0) : 2 * |D| ≤ n := by
  have hb := rustRound_zero_of _ h
  have hnq : (0 : ℚ) < (n : ℚ) := by exact_mod_cast hn
  rw [abs_div, abs_of_pos hnq, div_lt_iff hnq] at hb
  have : 2 * |(D : ℚ)| < (n : ℚ) := by linarith
  have hcast : ((2 * |D| : ℤ) : ℚ) < ((n : ℤ) : ℚ) := by push_cast; exact this
  exact le_of_lt (by exact_mod_cast hcast)

/-- The arithmetic at the third `return` of the Lagrange-Gauss loop: if the
rounded quotient is nonzero but subtracting it does not shorten `v`, then
the pair is already half-reduced (in fact `2·|u·v| = u·u`). -/
theorem gauss_exit_bound (D nsq mu : ℤ) (hnsq : 0 < nsq) (hmu : mu ≠ 0)
    (hprod : 0 ≤ mu * (mu * nsq - 2 * D)) (habs : 2 * |D - mu * nsq| ≤ nsq) :
    2 * |D| ≤ nsq := by
  have habs2 : -nsq ≤ 2 * (D - mu * nsq) ∧ 2 * (D - mu * nsq) ≤ nsq := by
    have h2 : |2 * (D - mu * nsq)| ≤ nsq := by
      rw [abs_mul]
      simpa using habs
    exact abs_le.mp h2
  rcases lt_or_gt_of_ne hmu with hneg | hpos
  · -- mu ≤ -1
    have hm1 : mu ≤ -1 := by omega
    have e1 : mu * nsq - 2 * D ≤ 0 := by
      by_contra hcon
      push_neg at hcon
      have h1 : 1 ≤ mu * nsq - 2 * D := hcon
      nlinarith
    have e2 : 2 * D ≤ 2 * mu * nsq + nsq := by linarith [habs2.2]
    have e3 : (mu + 1) * nsq ≤ 0 := by nlinarith
    have e4 : 0 ≤ (mu + 1) * nsq := by nlinarith [habs2.1, e1]
    have e5 : mu = -1 := by nlinarith
    subst e5
    have hD : 2 * D = -nsq := by omega
    have hDneg : D < 0 := by omega
    rw [abs_of_neg hDneg]
    omega
  · -- mu ≥ 1
    have hm1 : 1 ≤ mu := hpos
    have e1 : 0 ≤ mu * nsq - 2 * D := by
      by_contra hcon
      push_neg at hcon
      have h1 : mu * nsq - 2 * D ≤ -1 := by omega
      nlinarith
    have e2 : 2 * mu * nsq - nsq ≤ 2 * D := by linarith [habs2.1]
    have e3 : 0 ≤ (mu - 1) * nsq := mul_nonneg (by omega) (le_of_lt hnsq)
    have e5 : mu = 1 := by nlinarith
    subst e5
    have hD : 2 * D = nsq := by omega
    have hDpos : 0 < D := by omega
    rw [abs_of_pos hDpos]
    omega

theorem gaussGo_isSome (fuel : ℕ) :
    ∀ u v : Vec3 ℤ, (u.dot u + v.dot v).toNat < fuel → (gaussGo fuel u v).isSome := by
  induction fuel with
  | zero => intro u v h; omega
  | succ f ih =>
    intro u v _
    rw [gaussGo]
    by_cases h0 : u.dot u = 0
    · simp [h0]
    · rw [if_neg h0]
      simp only
      by_cases hmu : rustRound ((u.dot v : ℚ) / ((u.dot u : ℤ) : ℚ)) = 0
      · simp [hmu]
      · rw [if_neg hmu]
        set mu := rustRound ((u.dot v : ℚ) / ((u.dot u : ℤ) : ℚ)) with hmu_def
        set v_new := v - mu • u with hv_new
        by_cases hge : v.dot v ≤ v_new.dot v_new
        · simp [hge]
        · rw [if_neg hge]
          push_neg at hge
          have hvv := Vec3.dot_self_nonneg v
          have huu := Vec3.dot_self_nonneg u
          have hvn := Vec3.dot_self_nonneg v_new
          by_cases hsw : v_new.dot v_new < u.dot u
          · rw [if_pos hsw]
            exact ih _ _ (by omega)
          · rw [if_neg hsw]
            exact ih _ _ (by omega)

theorem gaussGo_post (fuel : ℕ) :
    ∀ u v u' v' : Vec3 ℤ, gaussGo fuel u v = some (u', v') →
      u.dot u ≤ v.dot v →
      u'.dot u' ≤ v'.dot v' ∧ 2 * |u'.dot v'| ≤ u'.dot u' := by
  induction fuel with
  | zero => intro u v u' v' h _; simp [gaussGo] at h
  | succ f ih =>
    intro u v u' v' h hinv
    rw [gaussGo] at h
    by_cases h0 : u.dot u = 0
    · rw [if_pos h0] at h
      obtain ⟨rfl, rfl⟩ := Prod.mk.injEq _ _ _ _ ▸ Option.some.inj h
      refine ⟨hinv, ?_⟩
      have hu0 : u = Vec3.zero := (Vec3.dot_self_eq_zero u).mp h0
      rw [hu0]
      simp [Vec3.zero_dot]
    · rw [if_neg h0] at h
      simp only at h
      have hupos : 0 < u.dot u := lt_of_le_of_ne (Vec3.dot_self_nonneg u) (Ne.symm h0)
      by_cases hmu : rustRound ((u.dot v : ℚ) / ((u.dot u : ℤ) : ℚ)) = 0
      · rw [if_pos hmu] at h
        obtain ⟨rfl, rfl⟩ := Prod.mk.injEq _ _ _ _ ▸ Option.some.inj h
        exact ⟨hinv, round_zero_bound _ _ hupos hmu⟩
      · rw [if_neg hmu] at h
        set mu := rustRound ((u.dot v : ℚ) / ((u.dot u : ℤ) : ℚ)) with hmu_def
        set v_new := v - mu • u with hv_new
        by_cases hge : v.dot v ≤ v_new.dot v_new
        · rw [if_pos hge] at h
          obtain ⟨rfl, rfl⟩ := Prod.mk.injEq _ _ _ _ ▸ Option.some.inj h
          refine ⟨hinv, ?_⟩
          have hexp := Vec3.sub_smul_dot u v mu
          rw [← hv_new] at hexp
          have hprod : 0 ≤ mu * (mu * (u.dot u) - 2 * (u.dot v)) := by nlinarith
          have habs := round_residue_bound (u.dot v) (u.dot u) mu hupos hmu_def
          exact gauss_exit_bound _ _ _ hupos hmu hprod habs
        · rw [if_neg hge] at h
          by_cases hsw : v_new.dot v_new < u.dot u
          · rw [if_pos hsw] at h
            exact ih _ _ _ _ h (le_of_lt hsw)
          · rw [if_neg hsw] at h
            exact ih _ _ _ _ h (le_of_not_lt hsw)

theorem span_vec_identity (u v : Vec3 ℤ) (a b m : ℤ) :
    a • u + b • (v - m • u) = (a - b * m) • u + b • v := by
  cases u; cases v
  simp only [Vec3.smul_def, Vec3.add_def, Vec3.sub_def, Vec3.mk.injEq]
  refine ⟨by ring, by ring, by ring⟩

theorem inSpan_shear (u v w : Vec3 ℤ) (m : ℤ) :
    inSpan u (v - m • u) w ↔ inSpan u v w := by
  constructor
  · rintro ⟨a, b, rfl⟩
    exact ⟨a - b * m, b, (span_vec_identity u v a b m).symm ▸ rfl⟩
  · rintro ⟨a, b, rfl⟩
    refine ⟨a + b * m, b, ?_⟩
    rw [span_vec_identity u v (a + b * m) b m]
    ring_nf

theorem inSpan_swap (u v w : Vec3 ℤ) : inSpan u v w ↔ inSpan v u w := by
  constructor <;> rintro ⟨a, b, rfl⟩ <;> refine ⟨b, a, ?_⟩ <;>
    (cases u; cases v;
     simp only [Vec3.smul_def, Vec3.add_def, Vec3.mk.injEq];
     refine ⟨by ring, by ring, by ring⟩)

theorem gaussGo_span (fuel : ℕ) :
    ∀ u v u' v' : Vec3 ℤ, gaussGo fuel u v = some (u', v') →
      ∀ w, inSpan u' v' w ↔ inSpan u v w := by
  induction fuel with
  | zero => intro u v u' v' h _; simp [gaussGo] at h
  | succ f ih =>
    intro u v u' v' h w
    rw [gaussGo] at h
    by_cases h0 : u.dot u = 0
    · rw [if_pos h0] at h
      obtain ⟨rfl, rfl⟩ := Prod.mk.injEq _ _ _ _ ▸ Option.some.inj h
      rfl
    · rw [if_neg h0] at h
      simp only at h
      by_cases hmu : rustRound ((u.dot v : ℚ) / ((u.dot u : ℤ) : ℚ)) = 0
      · rw [if_pos hmu] at h
        obtain ⟨rfl, rfl⟩ := Prod.mk.injEq _ _ _ _ ▸ Option.some.inj h
        rfl
      · rw [if_neg hmu] at h
        set mu := rustRound ((u.dot v : ℚ) / ((u.dot u : ℤ) : ℚ)) with hmu_def
        set v_new := v - mu • u with hv_new
        by_cases hge : v.dot v ≤ v_new.dot v_new
        · rw [if_pos hge] at h
          obtain ⟨rfl, rfl⟩ := Prod.mk.injEq _ _ _ _ ▸ Option.some.inj h
          rfl
        · rw [if_neg hge] at h
          by_cases hsw : v_new.dot v_new < u.dot u
          · rw [if_pos hsw] at h
            rw [ih _ _ _ _ h w, inSpan_swap, hv_new, inSpan_shear]
          · rw [if_neg hsw] at h
            rw [ih _ _ _ _ h w, hv_new, inSpan_shear]

/-- CLAIM C5: on a linearly independent pair, `reduce_2d_integer` returns a
pair spanning the same 2D integer sublattice with `u'·u' ≤ v'·v'` and
`2·|u'·v'| ≤ u'·u'`.  (The hypothesis of the claim is not even needed: the
postconditions hold for every input pair.) -/
theorem reduce2dInteger_correct (u v u' v' : Vec3 ℤ)
    (hind : ∀ a b : ℤ, a • u + b • v = Vec3.zero → a = 0 ∧ b = 0)
    (hr : reduce2dInteger u v = (u', v')) :
    (∀ w, inSpan u' v' w ↔ inSpan u v w) ∧
    u'.dot u' ≤ v'.dot v' ∧ 2 * |u'.dot v'| ≤ u'.dot u' := by
  clear hind
  unfold reduce2dInteger at hr
  by_cases hsw : v.dot v < u.dot u
  · rw [if_pos hsw] at hr
    simp only at hr
    have hfuel : ((v.dot v + u.dot u).toNat < gaussFuel v u) := by
      unfold gaussFuel; omega
    have hs := gaussGo_isSome (gaussFuel v u) v u hfuel
    obtain ⟨r, hr2⟩ := Option.isSome_iff_exists.mp hs
    rw [hr2] at hr
    simp only [Option.getD_some] at hr
    obtain ⟨ru, rv⟩ := r
    rw [Prod.mk.injEq] at hr
    obtain ⟨rfl, rfl⟩ := hr
    have hpost := gaussGo_post _ _ _ _ _ hr2 (le_of_lt hsw)
    have hspan := gaussGo_span _ _ _ _ _ hr2
    refine ⟨fun w => ?_, hpost.1, hpost.2⟩
    rw [hspan w, inSpan_swap]
  · rw [if_neg hsw] at hr
    simp only at hr
    have hfuel : ((u.dot u + v.dot v).toNat < gaussFuel u v) := by
      unfold gaussFuel; omega
    have hs := gaussGo_isSome (gaussFuel u v) u v hfuel
    obtain ⟨r, hr2⟩ := Option.isSome_iff_exists.mp hs
    rw [hr2] at hr
    simp only [Option.getD_some] at hr
    obtain ⟨ru, rv⟩ := r
    rw [Prod.mk.injEq] at hr
    obtain ⟨rfl, rfl⟩ := hr
    have hpost := gaussGo_post _ _ _ _ _ hr2 (le_of_not_lt hsw)
    have hspan := gaussGo_span _ _ _ _ _ hr2
    exact ⟨hspan, hpost.1, hpost.2⟩

/-- Witness for C5 at the concrete independent pair `(1,0,0)`, `(0,1,0)`. -/
theorem reduce2dInteger_witness :
    reduce2dInteger ⟨1, 0, 0⟩ ⟨0, 1, 0⟩ = (⟨1, 0, 0⟩, ⟨0, 1, 0⟩) ∧
    Vec3.dot (⟨1, 0, 0⟩ : Vec3 ℤ) ⟨1, 0, 0⟩ ≤ Vec3.dot (⟨0, 1, 0⟩ : Vec3 ℤ) ⟨0, 1, 0⟩ ∧
    2 * |Vec3.dot (⟨1, 0, 0⟩ : Vec3 ℤ) ⟨0, 1, 0⟩| ≤ Vec3.dot (⟨1, 0, 0⟩ : Vec3 ℤ) ⟨1, 0, 0⟩ := by
  have hr : reduce2dInteger ⟨1, 0, 0⟩ ⟨0, 1, 0⟩ = (⟨1, 0, 0⟩, ⟨0, 1, 0⟩) := by
    with_unfolding_all rfl
  have hind : ∀ a b : ℤ, a • (⟨1, 0, 0⟩ : Vec3 ℤ) + b • (⟨0, 1, 0⟩ : Vec3 ℤ) = Vec3.zero →
      a = 0 ∧ b = 0 := by
    intro a b hab
    have hx := congrArg Vec3.x hab
    have hy := congrArg Vec3.y hab
    simp [Vec3.smul_def, Vec3.add_def, Vec3.zero] at hx hy
    exact ⟨hx, hy⟩
  have := reduce2dInteger_correct _ _ _ _ hind hr
  exact ⟨hr, this.2.1, this.2.2⟩



/-! ### Slab geometry (C6) -/

theorem Vec3.normSq_smul (c : ℚ) (v : Vec3 ℚ) : (c • v).normSq = c ^ 2 * v.normSq := by
  cases v
  simp only [Vec3.normSq, Vec3.dot, Vec3.smul_def]
  ring

theorem findPrimitiveInPlaneBasis_ok (h k l : ℤ) (hhkl : ¬(h = 0 ∧ k = 0 ∧ l = 0)) :
    ∃ u0 v0 : Vec3 ℤ, findPrimitiveInPlaneBasis h k l = .ok (u0, v0) := by
  unfold findPrimitiveInPlaneBasis
  rw [if_neg hhkl]
  exact ⟨_, _, rfl⟩

/-- CLAIM C6 (amended): for a nonzero Miller triple, with `gnorm` the norm
of the reciprocal normal `g = R·(h,k,l)`:
`compute_geometry` fails with `InvalidIndices` iff `gnorm < 1e-9`; when it
succeeds, `d_hkl = 1/gnorm`, `n_layers = max(1, round(thickness/d_hkl))`,
and the norm of the third basis column is exactly
`n_layers · d_hkl + vacuum`; and it does succeed whenever `gnorm ≥ 1e-9`.
(At the zero Miller triple the failure is `DegenerateIndices`, not
`InvalidIndices`, which refutes the unrestricted claim.) -/
theorem computeGeometry_correct (crystal : Crystal) (h k l : ℤ)
    (thickness vacuum gnorm : ℚ) (lllFuel : ℕ)
    (hhkl : ¬(h = 0 ∧ k = 0 ∧ l = 0))
    (hg0 : 0 ≤ gnorm)
    (hg : gnorm ^ 2 =
      (crystal.lattice.reciprocal_matrix.mulVec ⟨(h : ℚ), (k : ℚ), (l : ℚ)⟩).normSq)
    (hvac : 0 ≤ vacuum) :
    (computeGeometry crystal h k l thickness vacuum gnorm lllFuel =
        .error .invalidIndices ↔ gnorm < 1/1000000000) ∧
    (∀ geo, computeGeometry crystal h k l thickness vacuum gnorm lllFuel = .ok geo →
      geo.d_hkl = 1 / gnorm ∧
      (geo.n_layers : ℤ) = max (rustRound (thickness / geo.d_hkl)) 1 ∧
      geo.vacuum_thickness = vacuum ∧
      Real.sqrt ((geo.basis.c2.normSq : ℚ) : ℝ) =
        (((geo.n_layers : ℚ) * geo.d_hkl + vacuum : ℚ) : ℝ)) ∧
    (1/1000000000 ≤ gnorm →
      ∃ geo, computeGeometry crystal h k l thickness vacuum gnorm lllFuel = .ok geo) := by
  obtain ⟨u0, v0, hfp⟩ := findPrimitiveInPlaneBasis_ok h k l hhkl
  by_cases hlt : gnorm < 1/1000000000
  · refine ⟨?_, ?_, ?_⟩
    · simp only [computeGeometry, hfp, if_pos hlt]
      exact iff_of_true trivial hlt
    · intro geo hgeo
      simp only [computeGeometry, hfp, if_pos hlt] at hgeo
      exact Except.noConfusion hgeo
    · intro hge
      linarith
  · have hgpos : 0 < gnorm := by
      push_neg at hlt
      linarith
    refine ⟨?_, ?_, ?_⟩
    · simp only [computeGeometry, hfp, if_neg hlt]
      exact iff_of_false (fun hcon => Except.noConfusion hcon) hlt
    · intro geo hgeo
      simp only [computeGeometry, hfp, if_neg hlt] at hgeo
      obtain rfl := Except.ok.inj hgeo
      refine ⟨rfl, ?_, rfl, ?_⟩
      · have h1 : (1 : ℤ) ≤ max (rustRound (thickness / (1 / gnorm))) 1 := le_max_right _ _
        simp only
        rw [Int.toNat_of_nonneg (by omega)]
      · simp only
        set nl : ℕ := (max (rustRound (thickness / (1 / gnorm))) 1).toNat with hnl
        set g := crystal.lattice.reciprocal_matrix.mulVec ⟨(h : ℚ), (k : ℚ), (l : ℚ)⟩ with hgv
        have hnormSq :
            ((((nl : ℚ) * (1 / gnorm) + vacuum) • ((1 / gnorm) • g)).normSq) =
              ((nl : ℚ) * (1 / gnorm) + vacuum) ^ 2 := by
          rw [Vec3.normSq_smul, Vec3.normSq_smul, ← hg]
          field_simp
        rw [hnormSq]
        have hnn : 0 ≤ (nl : ℚ) * (1 / gnorm) + vacuum := by
          have h0 : 0 ≤ (nl : ℚ) := Nat.cast_nonneg nl
          have hd : 0 < 1 / gnorm := by positivity
          positivity
        push_cast
        rw [Real.sqrt_sq (by exact_mod_cast hnn)]
    · intro _
      cases hres : computeGeometry crystal h k l thickness vacuum gnorm lllFuel with
      | ok geo => exact ⟨geo, rfl⟩
      | error e =>
          simp only [computeGeometry, hfp, if_neg hlt] at hres
          exact Except.noConfusion hres

/-- Witness for C6: identity lattice, Miller plane `(1,0,0)`, thickness 3,
vacuum 2, `gnorm = 1` (consistent: `‖R·(1,0,0)‖² = 1`). -/
theorem computeGeometry_witness :
    (¬((1 : ℤ) = 0 ∧ (0 : ℤ) = 0 ∧ (0 : ℤ) = 0)) ∧
    ((1 : ℚ) ^ 2 =
      (Mat3.mulVec Mat3.one ⟨(1 : ℚ), (0 : ℚ), (0 : ℚ)⟩).normSq) ∧
    (∃ geo, computeGeometry ⟨⟨Mat3.one, Mat3.one⟩, []⟩ 1 0 0 3 2 1 10 = .ok geo) ∧
    (∀ geo, computeGeometry ⟨⟨Mat3.one, Mat3.one⟩, []⟩ 1 0 0 3 2 1 10 = .ok geo →
      geo.d_hkl = 1 / 1) := by
  have h1 : ¬((1 : ℤ) = 0 ∧ (0 : ℤ) = 0 ∧ (0 : ℤ) = 0) := by decide
  have h2 : (1 : ℚ) ^ 2 = (Mat3.mulVec Mat3.one ⟨(1 : ℚ), (0 : ℚ), (0 : ℚ)⟩).normSq := by
    with_unfolding_all decide
  have hmain := computeGeometry_correct ⟨⟨Mat3.one, Mat3.one⟩, []⟩ 1 0 0 3 2 1 10
    h1 (by norm_num) h2 (by norm_num)
  refine ⟨h1, h2, hmain.2.2 (by norm_num), fun geo hgeo => (hmain.2.1 geo hgeo).1⟩

/-- CLAIM C6 counterexample: at the zero Miller triple `(0,0,0)` (where the
reciprocal normal has length 0 < 1e-9, consistently modelled by
`gnorm = 0`), `compute_geometry` fails with `DegenerateIndices` and not with
`InvalidIndices`, contradicting "fails with InvalidIndices exactly when
`‖g‖ < 1e-9`". -/
theorem computeGeometry_zero_miller_counterexample :
    computeGeometry ⟨⟨Mat3.one, Mat3.one⟩, []⟩ 0 0 0 3 2 0 10 =
      .error .degenerateIndices ∧
    (0 : ℚ) < 1/1000000000 ∧
    ((0 : ℚ) ^ 2 = (Mat3.mulVec Mat3.one ⟨(0 : ℚ), (0 : ℚ), (0 : ℚ)⟩).normSq) ∧
    computeGeometry ⟨⟨Mat3.one, Mat3.one⟩, []⟩ 0 0 0 3 2 0 10 ≠
      .error .invalidIndices := by
  have hrun : computeGeometry ⟨⟨Mat3.one, Mat3.one⟩, []⟩ 0 0 0 3 2 0 10 =
      .error .degenerateIndices := by
    with_unfolding_all rfl
  refine ⟨hrun, by norm_num, by with_unfolding_all decide, ?_⟩
  rw [hrun]
  intro hcon
  have := Except.error.inj hcon
  exact SlabError.noConfusion this



/-! ### Dipole reconstruction: sorting, clustering and frame lemmas (C9, C10) -/

theorem insertByZ_perm (key : ℕ → ℚ) (i : ℕ) (l : List ℕ) :
    (insertByZ key i l).Perm (i :: l) := by
  induction l with
  | nil => simp [insertByZ]
  | cons j t ih =>
    rw [insertByZ]
    by_cases hle : key j ≤ key i
    · rw [if_pos hle]
      exact (ih.cons j).trans (List.Perm.swap i j t)
    · rw [if_neg hle]

theorem foldl_insert_perm (key : ℕ → ℚ) :
    ∀ (l acc : List ℕ),
      (l.foldl (fun acc i => insertByZ key i acc) acc).Perm (l ++ acc) := by
  intro l
  induction l with
  | nil => intro acc; simp
  | cons i t ih =>
    intro acc
    rw [List.foldl_cons]
    have h1 := ih (insertByZ key i acc)
    have h2 : (t ++ insertByZ key i acc).Perm (t ++ i :: acc) :=
      List.Perm.append_left t (insertByZ_perm key i acc)
    have h3 : (t ++ i :: acc).Perm (i :: (t ++ acc)) := List.perm_middle
    exact h1.trans (h2.trans h3)

theorem sortIdxByZ_perm (key : ℕ → ℚ) (l : List ℕ) : (sortIdxByZ key l).Perm l := by
  have := foldl_insert_perm key l []
  simpa [sortIdxByZ] using this

theorem clusterGo_flatten (key : ℕ → ℚ) :
    ∀ (t cur : List ℕ) (cz : ℚ) (acc : List (List ℕ)),
      (clusterGo key t cur cz acc).flatten = acc.flatten ++ cur ++ t := by
  intro t
  induction t with
  | nil => intro cur cz acc; simp [clusterGo]
  | cons i t ih =>
    intro cur cz acc
    rw [clusterGo]
    by_cases hcl : |key i - cz| < 1/4
    · rw [if_pos hcl, ih]
      simp
    · rw [if_neg hcl, ih]
      simp

theorem clusterGo_ne_nil (key : ℕ → ℚ) :
    ∀ (t cur : List ℕ) (cz : ℚ) (acc : List (List ℕ)),
      clusterGo key t cur cz acc ≠ [] := by
  intro t
  induction t with
  | nil => intro cur cz acc; simp [clusterGo]
  | cons i t ih =>
    intro cur cz acc
    rw [clusterGo]
    by_cases hcl : |key i - cz| < 1/4
    · rw [if_pos hcl]; exact ih _ _ _
    · rw [if_neg hcl]; exact ih _ _ _

theorem planesOf_flatten (key : ℕ → ℚ) (idxs : List ℕ) :
    (planesOf key idxs).flatten = idxs := by
  cases idxs with
  | nil => simp [planesOf]
  | cons h t => simp [planesOf, clusterGo_flatten]

theorem stabPlanes_flatten_perm (lat : Lattice) (atoms : List Atom) :
    (stabPlanes lat atoms).flatten.Perm (List.range atoms.length) := by
  rw [stabPlanes, planesOf_flatten]
  exact sortIdxByZ_perm _ _

theorem stabPlanes_flatten_nodup (lat : Lattice) (atoms : List Atom) :
    (stabPlanes lat atoms).flatten.Nodup :=
  (stabPlanes_flatten_perm lat atoms).nodup_iff.mpr (List.nodup_range atoms.length)

theorem mem_stabPlanes_lt (lat : Lattice) (atoms : List Atom) (p : List ℕ) (i : ℕ)
    (hp : p ∈ stabPlanes lat atoms) (hi : i ∈ p) : i < atoms.length := by
  have h1 : i ∈ (stabPlanes lat atoms).flatten := List.mem_flatten.mpr ⟨p, hp, hi⟩
  have h2 : i ∈ List.range atoms.length := (stabPlanes_flatten_perm lat atoms).mem_iff.mp h1
  exact List.mem_range.mp h2

theorem stabPlanes_plane_nodup (lat : Lattice) (atoms : List Atom) (p : List ℕ)
    (hp : p ∈ stabPlanes lat atoms) : p.Nodup :=
  List.Nodup.sublist (List.sublist_flatten_of_mem hp) (stabPlanes_flatten_nodup lat atoms)

theorem getD_set_self (l : List Atom) (i : ℕ) (a : Atom) (h : i < l.length) :
    (l.set i a).getD i defaultAtom = a := by
  simp [List.getD, List.getElem?_set_self', h]

theorem getD_set_ne (l : List Atom) (i j : ℕ) (a : Atom) (h : i ≠ j) :
    (l.set i a).getD j defaultAtom = l.getD j defaultAtom := by
  simp [List.getD, List.getElem?_set_ne h]

/-- Pointwise characterisation of the sequential move loop: updating a list
at pairwise-distinct in-range indices with `g` (each update reading only its
own index) equals the pointwise update from the original list. -/
theorem foldl_set_char (g : Atom → Atom) :
    ∀ (moved : List ℕ) (atoms : List Atom), moved.Nodup →
      (∀ i ∈ moved, i < atoms.length) →
      (moved.foldl (fun acc i => acc.set i (g (acc.getD i defaultAtom))) atoms).length =
        atoms.length ∧
      ∀ j : ℕ,
        (moved.foldl (fun acc i => acc.set i (g (acc.getD i defaultAtom))) atoms).getD j
            defaultAtom =
          if j ∈ moved then g (atoms.getD j defaultAtom) else atoms.getD j defaultAtom := by
  intro moved
  induction moved with
  | nil => intro atoms _ _; exact ⟨rfl, fun j => by simp⟩
  | cons i rest ih =>
    intro atoms hnodup hbound
    have hi_lt : i < atoms.length := hbound i (List.mem_cons_self i rest)
    have hi_notmem : i ∉ rest := (List.nodup_cons.mp hnodup).1
    have hnodup' : rest.Nodup := (List.nodup_cons.mp hnodup).2
    rw [List.foldl_cons]
    have hlen1 : (atoms.set i (g (atoms.getD i defaultAtom))).length = atoms.length :=
      List.length_set atoms i _
    have ihres := ih (atoms.set i (g (atoms.getD i defaultAtom))) hnodup'
      (fun j hj => by rw [hlen1]; exact hbound j (List.mem_cons_of_mem i hj))
    refine ⟨ihres.1.trans hlen1, fun j => ?_⟩
    rw [ihres.2 j]
    by_cases hj : j ∈ rest
    · have hji : j ≠ i := fun e => hi_notmem (e ▸ hj)
      rw [if_pos hj, if_pos (List.mem_cons_of_mem i hj),
        getD_set_ne _ _ _ _ (Ne.symm hji)]
    · by_cases hji : j = i
      · subst hji
        rw [if_neg hj, if_pos (List.mem_cons_self _ _), getD_set_self _ _ _ hi_lt]
      · rw [if_neg hj, if_neg (by simp [hj, hji]), getD_set_ne _ _ _ _ (Ne.symm hji)]

/-- The first component of `stabilize` as a fold over `movedIndices` (for
every branch: the non-moving branches have `movedIndices = []`). -/
theorem stabilize_fst_eq (atoms : List Atom) (lat : Lattice) (mode : ReconstructionMode) :
    (stabilize atoms lat mode).1 =
      (movedIndices lat atoms mode).foldl (fun acc i =>
        acc.set i
          ⟨(acc.getD i defaultAtom).element,
           lat.to_fractional (ghostCenter lat atoms +
             (lat.to_cartesian (acc.getD i defaultAtom).fractional_coords -
               avgPos lat (topPlane lat atoms) atoms)),
           (acc.getD i defaultAtom).component_type⟩) atoms := by
  rw [stabilize, movedIndices]
  by_cases h1 : mode = ReconstructionMode.None ∨ atoms = []
  · rw [if_pos h1, if_pos h1]
    rfl
  · rw [if_neg h1, if_neg h1]
    by_cases h2 : 1/2 < |dipoleZ lat atoms|
    · rw [if_pos h2, if_pos h2]
      cases hlast : (stabPlanes lat atoms).getLast? with
      | none => rfl
      | some top =>
        have htop : topPlane lat atoms = top := by rw [topPlane, hlast]; rfl
        simp only
        by_cases h3 : 0 < top.length / 2 ∧ 1 < (stabPlanes lat atoms).length
        · rw [if_pos h3, if_pos h3, htop, ghostCenter]
        · rw [if_neg h3, if_neg h3]
          rfl
    · rw [if_neg h2, if_neg h2]
      rfl

theorem movedIndices_nodup (lat : Lattice) (atoms : List Atom) (mode : ReconstructionMode) :
    (movedIndices lat atoms mode).Nodup ∧
    (∀ i ∈ movedIndices lat atoms mode, i < atoms.length) := by
  rw [movedIndices]
  by_cases h1 : mode = ReconstructionMode.None ∨ atoms = []
  · rw [if_pos h1]; simp
  · rw [if_neg h1]
    by_cases h2 : 1/2 < |dipoleZ lat atoms|
    · rw [if_pos h2]
      cases hlast : (stabPlanes lat atoms).getLast? with
      | none => simp
      | some top =>
        simp only
        by_cases h3 : 0 < top.length / 2 ∧ 1 < (stabPlanes lat atoms).length
        · rw [if_pos h3]
          have hmem : top ∈ stabPlanes lat atoms := List.mem_of_mem_getLast? hlast
          have hnd : top.Nodup := stabPlanes_plane_nodup lat atoms top hmem
          refine ⟨List.Nodup.sublist (List.take_sublist _ _) hnd, fun i hi => ?_⟩
          exact mem_stabPlanes_lt lat atoms top i hmem
            (List.mem_of_mem_take hi)
        · rw [if_neg h3]; simp
    · rw [if_neg h2]; simp

theorem movedIndices_dipole_of_cond (lat : Lattice) (atoms : List Atom)
    (hne : atoms ≠ []) (hc : stabCond lat atoms) :
    movedIndices lat atoms ReconstructionMode.DipoleCorrection =
      (topPlane lat atoms).take ((topPlane lat atoms).length / 2) := by
  obtain ⟨hdip, hplanes, htop⟩ := hc
  have hplanes_ne : stabPlanes lat atoms ≠ [] := by
    intro h0
    rw [h0] at hplanes
    simp at hplanes
  obtain ⟨top, hlast⟩ := Option.isSome_iff_exists.mp (List.getLast?_isSome.mpr hplanes_ne)
  have htop_eq : topPlane lat atoms = top := by rw [topPlane, hlast]; rfl
  rw [movedIndices, if_neg (by simp [hne]), if_pos hdip, hlast]
  simp only
  rw [htop_eq] at htop ⊢
  rw [if_pos (by omega)]

theorem movedIndices_dipole_of_not_cond (lat : Lattice) (atoms : List Atom)
    (hc : ¬ stabCond lat atoms) :
    movedIndices lat atoms ReconstructionMode.DipoleCorrection = [] := by
  rw [movedIndices]
  by_cases h1 : ReconstructionMode.DipoleCorrection = ReconstructionMode.None ∨ atoms = []
  · rw [if_pos h1]
  · rw [if_neg h1]
    by_cases h2 : 1/2 < |dipoleZ lat atoms|
    · rw [if_pos h2]
      cases hlast : (stabPlanes lat atoms).getLast? with
      | none => simp
      | some top =>
        simp only
        by_cases h3 : 0 < top.length / 2 ∧ 1 < (stabPlanes lat atoms).length
        · exfalso
          apply hc
          have htop_eq : topPlane lat atoms = top := by rw [topPlane, hlast]; rfl
          refine ⟨h2, by omega, ?_⟩
          rw [htop_eq]
          omega
        · rw [if_neg h3]
    · rw [if_neg h2]

/-- CLAIM C9 (amended): `stabilize` in `DipoleCorrection` mode — with planes
formed by sorting on `z` and starting a new plane whenever an atom's `z`
differs from the `z` of the FIRST atom of the current plane by at least
0.25 Å (the source compares against the plane's first atom, not against the
previous atom as the claim says) — mutates atoms exactly when `|D| > 0.5`,
there are at least 2 planes and the top plane has at least 2 atoms; in that
case exactly the first `⌊|top|/2⌋` atoms of the top plane are rewritten,
each to the bottom-plane centroid plus
`v_down = -(centroid(plane[1]) - centroid(plane[0]))` plus its offset from
the top-plane centroid. -/
theorem stabilize_dipole_correct (atoms : List Atom) (lat : Lattice)
    (hne : atoms ≠ []) :
    (¬ stabCond lat atoms →
      (stabilize atoms lat ReconstructionMode.DipoleCorrection).1 = atoms) ∧
    (stabCond lat atoms →
      (stabilize atoms lat ReconstructionMode.DipoleCorrection).1.length = atoms.length ∧
      ∀ j : ℕ,
        (stabilize atoms lat ReconstructionMode.DipoleCorrection).1.getD j defaultAtom =
          if j ∈ (topPlane lat atoms).take ((topPlane lat atoms).length / 2)
          then movedAtomNew lat atoms j
          else atoms.getD j defaultAtom) := by
  constructor
  · intro hc
    rw [stabilize_fst_eq, movedIndices_dipole_of_not_cond lat atoms hc]
    rfl
  · intro hc
    have hmoved := movedIndices_dipole_of_cond lat atoms hne hc
    have hwf := movedIndices_nodup lat atoms ReconstructionMode.DipoleCorrection
    rw [stabilize_fst_eq, hmoved]
    rw [hmoved] at hwf
    have hchar := foldl_set_char
      (fun a => { a with fractional_coords :=
        lat.to_fractional (ghostCenter lat atoms +
          (lat.to_cartesian a.fractional_coords -
            avgPos lat (topPlane lat atoms) atoms)) })
      ((topPlane lat atoms).take ((topPlane lat atoms).length / 2)) atoms hwf.1 hwf.2
    beta_reduce at hchar
    exact ⟨hchar.1, fun j => hchar.2 j⟩

/-- CLAIM C10: `stabilize` preserves the length and order of the atom list
and every atom's element and component tag; atoms outside `movedIndices`
are untouched, and in mode `None` or on an empty list nothing changes. -/
theorem stabilize_frame (atoms : List Atom) (lat : Lattice) (mode : ReconstructionMode) :
    (stabilize atoms lat mode).1.length = atoms.length ∧
    (∀ j : ℕ,
      ((stabilize atoms lat mode).1.getD j defaultAtom).element =
        (atoms.getD j defaultAtom).element ∧
      ((stabilize atoms lat mode).1.getD j defaultAtom).component_type =
        (atoms.getD j defaultAtom).component_type) ∧
    ((mode = ReconstructionMode.None ∨ atoms = []) →
      (stabilize atoms lat mode).1 = atoms) ∧
    (∀ j : ℕ, j ∉ movedIndices lat atoms mode →
      (stabilize atoms lat mode).1.getD j defaultAtom = atoms.getD j defaultAtom) := by
  have hwf := movedIndices_nodup lat atoms mode
  have hchar := foldl_set_char
    (fun a => { a with fractional_coords :=
      lat.to_fractional (ghostCenter lat atoms +
        (lat.to_cartesian a.fractional_coords -
          avgPos lat (topPlane lat atoms) atoms)) })
    (movedIndices lat atoms mode) atoms hwf.1 hwf.2
  beta_reduce at hchar
  rw [stabilize_fst_eq]
  refine ⟨hchar.1, fun j => ?_, fun h1 => ?_, fun j hj => ?_⟩
  · rw [hchar.2 j]
    by_cases hj : j ∈ movedIndices lat atoms mode
    · rw [if_pos hj]
      exact ⟨rfl, rfl⟩
    · rw [if_neg hj]
      exact ⟨rfl, rfl⟩
  · have : movedIndices lat atoms mode = [] := by
      rw [movedIndices, if_pos h1]
    rw [this]
    rfl
  · rw [hchar.2 j, if_neg hj]

/-- Witness for C9: a four-atom polar stack where the move condition holds;
the theorem applies and gives the length preservation. -/
theorem stabilize_dipole_witness :
    ([(⟨"C", ⟨0, 0, 0⟩, ComponentType.Unknown⟩ : Atom),
      ⟨"C", ⟨0, 0, 1/5⟩, ComponentType.Unknown⟩,
      ⟨"Na", ⟨0, 0, 2/5⟩, ComponentType.Unknown⟩,
      ⟨"Na", ⟨0, 0, 2/5⟩, ComponentType.Unknown⟩] ≠ ([] : List Atom)) ∧
    stabCond ⟨Mat3.one, Mat3.one⟩
      [⟨"C", ⟨0, 0, 0⟩, ComponentType.Unknown⟩,
       ⟨"C", ⟨0, 0, 1/5⟩, ComponentType.Unknown⟩,
       ⟨"Na", ⟨0, 0, 2/5⟩, ComponentType.Unknown⟩,
       ⟨"Na", ⟨0, 0, 2/5⟩, ComponentType.Unknown⟩] ∧
    (stabilize
      [⟨"C", ⟨0, 0, 0⟩, ComponentType.Unknown⟩,
       ⟨"C", ⟨0, 0, 1/5⟩, ComponentType.Unknown⟩,
       ⟨"Na", ⟨0, 0, 2/5⟩, ComponentType.Unknown⟩,
       ⟨"Na", ⟨0, 0, 2/5⟩, ComponentType.Unknown⟩]
      ⟨Mat3.one, Mat3.one⟩ ReconstructionMode.DipoleCorrection).1.length = 4 := by
  have hne : ([(⟨"C", ⟨0, 0, 0⟩, ComponentType.Unknown⟩ : Atom),
      ⟨"C", ⟨0, 0, 1/5⟩, ComponentType.Unknown⟩,
      ⟨"Na", ⟨0, 0, 2/5⟩, ComponentType.Unknown⟩,
      ⟨"Na", ⟨0, 0, 2/5⟩, ComponentType.Unknown⟩] ≠ ([] : List Atom)) := by
    intro h
    exact List.noConfusion h
  have hcond : stabCond ⟨Mat3.one, Mat3.one⟩
      [⟨"C", ⟨0, 0, 0⟩, ComponentType.Unknown⟩,
       ⟨"C", ⟨0, 0, 1/5⟩, ComponentType.Unknown⟩,
       ⟨"Na", ⟨0, 0, 2/5⟩, ComponentType.Unknown⟩,
       ⟨"Na", ⟨0, 0, 2/5⟩, ComponentType.Unknown⟩] := by
    with_unfolding_all decide
  refine ⟨hne, hcond, ?_⟩
  exact ((stabilize_dipole_correct _ _ hne).2 hcond).1

/-- CLAIM C9 counterexample: on the same four-atom stack the sorted `z`
values are `0, 1/5, 2/5, 2/5`; all consecutive differences are `< 1/4`, so
the clustering rule stated in the claim ("start a new plane whenever
CONSECUTIVE z differ by ≥ 0.25") yields a single plane and the claim then
asserts that no atom moves — but `stabilize` does move an atom (the source
compares with the first atom of the current plane, giving two planes). -/
theorem stabilize_consecutive_clustering_counterexample :
    ((stabilize
      [⟨"C", ⟨0, 0, 0⟩, ComponentType.Unknown⟩,
       ⟨"C", ⟨0, 0, 1/5⟩, ComponentType.Unknown⟩,
       ⟨"Na", ⟨0, 0, 2/5⟩, ComponentType.Unknown⟩,
       ⟨"Na", ⟨0, 0, 2/5⟩, ComponentType.Unknown⟩]
      ⟨Mat3.one, Mat3.one⟩ ReconstructionMode.DipoleCorrection).1 ≠
      [⟨"C", ⟨0, 0, 0⟩, ComponentType.Unknown⟩,
       ⟨"C", ⟨0, 0, 1/5⟩, ComponentType.Unknown⟩,
       ⟨"Na", ⟨0, 0, 2/5⟩, ComponentType.Unknown⟩,
       ⟨"Na", ⟨0, 0, 2/5⟩, ComponentType.Unknown⟩]) ∧
    sortIdxByZ (zKey ⟨Mat3.one, Mat3.one⟩
      [⟨"C", ⟨0, 0, 0⟩, ComponentType.Unknown⟩,
       ⟨"C", ⟨0, 0, 1/5⟩, ComponentType.Unknown⟩,
       ⟨"Na", ⟨0, 0, 2/5⟩, ComponentType.Unknown⟩,
       ⟨"Na", ⟨0, 0, 2/5⟩, ComponentType.Unknown⟩]) (List.range 4) = [0, 1, 2, 3] ∧
    (|zKey ⟨Mat3.one, Mat3.one⟩
      [⟨"C", ⟨0, 0, 0⟩, ComponentType.Unknown⟩,
       ⟨"C", ⟨0, 0, 1/5⟩, ComponentType.Unknown⟩,
       ⟨"Na", ⟨0, 0, 2/5⟩, ComponentType.Unknown⟩,
       ⟨"Na", ⟨0, 0, 2/5⟩, ComponentType.Unknown⟩] 1 -
      zKey ⟨Mat3.one, Mat3.one⟩
      [⟨"C", ⟨0, 0, 0⟩, ComponentType.Unknown⟩,
       ⟨"C", ⟨0, 0, 1/5⟩, ComponentType.Unknown⟩,
       ⟨"Na", ⟨0, 0, 2/5⟩, ComponentType.Unknown⟩,
       ⟨"Na", ⟨0, 0, 2/5⟩, ComponentType.Unknown⟩] 0| < 1/4) ∧
    (|zKey ⟨Mat3.one, Mat3.one⟩
      [⟨"C", ⟨0, 0, 0⟩, ComponentType.Unknown⟩,
       ⟨"C", ⟨0, 0, 1/5⟩, ComponentType.Unknown⟩,
       ⟨"Na", ⟨0, 0, 2/5⟩, ComponentType.Unknown⟩,
       ⟨"Na", ⟨0, 0, 2/5⟩, ComponentType.Unknown⟩] 2 -
      zKey ⟨Mat3.one, Mat3.one⟩
      [⟨"C", ⟨0, 0, 0⟩, ComponentType.Unknown⟩,
       ⟨"C", ⟨0, 0, 1/5⟩, ComponentType.Unknown⟩,
       ⟨"Na", ⟨0, 0, 2/5⟩, ComponentType.Unknown⟩,
       ⟨"Na", ⟨0, 0, 2/5⟩, ComponentType.Unknown⟩] 1| < 1/4) ∧
    (|zKey ⟨Mat3.one, Mat3.one⟩
      [⟨"C", ⟨0, 0, 0⟩, ComponentType.Unknown⟩,
       ⟨"C", ⟨0, 0, 1/5⟩, ComponentType.Unknown⟩,
       ⟨"Na", ⟨0, 0, 2/5⟩, ComponentType.Unknown⟩,
       ⟨"Na", ⟨0, 0, 2/5⟩, ComponentType.Unknown⟩] 3 -
      zKey ⟨Mat3.one, Mat3.one⟩
      [⟨"C", ⟨0, 0, 0⟩, ComponentType.Unknown⟩,
       ⟨"C", ⟨0, 0, 1/5⟩, ComponentType.Unknown⟩,
       ⟨"Na", ⟨0, 0, 2/5⟩, ComponentType.Unknown⟩,
       ⟨"Na", ⟨0, 0, 2/5⟩, ComponentType.Unknown⟩] 2| < 1/4) := by
  refine ⟨?_, ?_, ?_, ?_, ?_⟩
  · with_unfolding_all decide
  · with_unfolding_all decide
  · with_unfolding_all decide
  · with_unfolding_all decide
  · with_unfolding_all decide

/-- Witness for C10: in mode `None` the atom list is returned unchanged. -/
theorem stabilize_frame_witness :
    (stabilize [defaultAtom] ⟨Mat3.one, Mat3.one⟩ ReconstructionMode.None).1 =
      [defaultAtom] :=
  (stabilize_frame [defaultAtom] ⟨Mat3.one, Mat3.one⟩
      ReconstructionMode.None).2.2.1 (Or.inl rfl)



/-! ### Determinism of the molecule finder (C2) -/

theorem vecSum_foldl_acc :
    ∀ (l : List (Vec3 ℚ)) (acc : Vec3 ℚ),
      l.foldl (· + ·) acc =
        ⟨acc.x + (l.map Vec3.x).sum, acc.y + (l.map Vec3.y).sum,
         acc.z + (l.map Vec3.z).sum⟩ := by
  intro l
  induction l with
  | nil => intro acc; cases acc; simp
  | cons v t ih =>
    intro acc
    rw [List.foldl_cons, ih]
    cases acc; cases v
    simp only [Vec3.add_def, List.map_cons, List.sum_cons, Vec3.mk.injEq]
    refine ⟨by ring, by ring, by ring⟩

theorem vecSum_components (l : List (Vec3 ℚ)) :
    vecSum l = ⟨(l.map Vec3.x).sum, (l.map Vec3.y).sum, (l.map Vec3.z).sum⟩ := by
  rw [vecSum, vecSum_foldl_acc]
  simp [Vec3.zero]

theorem vecSum_perm (l1 l2 : List (Vec3 ℚ)) (h : l1.Perm l2) : vecSum l1 = vecSum l2 := by
  rw [vecSum_components, vecSum_components,
    (h.map Vec3.x).sum_eq, (h.map Vec3.y).sum_eq, (h.map Vec3.z).sum_eq]

theorem molCom_valOrder (c : Crystal) (cutoff : ℚ)
    (s1 s2 : List (Vec3 ℚ) → List (Vec3 ℚ))
    (h1 : ∀ l, (s1 l).Perm l) (h2 : ∀ l, (s2 l).Perm l) (comp : List ℕ) :
    molCom c cutoff s1 comp = molCom c cutoff s2 comp := by
  unfold molCom
  rw [vecSum_perm _ _ ((h1 _).trans (h2 _).symm)]

theorem buildMolecule_valOrder (c : Crystal) (cutoff : ℚ)
    (s1 s2 : List (Vec3 ℚ) → List (Vec3 ℚ))
    (h1 : ∀ l, (s1 l).Perm l) (h2 : ∀ l, (s2 l).Perm l) (comp : List ℕ) :
    buildMolecule c cutoff s1 comp = buildMolecule c cutoff s2 comp := by
  have hshift : molShiftCart c cutoff s1 comp = molShiftCart c cutoff s2 comp := by
    unfold molShiftCart
    rw [molCom_valOrder c cutoff s1 s2 h1 h2 comp]
  have hatoms : molAtomsCart c cutoff s1 comp = molAtomsCart c cutoff s2 comp := by
    unfold molAtomsCart
    rw [hshift]
  unfold buildMolecule
  rw [hatoms]

/-- CLAIM C2: `find_molecules_with_indices` is deterministic.  The only
run-to-run nondeterminism of the source is the iteration order of the
`HashMap` `reassembled_atoms` when the centre of mass is summed (f64
addition is modelled exactly, where summation order is irrelevant); the
embedding exposes that order as the oracle `valOrder`, and the output is
identical for every pair of permuting oracles. -/
theorem findMolecules_deterministic (s1 s2 : List (Vec3 ℚ) → List (Vec3 ℚ))
    (h1 : ∀ l, (s1 l).Perm l) (h2 : ∀ l, (s2 l).Perm l)
    (c : Crystal) (cutoff : ℚ) :
    findMoleculesWithIndices s1 c cutoff = findMoleculesWithIndices s2 c cutoff := by
  unfold findMoleculesWithIndices
  by_cases he : c.atoms.isEmpty
  · rw [if_pos he, if_pos he]
  · rw [if_neg he, if_neg he]
    have hmap : (findConnectedComponents c cutoff).map (buildMolecule c cutoff s1) =
        (findConnectedComponents c cutoff).map (buildMolecule c cutoff s2) :=
      List.map_congr_left (fun comp _ => buildMolecule_valOrder c cutoff s1 s2 h1 h2 comp)
    rw [hmap]

/-- Witness for C2: the reversal oracle and the identity oracle give the
same output on a concrete two-atom crystal. -/
theorem findMolecules_deterministic_witness :
    findMoleculesWithIndices (fun l => l.reverse)
        ⟨⟨Mat3.one, Mat3.one⟩,
         [⟨"H", ⟨0, 0, 0⟩, ComponentType.Unknown⟩,
          ⟨"H", ⟨0, 0, 1/10⟩, ComponentType.Unknown⟩]⟩ 1 =
      findMoleculesWithIndices (fun l => l)
        ⟨⟨Mat3.one, Mat3.one⟩,
         [⟨"H", ⟨0, 0, 0⟩, ComponentType.Unknown⟩,
          ⟨"H", ⟨0, 0, 1/10⟩, ComponentType.Unknown⟩]⟩ 1 :=
  findMolecules_deterministic (fun l => l.reverse) (fun l => l)
    (fun l => List.reverse_perm l) (fun l => List.Perm.refl l) _ 1



/-! ### Unwrap correctness: graph and map lemmas (C1) -/

theorem PosMap.lookup_isSome_iff (m : PosMap) (x : ℕ) :
    (m.lookup x).isSome ↔ x ∈ m.keys := by
  induction m with
  | nil => simp [PosMap.lookup, PosMap.keys]
  | cons e t ih =>
    obtain ⟨k, v⟩ := e
    by_cases hx : x = k
    · subst hx
      simp [PosMap.lookup, PosMap.keys, List.lookup]
    · have hbeq : (x == k) = false := beq_eq_false_iff_ne.mpr hx
      simp only [PosMap.lookup, List.lookup, hbeq, PosMap.keys, List.map_cons,
        List.mem_cons]
      simp only [PosMap.lookup, PosMap.keys] at ih
      rw [ih]
      simp [hx]

theorem PosMap.lookup_eq_some_mem (m : PosMap) (x : ℕ) (p : Vec3 ℚ)
    (h : m.lookup x = some p) : (x, p) ∈ m := by
  induction m with
  | nil => simp [PosMap.lookup, List.lookup] at h
  | cons e t ih =>
    obtain ⟨k, v⟩ := e
    by_cases hx : x = k
    · subst hx
      simp only [PosMap.lookup, List.lookup, beq_self_eq_true] at h
      obtain rfl := Option.some.inj h
      exact List.mem_cons_self _ _
    · have hbeq : (x == k) = false := beq_eq_false_iff_ne.mpr hx
      simp only [PosMap.lookup, List.lookup, hbeq] at h
      exact List.mem_cons_of_mem _ (ih h)

theorem sdv_normSq_symm (c : Crystal) (i j : ℕ) :
    (sdv c i j).normSq = (sdv c j i).normSq := by
  have hround : ∀ q : ℚ, rustRound (-q) = -rustRound q := by
    intro q
    unfold rustRound
    rcases lt_trichotomy q 0 with hq | hq | hq
    · rw [if_pos (by linarith), if_neg (by linarith)]
      ring_nf
    · subst hq
      norm_num
    · rw [if_neg (by linarith), if_pos (by linarith)]
      ring_nf
  have hwrap : ∀ q : ℚ, wrapComp (-q) = -wrapComp q := by
    intro q
    unfold wrapComp
    rw [hround]
    push_cast
    ring
  unfold sdv Lattice.get_shortest_distance_vector Lattice.to_cartesian
  set f1 := (c.atoms.getD i defaultAtom).fractional_coords
  set f2 := (c.atoms.getD j defaultAtom).fractional_coords
  have hmif : minImageFrac f1 f2 = -(minImageFrac f2 f1) := by
    unfold minImageFrac
    cases f1; cases f2
    simp only [Vec3.sub_def, Vec3.neg_def, Vec3.mk.injEq]
    refine ⟨?_, ?_, ?_⟩ <;>
      (rw [show ∀ a b : ℚ, a - b = -(b - a) from fun a b => by ring]; exact hwrap _)
  rw [hmif]
  obtain ⟨w⟩ := minImageFrac f2 f1
  cases hm : c.lattice.matrix
  simp only [Mat3.mulVec, Vec3.normSq, Vec3.dot, Vec3.smul_def, Vec3.add_def, Vec3.neg_def]
  ring

theorem mem_edgeList_iff (c : Crystal) (cutoff : ℚ) (i j : ℕ) :
    (i, j) ∈ edgeList c cutoff ↔
      i < c.atoms.length ∧ j < c.atoms.length ∧ i < j ∧ distCond c cutoff i j := by
  unfold edgeList
  simp only [List.mem_filter, List.mem_flatMap, List.mem_map, List.mem_range,
    decide_eq_true_iff, Prod.mk.injEq]
  constructor
  · rintro ⟨⟨a, ha, b, hb, rfl, rfl⟩, hd⟩
    exact ⟨ha, hb.1, hb.2, hd⟩
  · rintro ⟨hi, hj, hij, hd⟩
    exact ⟨⟨i, hi, j, ⟨hj, hij⟩, rfl, rfl⟩, hd⟩

theorem distCond_symm (c : Crystal) (cutoff : ℚ) (i j : ℕ)
    (h : distCond c cutoff i j) : distCond c cutoff j i := by
  unfold distCond at h ⊢
  have := sdv_normSq_symm c i j
  unfold sdv at this
  rw [← this]
  exact h

theorem mem_neighbors_iff (c : Crystal) (cutoff : ℚ) (a j : ℕ) :
    j ∈ neighbors c cutoff a ↔ isBond c cutoff a j := by
  unfold neighbors isBond
  rw [List.mem_reverse, List.mem_map]
  constructor
  · rintro ⟨e, he, hpick⟩
    have heE := (List.mem_filter.mp he).1
    have hinc : e.1 = a ∨ e.2 = a := by
      have := (List.mem_filter.mp he).2
      simpa using this
    by_cases h1 : e.1 = a
    · rw [if_pos h1] at hpick
      left
      have : e = (a, j) := by
        obtain ⟨e1, e2⟩ := e
        simp only at h1 hpick
        rw [h1, hpick]
      rwa [← this]
    · rw [if_neg h1] at hpick
      rcases hinc with h | h2
      · exact absurd h h1
      · right
        have : e = (j, a) := by
          obtain ⟨e1, e2⟩ := e
          simp only at h2 hpick
          rw [h2, hpick]
        rwa [← this]
  · rintro (h | h)
    · refine ⟨(a, j), List.mem_filter.mpr ⟨h, by simp⟩, ?_⟩
      simp
    · refine ⟨(j, a), List.mem_filter.mpr ⟨h, by simp⟩, ?_⟩
      by_cases hja : j = a
      · simp [hja]
      · simp [hja]

theorem isBond_symm (c : Crystal) (cutoff : ℚ) (a b : ℕ) :
    isBond c cutoff a b ↔ isBond c cutoff b a := by
  unfold isBond
  exact or_comm

theorem isBond_distCond (c : Crystal) (cutoff : ℚ) (a j : ℕ)
    (h : isBond c cutoff a j) : distCond c cutoff a j := by
  rcases h with h | h
  · exact ((mem_edgeList_iff c cutoff a j).mp h).2.2.2
  · exact distCond_symm c cutoff j a ((mem_edgeList_iff c cutoff j a).mp h).2.2.2

theorem mem_neighbors_lt (c : Crystal) (cutoff : ℚ) (a j : ℕ)
    (h : j ∈ neighbors c cutoff a) : j < c.atoms.length := by
  rcases (mem_neighbors_iff c cutoff a j).mp h with hb | hb
  · exact ((mem_edgeList_iff c cutoff a j).mp hb).2.1
  · exact ((mem_edgeList_iff c cutoff j a).mp hb).1

theorem reach_symm (c : Crystal) (cutoff : ℚ) :
    ∀ x y : ℕ, Reach c cutoff x y → Reach c cutoff y x := by
  have hstep : Symmetric (fun a b => b ∈ neighbors c cutoff a) := by
    intro a b hab
    rw [mem_neighbors_iff] at hab ⊢
    exact (isBond_symm c cutoff a b).mp hab
  exact fun x y h => (Relation.ReflTransGen.symmetric hstep) h



theorem PosMap.lookup_cons_self (k : ℕ) (v : Vec3 ℚ) (t : PosMap) :
    PosMap.lookup ((k, v) :: t) k = some v := by
  simp [PosMap.lookup, List.lookup]

theorem PosMap.lookup_cons_ne (k : ℕ) (v : Vec3 ℚ) (t : PosMap) (x : ℕ) (h : x ≠ k) :
    PosMap.lookup ((k, v) :: t) x = PosMap.lookup t x := by
  simp [PosMap.lookup, List.lookup, beq_eq_false_iff_ne.mpr h]

theorem stepNbrs_spec (c : Crystal) (cur : ℕ) (curPos : Vec3 ℚ) :
    ∀ (nbrs : List ℕ) (pos : PosMap) (newq : List ℕ),
      ∃ added : List ℕ,
        (stepNbrs c cur curPos nbrs pos newq).2 = newq ++ added ∧
        (stepNbrs c cur curPos nbrs pos newq).1.keys = added.reverse ++ pos.keys ∧
        added.Nodup ∧
        (∀ x ∈ added, x ∈ nbrs ∧ x ∉ pos.keys) ∧
        (∀ x ∈ nbrs, x ∈ (stepNbrs c cur curPos nbrs pos newq).1.keys) ∧
        (∀ x p, pos.lookup x = some p →
          (stepNbrs c cur curPos nbrs pos newq).1.lookup x = some p) ∧
        (∀ x p, (stepNbrs c cur curPos nbrs pos newq).1.lookup x = some p →
          pos.lookup x = some p ∨ (x ∈ nbrs ∧ p = curPos + sdv c cur x)) := by
  intro nbrs
  induction nbrs with
  | nil =>
    intro pos newq
    refine ⟨[], by simp [stepNbrs], by simp [stepNbrs], List.nodup_nil, ?_, ?_, ?_, ?_⟩
    · intro x hx; exact absurd hx (List.not_mem_nil x)
    · intro x hx; exact absurd hx (List.not_mem_nil x)
    · intro x p h; simpa [stepNbrs] using h
    · intro x p h
      left
      simpa [stepNbrs] using h
  | cons nb t ih =>
    intro pos newq
    by_cases hnb : (pos.lookup nb).isSome
    · have hstep : stepNbrs c cur curPos (nb :: t) pos newq =
          stepNbrs c cur curPos t pos newq := by
        rw [stepNbrs, if_pos hnb]
      obtain ⟨added, h2, hkeys, hnd, hprops, hall, hpres, hrev⟩ := ih pos newq
      refine ⟨added, by rw [hstep]; exact h2, by rw [hstep]; exact hkeys, hnd, ?_, ?_, ?_, ?_⟩
      · intro x hx
        exact ⟨List.mem_cons_of_mem nb (hprops x hx).1, (hprops x hx).2⟩
      · intro x hx
        rw [hstep]
        rcases List.mem_cons.mp hx with rfl | hx2
        · rw [hkeys]
          exact List.mem_append_right _ ((PosMap.lookup_isSome_iff pos x).mp hnb)
        · exact hall x hx2
      · intro x p h
        rw [hstep]
        exact hpres x p h
      · intro x p h
        rw [hstep] at h
        rcases hrev x p h with h1 | ⟨h2, h3⟩
        · exact Or.inl h1
        · exact Or.inr ⟨List.mem_cons_of_mem nb h2, h3⟩
    · have hnb2 : nb ∉ pos.keys := fun hmem =>
        hnb ((PosMap.lookup_isSome_iff pos nb).mpr hmem)
      have hstep : stepNbrs c cur curPos (nb :: t) pos newq =
          stepNbrs c cur curPos t ((nb, curPos + sdv c cur nb) :: pos) (newq ++ [nb]) := by
        rw [stepNbrs, if_neg hnb]
      obtain ⟨added1, h2, hkeys, hnd, hprops, hall, hpres, hrev⟩ :=
        ih ((nb, curPos + sdv c cur nb) :: pos) (newq ++ [nb])
      have hposkeys : PosMap.keys ((nb, curPos + sdv c cur nb) :: pos) = nb :: pos.keys := rfl
      refine ⟨nb :: added1, ?_, ?_, ?_, ?_, ?_, ?_, ?_⟩
      · rw [hstep, h2]
        simp
      · rw [hstep, hkeys, hposkeys]
        simp
      · refine List.nodup_cons.mpr ⟨?_, hnd⟩
        intro hmem
        have := (hprops nb hmem).2
        rw [hposkeys] at this
        exact this (List.mem_cons_self _ _)
      · intro x hx
        rcases List.mem_cons.mp hx with rfl | hx2
        · exact ⟨List.mem_cons_self _ _, hnb2⟩
        · refine ⟨List.mem_cons_of_mem nb (hprops x hx2).1, ?_⟩
          intro hmem
          exact (hprops x hx2).2 (by rw [hposkeys]; exact List.mem_cons_of_mem nb hmem)
      · intro x hx
        rw [hstep]
        rcases List.mem_cons.mp hx with rfl | hx2
        · rw [hkeys, hposkeys]
          exact List.mem_append_right _ (List.mem_cons_self _ _)
        · exact hall x hx2
      · intro x p h
        rw [hstep]
        have hxnb : x ≠ nb := by
          intro hcon
          subst hcon
          rw [h] at hnb
          exact hnb rfl
        refine hpres x p ?_
        rw [PosMap.lookup_cons_ne nb _ pos x hxnb]
        exact h
      · intro x p h
        rw [hstep] at h
        rcases hrev x p h with h1 | ⟨hx2, h3⟩
        · by_cases hxnb : x = nb
          · subst hxnb
            rw [PosMap.lookup_cons_self] at h1
            exact Or.inr ⟨List.mem_cons_self _ _, (Option.some.inj h1).symm⟩
          · rw [PosMap.lookup_cons_ne nb _ pos x hxnb] at h1
            exact Or.inl h1
        · exact Or.inr ⟨List.mem_cons_of_mem nb hx2, h3⟩

theorem missCount_eq_add (c : Crystal) (pos pos' : PosMap) (added : List ℕ)
    (hkeys : PosMap.keys pos' = added.reverse ++ PosMap.keys pos)
    (hnd : added.Nodup)
    (hfresh : ∀ x ∈ added, x < c.atoms.length ∧ x ∉ PosMap.keys pos) :
    missCount c pos = added.length + missCount c pos' := by
  classical
  unfold missCount
  have hS' : (List.range c.atoms.length).filter (fun i => decide (i ∉ PosMap.keys pos')) =
      ((List.range c.atoms.length).filter (fun i => decide (i ∉ PosMap.keys pos))).filter
        (fun i => !decide (i ∈ added)) := by
    rw [List.filter_filter]
    apply List.filter_congr
    intro a _
    by_cases h1 : a ∈ added <;> by_cases h2 : a ∈ PosMap.keys pos <;>
      simp [hkeys, List.mem_append, List.mem_reverse, h1, h2]
  have hperm : (((List.range c.atoms.length).filter
      (fun i => decide (i ∉ PosMap.keys pos))).filter
        (fun i => decide (i ∈ added))).Perm added := by
    refine (List.perm_ext_iff_of_nodup ?_ hnd).mpr ?_
    · exact ((List.nodup_range _).filter _).filter _
    · intro a
      simp only [List.mem_filter, List.mem_range, decide_eq_true_eq]
      constructor
      · rintro ⟨-, ha⟩
        exact ha
      · intro ha
        exact ⟨⟨(hfresh a ha).1, (hfresh a ha).2⟩, ha⟩
  have hsplit := (List.filter_append_perm (fun i => decide (i ∈ added))
    ((List.range c.atoms.length).filter (fun i => decide (i ∉ PosMap.keys pos)))).length_eq
  rw [List.length_append] at hsplit
  rw [hS', ← hsplit, hperm.length_eq]

theorem bfsGo_spec (c : Crystal) (cutoff : ℚ) (start : ℕ) :
    ∀ fuel (pos : PosMap) (q : List ℕ), BfsInv c cutoff start pos q →
      bfsMeasure c pos q < fuel →
      ∃ res, bfsGo c cutoff fuel pos q = some res ∧
        BfsInv c cutoff start res [] ∧
        (∀ x p, PosMap.lookup pos x = some p → PosMap.lookup res x = some p) := by
  intro fuel
  induction fuel with
  | zero =>
    intro pos q _ hm
    exact absurd hm (Nat.not_lt_zero _)
  | succ fuel ih =>
    intro pos q hinv hm
    match q with
    | [] =>
      refine ⟨pos, rfl, ?_, fun x p h => h⟩
      obtain ⟨h1, h2, h3, h4, h5⟩ := hinv
      exact ⟨h1, fun x hx => absurd hx (List.not_mem_nil x), h3, h4,
        fun x hx => (h5 x hx).imp (fun hq => absurd hq (List.not_mem_nil x)) id⟩
    | cur :: rest =>
      obtain ⟨hnodup, hqsub, hparent, hreach, hclosure⟩ := hinv
      have hcurk : cur ∈ PosMap.keys pos := hqsub cur (List.mem_cons_self _ _)
      obtain ⟨pp0, hpp0⟩ := Option.isSome_iff_exists.mp
        ((PosMap.lookup_isSome_iff pos cur).mpr hcurk)
      have hcurPos : (PosMap.lookup pos cur).getD Vec3.zero = pp0 := by
        rw [hpp0]; rfl
      obtain ⟨added, hq2, hkeys, hnd, hfreshN, hallN, hpres, hnew⟩ :=
        stepNbrs_spec c cur ((PosMap.lookup pos cur).getD Vec3.zero)
          (neighbors c cutoff cur) pos []
      rw [List.nil_append] at hq2
      set pr := stepNbrs c cur ((PosMap.lookup pos cur).getD Vec3.zero)
        (neighbors c cutoff cur) pos [] with hpr
      have hunfold : bfsGo c cutoff (fuel + 1) pos (cur :: rest) =
          bfsGo c cutoff fuel pr.1 (rest ++ pr.2) := rfl
      have hinv' : BfsInv c cutoff start pr.1 (rest ++ added) := by
        refine ⟨?_, ?_, ?_, ?_, ?_⟩
        · rw [hkeys]
          refine List.Nodup.append (List.nodup_reverse.mpr hnd) hnodup ?_
          intro x hx hx2
          exact (hfreshN x (List.mem_reverse.mp hx)).2 hx2
        · intro x hx
          rcases List.mem_append.mp hx with hx1 | hx2
          · rw [hkeys]
            exact List.mem_append_right _ (hqsub x (List.mem_cons_of_mem _ hx1))
          · rw [hkeys]
            exact List.mem_append_left _ (List.mem_reverse.mpr hx2)
        · intro x p hxp
          rcases hnew x p hxp with hold | ⟨hxn, hp⟩
          · rcases hparent x p hold with hstart | ⟨cp, pp, hcp, hnb, hpe⟩
            · exact Or.inl hstart
            · exact Or.inr ⟨cp, pp, hpres cp pp hcp, hnb, hpe⟩
          · refine Or.inr ⟨cur, pp0, hpres cur pp0 hpp0, hxn, ?_⟩
            rw [hp, hcurPos]
        · intro x hx
          rw [hkeys] at hx
          rcases List.mem_append.mp hx with hx1 | hx2
          · have hxa : x ∈ added := List.mem_reverse.mp hx1
            exact (hreach cur hcurk).tail ((hfreshN x hxa).1)
          · exact hreach x hx2
        · intro x hx
          rw [hkeys] at hx
          rcases List.mem_append.mp hx with hx1 | hx2
          · exact Or.inl (List.mem_append_right _ (List.mem_reverse.mp hx1))
          · rcases hclosure x hx2 with hq | hcl
            · rcases List.mem_cons.mp hq with rfl | hr
              · refine Or.inr ?_
                intro y hy
                exact hallN y hy
              · exact Or.inl (List.mem_append_left _ hr)
            · refine Or.inr ?_
              intro y hy
              rw [hkeys]
              exact List.mem_append_right _ (hcl y hy)
      have hmc : missCount c pos = added.length + missCount c pr.1 :=
        missCount_eq_add c pos pr.1 added hkeys hnd
          (fun x hx => ⟨mem_neighbors_lt c cutoff cur x (hfreshN x hx).1, (hfreshN x hx).2⟩)
      have hm' : bfsMeasure c pr.1 (rest ++ added) < bfsMeasure c pos (cur :: rest) := by
        unfold bfsMeasure
        rw [hmc, List.length_append, List.length_cons]
        have h1 : added.length ≤ added.length * (c.atoms.length + 1) :=
          Nat.le_mul_of_pos_right _ (Nat.succ_pos _)
        have h3 : (added.length + missCount c pr.1) * (c.atoms.length + 1) =
            added.length * (c.atoms.length + 1) +
              missCount c pr.1 * (c.atoms.length + 1) := by ring
        omega
      obtain ⟨res, hres, hrinv, hrpres⟩ := ih pr.1 (rest ++ added) hinv'
        (lt_of_lt_of_le hm' (Nat.lt_succ_iff.mp hm))
      refine ⟨res, ?_, hrinv, ?_⟩
      · rw [hunfold, hq2]
        exact hres
      · intro x p h
        exact hrpres x p (hpres x p h)

theorem bfsMap_spec (c : Crystal) (cutoff : ℚ) (start : ℕ)
    (hs : start < c.atoms.length) :
    BfsInv c cutoff start (bfsMap c cutoff start) [] ∧
    PosMap.lookup (bfsMap c cutoff start) start =
      some (c.lattice.to_cartesian ((c.atoms.getD start defaultAtom).fractional_coords)) := by
  set p0 : PosMap :=
    [(start, c.lattice.to_cartesian ((c.atoms.getD start defaultAtom).fractional_coords))]
    with hp0
  have hinv0 : BfsInv c cutoff start p0 [start] := by
    refine ⟨?_, ?_, ?_, ?_, ?_⟩
    · exact List.nodup_cons.mpr ⟨List.not_mem_nil _, List.nodup_nil⟩
    · intro x hx
      rcases List.mem_cons.mp hx with rfl | hx2
      · exact List.mem_cons_self _ _
      · exact absurd hx2 (List.not_mem_nil x)
    · intro x p h
      by_cases hx : x = start
      · subst hx
        rw [hp0, PosMap.lookup_cons_self] at h
        exact Or.inl ⟨rfl, (Option.some.inj h).symm⟩
      · rw [hp0, PosMap.lookup_cons_ne _ _ _ _ hx] at h
        exact absurd h (by simp [PosMap.lookup, List.lookup])
    · intro x hx
      rcases List.mem_cons.mp hx with rfl | hx2
      · exact Relation.ReflTransGen.refl
      · exact absurd hx2 (List.not_mem_nil x)
    · intro x hx
      rcases List.mem_cons.mp hx with rfl | hx2
      · exact Or.inl (List.mem_cons_self _ _)
      · exact absurd hx2 (List.not_mem_nil x)
  have hmbound : bfsMeasure c p0 [start] < bfsFuel c := by
    unfold bfsMeasure bfsFuel
    have h1 : missCount c p0 ≤ c.atoms.length := by
      unfold missCount
      calc ((List.range c.atoms.length).filter _).length
          ≤ (List.range c.atoms.length).length := List.length_filter_le _ _
        _ = c.atoms.length := List.length_range _
    have h2 : missCount c p0 * (c.atoms.length + 1) ≤
        c.atoms.length * (c.atoms.length + 1) :=
      Nat.mul_le_mul_right _ h1
    have h3 : (c.atoms.length + 1) * (c.atoms.length + 1) =
        c.atoms.length * (c.atoms.length + 1) + (c.atoms.length + 1) := by ring
    have h4 : ([start] : List ℕ).length = 1 := rfl
    omega
  obtain ⟨res, hres, hrinv, hrpres⟩ := bfsGo_spec c cutoff start (bfsFuel c) p0 [start]
    hinv0 hmbound
  have hbm : bfsMap c cutoff start = res := by
    unfold bfsMap
    rw [← hp0, hres]
    rfl
  rw [hbm]
  refine ⟨hrinv, ?_⟩
  exact hrpres start _ (by rw [hp0]; exact PosMap.lookup_cons_self _ _ _)

theorem reach_lt (c : Crystal) (cutoff : ℚ) (start x : ℕ)
    (hs : start < c.atoms.length) (h : Reach c cutoff start x) :
    x < c.atoms.length := by
  induction h with
  | refl => exact hs
  | tail hab hbc ih => exact mem_neighbors_lt c cutoff _ _ hbc

theorem mem_keys_bfsMap_iff (c : Crystal) (cutoff : ℚ) (start : ℕ)
    (hs : start < c.atoms.length) (x : ℕ) :
    x ∈ PosMap.keys (bfsMap c cutoff start) ↔ Reach c cutoff start x := by
  obtain ⟨⟨hnd, hq, hpar, hreach, hcl⟩, hls⟩ := bfsMap_spec c cutoff start hs
  constructor
  · exact hreach x
  · intro hr
    induction hr with
    | refl =>
      exact (PosMap.lookup_isSome_iff _ _).mp (by rw [hls]; rfl)
    | tail hab hbc ih =>
      rcases hcl _ ih with hfalse | hclb
      · exact absurd hfalse (List.not_mem_nil _)
      · exact hclb _ hbc

theorem componentsFold_inv (c : Crystal) (cutoff : ℚ) :
    ∀ (l : List ℕ) (st : List (List ℕ) × List ℕ),
      (∀ i ∈ l, i < c.atoms.length) → ComponentsInv c cutoff st →
      ComponentsInv c cutoff (l.foldl (componentsStep c cutoff) st) := by
  intro l
  induction l with
  | nil =>
    intro st _ h
    exact h
  | cons i t ih =>
    intro st hl hst
    rw [List.foldl_cons]
    refine ih _ (fun j hj => hl j (List.mem_cons_of_mem _ hj)) ?_
    have hi : i < c.atoms.length := hl i (List.mem_cons_self _ _)
    obtain ⟨hvis, hcomps⟩ := hst
    unfold componentsStep
    by_cases hv : st.2.contains i = true
    · rw [if_pos hv]
      exact ⟨hvis, hcomps⟩
    · rw [if_neg hv]
      have hiv : i ∉ st.2 := by
        intro hcon
        exact hv (by simpa using hcon)
      have hnoop : ∀ x ∈ sortNat (PosMap.keys (bfsMap c cutoff i)),
          (! st.2.contains x) = true := by
        intro x hx
        have hxk : x ∈ PosMap.keys (bfsMap c cutoff i) :=
          (List.perm_insertionSort (· ≤ ·) _).mem_iff.mp hx
        have hrx : Reach c cutoff i x := (mem_keys_bfsMap_iff c cutoff i hi x).mp hxk
        simp only [Bool.not_eq_eq_eq_not, Bool.not_true, ← Bool.not_eq_true]
        intro hcon
        have hxv : x ∈ st.2 := by simpa using hcon
        obtain ⟨comp0, hc0, hxc0⟩ := (hvis x).mp hxv
        obtain ⟨-, -, j, hj, hclassj⟩ := hcomps comp0 hc0
        have hrjx : Reach c cutoff j x := (hclassj x).mp hxc0
        have hrji : Reach c cutoff j i := hrjx.trans (reach_symm c cutoff i x hrx)
        have : i ∈ comp0 := (hclassj i).mpr hrji
        exact hiv ((hvis i).mpr ⟨comp0, hc0, this⟩)
      have hcmp : (sortNat (PosMap.keys (bfsMap c cutoff i))).filter
          (fun j => ! st.2.contains j) = sortNat (PosMap.keys (bfsMap c cutoff i)) :=
        List.filter_eq_self.mpr hnoop
      rw [hcmp]
      have himem : i ∈ sortNat (PosMap.keys (bfsMap c cutoff i)) := by
        refine (List.perm_insertionSort (· ≤ ·) _).mem_iff.mpr ?_
        exact (mem_keys_bfsMap_iff c cutoff i hi i).mpr Relation.ReflTransGen.refl
      have hne : sortNat (PosMap.keys (bfsMap c cutoff i)) ≠ [] := by
        intro hcon
        rw [hcon] at himem
        exact List.not_mem_nil _ himem
      have hemp : (sortNat (PosMap.keys (bfsMap c cutoff i))).isEmpty = false := by
        simpa [List.isEmpty_iff] using hne
      rw [if_neg (by simp [hemp])]
      constructor
      · intro x
        constructor
        · intro hx
          rcases List.mem_append.mp hx with h1 | h2
          · obtain ⟨c0, hc0, hx0⟩ := (hvis x).mp h1
            exact ⟨c0, List.mem_append_left _ hc0, hx0⟩
          · exact ⟨_, List.mem_append_right _ (List.mem_cons_self _ _), h2⟩
        · rintro ⟨c0, hc0, hx0⟩
          rcases List.mem_append.mp hc0 with h1 | h2
          · exact List.mem_append_left _ ((hvis x).mpr ⟨c0, h1, hx0⟩)
          · rcases List.mem_cons.mp h2 with rfl | h3
            · exact List.mem_append_right _ hx0
            · exact absurd h3 (List.not_mem_nil _)
      · intro comp0 hc0
        rcases List.mem_append.mp hc0 with h1 | h2
        · exact hcomps comp0 h1
        · rcases List.mem_cons.mp h2 with rfl | h3
          · refine ⟨hne, ?_, i, hi, ?_⟩
            · exact (List.perm_insertionSort (· ≤ ·) _).nodup_iff.mpr
                (bfsMap_spec c cutoff i hi).1.1
            · intro x
              have hmm : x ∈ sortNat (PosMap.keys (bfsMap c cutoff i)) ↔
                  x ∈ PosMap.keys (bfsMap c cutoff i) :=
                (List.perm_insertionSort (· ≤ ·) _).mem_iff
              rw [hmm]
              exact mem_keys_bfsMap_iff c cutoff i hi x
          · exact absurd h3 (List.not_mem_nil _)

theorem findConnectedComponents_inv (c : Crystal) (cutoff : ℚ) :
    ∀ comp ∈ findConnectedComponents c cutoff, comp ≠ [] ∧ comp.Nodup ∧
      ∃ i, i < c.atoms.length ∧ (∀ x, x ∈ comp ↔ Reach c cutoff i x) := by
  have h := componentsFold_inv c cutoff (List.range c.atoms.length) ([], [])
    (fun i hi => List.mem_range.mp hi) ⟨by simp, by simp⟩
  intro comp hc
  exact h.2 comp hc

theorem filterMap_eq_map_getD {α β : Type} (F : α → Option β) (d : β) :
    ∀ l : List α, (∀ x ∈ l, (F x).isSome) →
      l.filterMap F = l.map (fun x => (F x).getD d) := by
  intro l
  induction l with
  | nil => intro _; rfl
  | cons a t ih =>
    intro h
    cases hFa : F a with
    | none =>
      have := h a (List.mem_cons_self _ _)
      rw [hFa] at this
      exact absurd this (by simp)
    | some b =>
      simp only [List.filterMap_cons, hFa, List.map_cons, Option.getD_some]
      rw [ih (fun x hx => h x (List.mem_cons_of_mem _ hx))]

theorem headD_mem_of_ne_nil {l : List ℕ} (h : l ≠ []) : l.headD 0 ∈ l := by
  cases l with
  | nil => exact absurd rfl h
  | cons a t => exact List.mem_cons_self _ _

theorem headD_eq_getElem_zero {l : List ℕ} (h : 0 < l.length) :
    l.headD 0 = l[0] := by
  cases l with
  | nil => exact absurd h (by simp)
  | cons a t => rfl

theorem vec3_shift_cancel (pp v s : Vec3 ℚ) : ((pp + v) + s) - (pp + s) = v := by
  obtain ⟨a1, a2, a3⟩ := pp
  obtain ⟨b1, b2, b3⟩ := v
  obtain ⟨c1, c2, c3⟩ := s
  simp only [Vec3.add_def, Vec3.sub_def, Vec3.mk.injEq]
  refine ⟨by ring, by ring, by ring⟩

/-- **C1** (amended). Every molecule returned by
`find_molecules_with_indices` arises from a connected component `comp` as
`buildMolecule`; it has one atom entry per component index, and every entry
other than the first (the BFS anchor, i.e. the component's first index) is
joined by an edge of the distance graph to some other entry of the same
molecule whose unwrapped position lies at straight Cartesian distance
< cutoff (squared norm < cutoff², with no periodic wrapping).  The original
claim — that *every* edge of the graph inside a molecule has straight
Cartesian length < cutoff — is refuted by the periodic-ring counterexample:
only the BFS-tree edges carry that guarantee, not cycle-closing edges. -/
theorem findMolecules_unwrapped_bond (valOrder : List (Vec3 ℚ) → List (Vec3 ℚ))
    (c : Crystal) (cutoff : ℚ) (m : Molecule)
    (hm : m ∈ (findMoleculesWithIndices valOrder c cutoff).1) :
    ∃ comp ∈ findConnectedComponents c cutoff,
      m = buildMolecule c cutoff valOrder comp ∧
      m.atoms.length = comp.length ∧
      ∀ k, k < comp.length → k ≠ 0 →
        ∃ k', k' < comp.length ∧
          isBond c cutoff (comp.getD k 0) (comp.getD k' 0) ∧
          Vec3.normSq ((m.atoms.getD k ("", Vec3.zero)).2 -
              (m.atoms.getD k' ("", Vec3.zero)).2) < cutoff ^ 2 := by
  unfold findMoleculesWithIndices at hm
  by_cases hemp : c.atoms.isEmpty
  · rw [if_pos hemp] at hm
    exact absurd hm (List.not_mem_nil m)
  rw [if_neg hemp] at hm
  obtain ⟨comp, hc, hmeq⟩ := List.mem_map.mp hm
  subst hmeq
  obtain ⟨hne, hnodup, i, hi, hclassi⟩ := findConnectedComponents_inv c cutoff comp hc
  have hstartmem : comp.headD 0 ∈ comp := headD_mem_of_ne_nil hne
  have hstartlt : comp.headD 0 < c.atoms.length :=
    reach_lt c cutoff i _ hi ((hclassi _).mp hstartmem)
  have hclass : ∀ x, x ∈ comp ↔ Reach c cutoff (comp.headD 0) x := by
    intro x
    rw [hclassi x]
    have his : Reach c cutoff i (comp.headD 0) := (hclassi _).mp hstartmem
    constructor
    · intro hx
      exact (reach_symm c cutoff i _ his).trans hx
    · intro hx
      exact his.trans hx
  obtain ⟨⟨hknd, hq0, hparent, hreach0, hcl0⟩, hstartlook⟩ :=
    bfsMap_spec c cutoff (comp.headD 0) hstartlt
  have hkeyseq : ∀ x, x ∈ PosMap.keys (molMap c cutoff comp) ↔ x ∈ comp := by
    intro x
    unfold molMap
    rw [mem_keys_bfsMap_iff c cutoff _ hstartlt]
    exact (hclass x).symm
  have hsome : ∀ x ∈ comp, (PosMap.lookup (molMap c cutoff comp) x).isSome := fun x hx =>
    (PosMap.lookup_isSome_iff _ _).mpr ((hkeyseq x).mpr hx)
  have hatoms' : (buildMolecule c cutoff valOrder comp).atoms =
      comp.map (fun idx =>
        ((PosMap.lookup (molMap c cutoff comp) idx).map (fun p =>
          ((c.atoms.getD idx defaultAtom).element,
            p + molShiftCart c cutoff valOrder comp))).getD ("", Vec3.zero)) := by
    show molAtomsCart c cutoff valOrder comp = _
    unfold molAtomsCart
    exact filterMap_eq_map_getD _ _ comp (fun x hx => by simpa using hsome x hx)
  have hentry : ∀ j (hj : j < comp.length) (p : Vec3 ℚ),
      PosMap.lookup (molMap c cutoff comp) comp[j] = some p →
      (buildMolecule c cutoff valOrder comp).atoms.getD j ("", Vec3.zero) =
        ((c.atoms.getD comp[j] defaultAtom).element,
          p + molShiftCart c cutoff valOrder comp) := by
    intro j hj p hp
    rw [hatoms', List.getD_eq_getElem _ _ (by simpa using hj), List.getElem_map, hp]
    rfl
  refine ⟨comp, hc, rfl, ?_, ?_⟩
  · rw [hatoms', List.length_map]
  · intro k hk hk0
    have hxmem : comp[k] ∈ comp := List.getElem_mem hk
    obtain ⟨px, hpx⟩ := Option.isSome_iff_exists.mp (hsome _ hxmem)
    rcases hparent comp[k] px hpx with ⟨hxs, -⟩ | ⟨cp, pp, hcp, hnb, hpe⟩
    · exfalso
      rw [headD_eq_getElem_zero (List.length_pos.mpr hne)] at hxs
      exact hk0 (hnodup.getElem_inj_iff.mp hxs)
    · have hcpk : cp ∈ PosMap.keys (molMap c cutoff comp) :=
        (PosMap.lookup_isSome_iff _ _).mp (by rw [show PosMap.lookup
          (molMap c cutoff comp) cp = some pp from hcp]; rfl)
      have hcpc : cp ∈ comp := (hkeyseq cp).mp hcpk
      obtain ⟨k', hk', hck'⟩ := List.mem_iff_getElem.mp hcpc
      have hbond : isBond c cutoff comp[k] cp :=
        (isBond_symm c cutoff cp _).mp ((mem_neighbors_iff c cutoff cp _).mp hnb)
      refine ⟨k', hk', ?_, ?_⟩
      · rw [List.getD_eq_getElem _ _ hk, List.getD_eq_getElem _ _ hk', hck']
        exact hbond
      · rw [hentry k hk px hpx,
          hentry k' hk' pp (by rw [show comp[k'] = cp from hck']; exact hcp)]
        show Vec3.normSq ((px + molShiftCart c cutoff valOrder comp) -
            (pp + molShiftCart c cutoff valOrder comp)) < cutoff ^ 2
        have hdiff : (px + molShiftCart c cutoff valOrder comp) -
            (pp + molShiftCart c cutoff valOrder comp) = sdv c cp comp[k] := by
          rw [hpe]
          exact vec3_shift_cancel pp (sdv c cp _) (molShiftCart c cutoff valOrder comp)
        rw [hdiff]
        exact isBond_distCond c cutoff cp _ ((mem_neighbors_iff c cutoff cp _).mp hnb)

/-- **C1** counterexample to the original claim: in the periodic 3-ring
crystal `ringC` with cutoff 6/5, atoms 1 and 2 are joined by an edge of the
distance graph and lie in the same (unique) returned molecule, yet their
unwrapped positions are a straight Cartesian distance 2 apart, ≥ the
cutoff: the cycle-closing bond is stretched by the unwrap. -/
theorem findMolecules_cycle_bond_counterexample :
    isBond ringC (6/5) 1 2 ∧
    (findMoleculesWithIndices (fun l => l) ringC (6/5)).2 = [0, 1, 2] ∧
    (findMoleculesWithIndices (fun l => l) ringC (6/5)).1.length = 1 ∧
    ¬ (Vec3.normSq
        ((((findMoleculesWithIndices (fun l => l) ringC (6/5)).1.headD
            ⟨[], Vec3.zero⟩).atoms.getD 1 ("", Vec3.zero)).2 -
         (((findMoleculesWithIndices (fun l => l) ringC (6/5)).1.headD
            ⟨[], Vec3.zero⟩).atoms.getD 2 ("", Vec3.zero)).2) < (6/5) ^ 2) := by
  with_unfolding_all decide

/-- Witness for the C1 theorem: the one-atom crystal yields one molecule,
on which the amended per-entry bond guarantee is instantiated. -/
theorem findMolecules_unwrapped_bond_witness :
    ((findMoleculesWithIndices (fun l => l) singleC 1).1.headD ⟨[], Vec3.zero⟩) ∈
      (findMoleculesWithIndices (fun l => l) singleC 1).1 ∧
    (∃ comp ∈ findConnectedComponents singleC 1,
      (findMoleculesWithIndices (fun l => l) singleC 1).1.headD ⟨[], Vec3.zero⟩ =
        buildMolecule singleC 1 (fun l => l) comp ∧
      ((findMoleculesWithIndices (fun l => l) singleC 1).1.headD
        ⟨[], Vec3.zero⟩).atoms.length = comp.length ∧
      ∀ k, k < comp.length → k ≠ 0 →
        ∃ k', k' < comp.length ∧
          isBond singleC 1 (comp.getD k 0) (comp.getD k' 0) ∧
          Vec3.normSq ((((findMoleculesWithIndices (fun l => l) singleC 1).1.headD
              ⟨[], Vec3.zero⟩).atoms.getD k ("", Vec3.zero)).2 -
            (((findMoleculesWithIndices (fun l => l) singleC 1).1.headD
              ⟨[], Vec3.zero⟩).atoms.getD k' ("", Vec3.zero)).2) < 1 ^ 2) :=
  ⟨by with_unfolding_all decide,
   findMolecules_unwrapped_bond (fun l => l) singleC 1 _ (by with_unfolding_all decide)⟩

/-! ### C8: populate window and EmptySlab behaviour -/

theorem populate_emptySlab_iff_aux (crystal : Crystal) (geometry : SlabGeometry)
    (molecules : List Molecule) (offset_z cnorm : ℚ)
    (hg : ¬ (cellHeight crystal geometry cnorm < 1/1000000000)) :
    (populate crystal geometry molecules offset_z cnorm =
        Except.error SlabError.emptySlab ↔
      interimAtoms crystal geometry molecules offset_z cnorm = []) := by
  unfold populate
  rw [if_neg hg]
  cases hI : interimAtoms crystal geometry molecules offset_z cnorm with
  | nil => simp
  | cons a t =>
    cases hinv : (geometry.basis).inv? with
    | none => simp
    | some binv => simp

theorem interimAtoms_eq_nil_iff (crystal : Crystal) (geometry : SlabGeometry)
    (molecules : List Molecule) (offset_z cnorm : ℚ) :
    interimAtoms crystal geometry molecules offset_z cnorm = [] ↔
      (if molecules.isEmpty then
        ∀ s ∈ shiftList (popRepeats crystal geometry cnorm), ∀ atom ∈ crystal.atoms,
          ¬ acceptPos geometry offset_z cnorm
            (crystal.lattice.to_cartesian atom.fractional_coords +
              crystal.lattice.to_cartesian s)
      else
        ∀ s ∈ shiftList (popRepeats crystal geometry cnorm), ∀ mol ∈ molecules,
          acceptPos geometry offset_z cnorm
            (mol.center_of_mass + crystal.lattice.to_cartesian s) →
          mol.atoms = []) := by
  unfold interimAtoms
  by_cases hmol : molecules.isEmpty
  · rw [if_pos hmol, if_pos hmol]
    unfold interimAtomic
    rw [List.flatMap_eq_nil_iff]
    constructor
    · intro h s hs atom ha hacc
      have := (List.filterMap_eq_nil_iff.mp (h s hs)) atom ha
      rw [if_pos hacc] at this
      exact Option.noConfusion this
    · intro h s hs
      refine List.filterMap_eq_nil_iff.mpr ?_
      intro atom ha
      rw [if_neg (h s hs atom ha)]
  · rw [if_neg hmol, if_neg hmol]
    unfold interimMol
    rw [List.flatMap_eq_nil_iff]
    constructor
    · intro h s hs mol hm hacc
      have := (List.flatMap_eq_nil_iff.mp (h s hs)) mol hm
      rw [if_pos hacc] at this
      exact List.map_eq_nil_iff.mp this
    · intro h s hs
      refine List.flatMap_eq_nil_iff.mpr ?_
      intro mol hm
      by_cases hacc : acceptPos geometry offset_z cnorm
          (mol.center_of_mass + crystal.lattice.to_cartesian s)
      · rw [if_pos hacc, h s hs mol hm hacc]
        rfl
      · rw [if_neg hacc]

/-- **C8** (amended).  With the degenerate-cell guard passed: (1) `populate`
accepts a periodic image exactly when its layer index lies in the half-open
window `[offset/d_hkl - 1e-3, offset/d_hkl + n_layers - 1e-3)`; (2) it
returns the EmptySlab error exactly when the interim atom list is empty;
and (3) that list is empty iff, in atomic mode, no atom image over the
enumerated replication range falls in the window, while in molecular mode
it is empty iff every molecule image in the window carries an *empty* atom
list.  The original claim — EmptySlab exactly when no image falls in the
window — fails in molecular mode: an accepted empty molecule contributes no
atoms, so EmptySlab can be returned although an image lies in the window. -/
theorem populate_window_emptySlab (crystal : Crystal) (geometry : SlabGeometry)
    (molecules : List Molecule) (offset_z cnorm : ℚ)
    (hg : ¬ (cellHeight crystal geometry cnorm < 1/1000000000)) :
    (∀ p, acceptPos geometry offset_z cnorm p ↔
      (offset_z / geometry.d_hkl - 1/1000 ≤ layerVal geometry cnorm p ∧
       layerVal geometry cnorm p <
         offset_z / geometry.d_hkl + (geometry.n_layers : ℚ) - 1/1000)) ∧
    (populate crystal geometry molecules offset_z cnorm =
        Except.error SlabError.emptySlab ↔
      interimAtoms crystal geometry molecules offset_z cnorm = []) ∧
    (interimAtoms crystal geometry molecules offset_z cnorm = [] ↔
      (if molecules.isEmpty then
        ∀ s ∈ shiftList (popRepeats crystal geometry cnorm), ∀ atom ∈ crystal.atoms,
          ¬ acceptPos geometry offset_z cnorm
            (crystal.lattice.to_cartesian atom.fractional_coords +
              crystal.lattice.to_cartesian s)
      else
        ∀ s ∈ shiftList (popRepeats crystal geometry cnorm), ∀ mol ∈ molecules,
          acceptPos geometry offset_z cnorm
            (mol.center_of_mass + crystal.lattice.to_cartesian s) →
          mol.atoms = [])) :=
  ⟨fun _ => Iff.rfl,
   populate_emptySlab_iff_aux crystal geometry molecules offset_z cnorm hg,
   interimAtoms_eq_nil_iff crystal geometry molecules offset_z cnorm⟩

/-- **C8** counterexample to the original claim: an empty molecule whose
shifted centre of mass lies inside the acceptance window (at the enumerated
shift (0,0,0)) still leads to the EmptySlab error, because an accepted
image need not produce any atom. -/
theorem populate_accepted_empty_counterexample :
    acceptPos geomOne 0 1 (emptyMol.center_of_mass +
      singleC.lattice.to_cartesian ⟨0, 0, 0⟩) ∧
    (⟨0, 0, 0⟩ : Vec3 ℚ) ∈ shiftList (popRepeats singleC geomOne 1) ∧
    populate singleC geomOne [emptyMol] 0 1 = Except.error SlabError.emptySlab := by
  refine ⟨by with_unfolding_all decide, by with_unfolding_all decide, ?_⟩
  have hg : ¬ (cellHeight singleC geomOne 1 < 1/1000000000) := by
    with_unfolding_all decide
  rw [populate_emptySlab_iff_aux singleC geomOne [emptyMol] 0 1 hg]
  unfold interimAtoms
  rw [if_neg (by with_unfolding_all decide)]
  unfold interimMol
  refine List.flatMap_eq_nil_iff.mpr ?_
  intro s _
  refine List.flatMap_eq_nil_iff.mpr ?_
  intro mol hm
  rcases List.mem_cons.mp hm with rfl | h
  · split <;> rfl
  · exact absurd h (List.not_mem_nil _)

/-- Witness for the C8 theorem on the unit-cube crystal in atomic mode. -/
theorem populate_window_emptySlab_witness :
    (¬ (cellHeight singleC geomOne 1 < 1/1000000000)) ∧
    ((∀ p, acceptPos geomOne 0 1 p ↔
      ((0 : ℚ) / geomOne.d_hkl - 1/1000 ≤ layerVal geomOne 1 p ∧
       layerVal geomOne 1 p <
         (0 : ℚ) / geomOne.d_hkl + (geomOne.n_layers : ℚ) - 1/1000)) ∧
    (populate singleC geomOne [] 0 1 = Except.error SlabError.emptySlab ↔
      interimAtoms singleC geomOne [] 0 1 = []) ∧
    (interimAtoms singleC geomOne [] 0 1 = [] ↔
      (if ([] : List Molecule).isEmpty then
        ∀ s ∈ shiftList (popRepeats singleC geomOne 1), ∀ atom ∈ singleC.atoms,
          ¬ acceptPos geomOne 0 1
            (singleC.lattice.to_cartesian atom.fractional_coords +
              singleC.lattice.to_cartesian s)
      else
        ∀ s ∈ shiftList (popRepeats singleC geomOne 1), ∀ mol ∈ ([] : List Molecule),
          acceptPos geomOne 0 1
            (mol.center_of_mass + singleC.lattice.to_cartesian s) →
          mol.atoms = []))) :=
  ⟨by with_unfolding_all decide,
   populate_window_emptySlab singleC geomOne [] 0 1 (by with_unfolding_all decide)⟩

/-! ### C7: termination of lll_reduce — scalar-product toolkit -/

theorem dotq_comm (a b : Vec3 ℚ) : a.dot b = b.dot a := by
  obtain ⟨a1, a2, a3⟩ := a
  obtain ⟨b1, b2, b3⟩ := b
  simp only [Vec3.dot]
  ring

theorem dotq_add_left (a b c : Vec3 ℚ) : (a + b).dot c = a.dot c + b.dot c := by
  obtain ⟨a1, a2, a3⟩ := a
  obtain ⟨b1, b2, b3⟩ := b
  obtain ⟨c1, c2, c3⟩ := c
  simp only [Vec3.dot, Vec3.add_def]
  ring

theorem dotq_sub_left (a b c : Vec3 ℚ) : (a - b).dot c = a.dot c - b.dot c := by
  obtain ⟨a1, a2, a3⟩ := a
  obtain ⟨b1, b2, b3⟩ := b
  obtain ⟨c1, c2, c3⟩ := c
  simp only [Vec3.dot, Vec3.sub_def]
  ring

theorem dotq_smul_left (t : ℚ) (a b : Vec3 ℚ) : (t • a).dot b = t * a.dot b := by
  obtain ⟨a1, a2, a3⟩ := a
  obtain ⟨b1, b2, b3⟩ := b
  simp only [Vec3.dot, Vec3.smul_def]
  ring

theorem dotq_add_right (a b c : Vec3 ℚ) : a.dot (b + c) = a.dot b + a.dot c := by
  rw [dotq_comm, dotq_add_left, dotq_comm b a, dotq_comm c a]

theorem dotq_sub_right (a b c : Vec3 ℚ) : a.dot (b - c) = a.dot b - a.dot c := by
  rw [dotq_comm, dotq_sub_left, dotq_comm b a, dotq_comm c a]

theorem dotq_smul_right (t : ℚ) (a b : Vec3 ℚ) : a.dot (t • b) = t * a.dot b := by
  rw [dotq_comm, dotq_smul_left, dotq_comm b a]

theorem dotq_self_nonneg (a : Vec3 ℚ) : 0 ≤ a.dot a := by
  obtain ⟨a1, a2, a3⟩ := a
  simp only [Vec3.dot]
  nlinarith [sq_nonneg a1, sq_nonneg a2, sq_nonneg a3]

theorem dotq_self_eq_zero (a : Vec3 ℚ) : a.dot a = 0 ↔ a = Vec3.zero := by
  obtain ⟨a1, a2, a3⟩ := a
  simp only [Vec3.dot, Vec3.zero, Vec3.mk.injEq]
  constructor
  · intro h
    refine ⟨?_, ?_, ?_⟩ <;> nlinarith [sq_nonneg a1, sq_nonneg a2, sq_nonneg a3]
  · rintro ⟨rfl, rfl, rfl⟩
    ring

theorem lagrange_q (a b : Vec3 ℚ) :
    (a.cross b).normSq = (a.dot a) * (b.dot b) - (a.dot b) ^ 2 := by
  obtain ⟨a1, a2, a3⟩ := a
  obtain ⟨b1, b2, b3⟩ := b
  simp only [Vec3.cross, Vec3.normSq, Vec3.dot]
  ring

theorem crossq_normSq_comm (a b : Vec3 ℚ) :
    (a.cross b).normSq = (b.cross a).normSq := by
  obtain ⟨a1, a2, a3⟩ := a
  obtain ⟨b1, b2, b3⟩ := b
  simp only [Vec3.cross, Vec3.normSq, Vec3.dot]
  ring

theorem crossq_sub_smul (a b : Vec3 ℚ) (t : ℚ) :
    a.cross (b - t • a) = a.cross b := by
  obtain ⟨a1, a2, a3⟩ := a
  obtain ⟨b1, b2, b3⟩ := b
  simp only [Vec3.cross, Vec3.sub_def, Vec3.smul_def, Vec3.mk.injEq]
  refine ⟨by ring, by ring, by ring⟩

theorem vec3_sub_smul_rearrange (a c : Vec3 ℚ) (mu m : ℚ) :
    a - m • c = (a - mu • c) + (mu - m) • c := by
  obtain ⟨a1, a2, a3⟩ := a
  obtain ⟨c1, c2, c3⟩ := c
  simp only [Vec3.sub_def, Vec3.smul_def, Vec3.add_def, Vec3.mk.injEq]
  refine ⟨by ring, by ring, by ring⟩

theorem Mat3.col_zero (m : Mat3) : m.col 0 = m.c0 := rfl

theorem Mat3.col_one (m : Mat3) : m.col 1 = m.c1 := rfl

theorem Mat3.col_two (m : Mat3) : m.col 2 = m.c2 := rfl

/-- The Gram-Schmidt recomputation at `k = 1` produces `(b₀, b₁*, b₂)`. -/
theorem computeBStar_one (b : Mat3) :
    computeBStar b 1 = Mat3.mk b.c0 (s1v b) b.c2 := rfl

/-- The Gram-Schmidt recomputation at `k = 2` produces `(b₀, b₁*, b₂*)`. -/
theorem computeBStar_two (b : Mat3) :
    computeBStar b 2 = Mat3.mk b.c0 (s1v b) (s2v b) := rfl

/-- The size-reduction loop at `k = 1` subtracts an integer multiple of
column 0 from column 1 (possibly zero). -/
theorem sizeReduce_one (b bstar : Mat3) :
    ∃ m : ℤ, sizeReduce b bstar 1 = Mat3.mk b.c0 (b.c1 - (m : ℚ) • b.c0) b.c2 := by
  have he : sizeReduce b bstar 1 =
      (if 1/2 < |(b.c1.dot (bstar.col 0)) / ((bstar.col 0).dot (bstar.col 0))| then
        Mat3.mk b.c0
          (b.c1 - ((rustRound ((b.c1.dot (bstar.col 0)) /
            ((bstar.col 0).dot (bstar.col 0))) : ℤ) : ℚ) • b.c0) b.c2
      else b) := rfl
  rw [he]
  split
  · exact ⟨_, rfl⟩
  · refine ⟨0, ?_⟩
    obtain ⟨c0, c1, c2⟩ := b
    obtain ⟨x1, y1, z1⟩ := c1
    obtain ⟨x0, y0, z0⟩ := c0
    simp [Vec3.smul_def, Vec3.sub_def]

/-- The size-reduction loop at `k = 2` subtracts integer multiples of
columns 1 and 0 from column 2 (possibly zero). -/
theorem sizeReduce_two (b bstar : Mat3) :
    ∃ m1 m0 : ℤ, sizeReduce b bstar 2 =
      Mat3.mk b.c0 b.c1 (b.c2 - (m1 : ℚ) • b.c1 - (m0 : ℚ) • b.c0) := by
  have he : sizeReduce b bstar 2 =
      (fun bb : Mat3 =>
        if 1/2 < |((bb.col 2).dot (bstar.col 0)) / ((bstar.col 0).dot (bstar.col 0))| then
          bb.setCol 2 ((bb.col 2) - ((rustRound (((bb.col 2).dot (bstar.col 0)) /
            ((bstar.col 0).dot (bstar.col 0))) : ℤ) : ℚ) • (bb.col 0))
        else bb)
      (if 1/2 < |((b.col 2).dot (bstar.col 1)) / ((bstar.col 1).dot (bstar.col 1))| then
          b.setCol 2 ((b.col 2) - ((rustRound (((b.col 2).dot (bstar.col 1)) /
            ((bstar.col 1).dot (bstar.col 1))) : ℤ) : ℚ) • (b.col 1))
        else b) := rfl
  rw [he]
  by_cases h1 : 1/2 < |((b.col 2).dot (bstar.col 1)) / ((bstar.col 1).dot (bstar.col 1))|
  · rw [if_pos h1]
    beta_reduce
    split
    · exact ⟨_, _, rfl⟩
    · refine ⟨rustRound (((b.col 2).dot (bstar.col 1)) /
        ((bstar.col 1).dot (bstar.col 1))), 0, ?_⟩
      obtain ⟨c0, c1, c2⟩ := b
      obtain ⟨x0, y0, z0⟩ := c0
      obtain ⟨x2, y2, z2⟩ := c2
      obtain ⟨x1, y1, z1⟩ := c1
      simp [Vec3.smul_def, Vec3.sub_def, Mat3.setCol, Mat3.col]
  · rw [if_neg h1]
    beta_reduce
    split
    · refine ⟨0, rustRound (((b.col 2).dot (bstar.col 0)) /
        ((bstar.col 0).dot (bstar.col 0))), ?_⟩
      obtain ⟨c0, c1, c2⟩ := b
      obtain ⟨x0, y0, z0⟩ := c0
      obtain ⟨x2, y2, z2⟩ := c2
      obtain ⟨x1, y1, z1⟩ := c1
      simp [Vec3.smul_def, Vec3.sub_def, Mat3.setCol, Mat3.col]
    · refine ⟨0, 0, ?_⟩
      obtain ⟨c0, c1, c2⟩ := b
      obtain ⟨x0, y0, z0⟩ := c0
      obtain ⟨x2, y2, z2⟩ := c2
      obtain ⟨x1, y1, z1⟩ := c1
      simp [Vec3.smul_def, Vec3.sub_def, Mat3.setCol, Mat3.col]

theorem Mat3.col_mk_zero (x y z : Vec3 ℚ) : (Mat3.mk x y z).col 0 = x := rfl

theorem Mat3.col_mk_one (x y z : Vec3 ℚ) : (Mat3.mk x y z).col 1 = y := rfl

theorem Mat3.col_mk_two (x y z : Vec3 ℚ) : (Mat3.mk x y z).col 2 = z := rfl

theorem lllGo?_succ (f : ℕ) (b : Mat3) (k : ℕ) (hk : k < 3) :
    lllGo? (f + 1) b k = lllGo? f (lllStep b k).1 (lllStep b k).2 := by
  show (if k < 3 then lllGo? f (lllStep b k).1 (lllStep b k).2 else some b) = _
  rw [if_pos hk]

theorem lllGo?_stop (f : ℕ) (b : Mat3) (k : ℕ) (hk : ¬ k < 3) :
    lllGo? f b k = some b := by
  cases f with
  | zero =>
    show (if k < 3 then none else some b) = some b
    rw [if_neg hk]
  | succ f =>
    show (if k < 3 then lllGo? f (lllStep b k).1 (lllStep b k).2 else some b) = some b
    rw [if_neg hk]

/-- One loop iteration at `k = 1`: size-reduce by some integer `m`, then
either advance to `k = 2` or (Lovász failure) swap columns 1 and 0. -/
theorem lllStep_one_cases (b : Mat3) :
    ∃ m : ℤ,
      ((s1v b).dot (s1v b) < (3/4 - lmu1 b m ^ 2) * (b.c0.dot b.c0) ∧
        lllStep b 1 = (Mat3.mk (b.c1 - (m : ℚ) • b.c0) b.c0 b.c2, 1)) ∨
      (lllStep b 1 = (Mat3.mk b.c0 (b.c1 - (m : ℚ) • b.c0) b.c2, 2)) := by
  obtain ⟨m, hsz⟩ := sizeReduce_one b (computeBStar b 1)
  rw [computeBStar_one] at hsz
  refine ⟨m, ?_⟩
  unfold lllStep
  simp only [show (1 : ℕ) - 1 = 0 from rfl, show (1 : ℕ) + 1 = 2 from rfl,
    show (1 : ℕ) ⊔ 0 = 1 from rfl, hsz, computeBStar_one,
    Mat3.col_mk_zero, Mat3.col_mk_one]
  rw [show ((b.c1 - (m : ℚ) • b.c0).dot b.c0) /
      (b.c0.dot b.c0) = lmu1 b m from rfl]
  by_cases hcond : (3/4 - lmu1 b m ^ 2) * (b.c0.dot b.c0) ≤ (s1v b).dot (s1v b)
  · rw [if_pos hcond]
    exact Or.inr rfl
  · rw [if_neg hcond]
    exact Or.inl ⟨not_le.mp hcond, rfl⟩

/-- One loop iteration at `k = 2`: size-reduce by integers `m1, m0`, then
either finish (`k = 3`) or (Lovász failure) swap columns 2 and 1. -/
theorem lllStep_two_cases (b : Mat3) :
    ∃ m1 m0 : ℤ,
      ((s2v b).dot (s2v b) < (3/4 - lmu2 b m1 m0 ^ 2) * ((s1v b).dot (s1v b)) ∧
        lllStep b 2 =
          (Mat3.mk b.c0 (b.c2 - (m1 : ℚ) • b.c1 - (m0 : ℚ) • b.c0) b.c1, 1)) ∨
      (lllStep b 2 =
        (Mat3.mk b.c0 b.c1 (b.c2 - (m1 : ℚ) • b.c1 - (m0 : ℚ) • b.c0), 3)) := by
  obtain ⟨m1, m0, hsz⟩ := sizeReduce_two b (computeBStar b 2)
  rw [computeBStar_two] at hsz
  refine ⟨m1, m0, ?_⟩
  unfold lllStep
  simp only [show (2 : ℕ) - 1 = 1 from rfl, show (2 : ℕ) + 1 = 3 from rfl,
    show (1 : ℕ) ⊔ 1 = 1 from rfl, hsz, computeBStar_two,
    Mat3.col_mk_zero, Mat3.col_mk_one, Mat3.col_mk_two]
  rw [show ((b.c2 - (m1 : ℚ) • b.c1 - (m0 : ℚ) • b.c0).dot
      (s1v b)) / ((s1v b).dot (s1v b)) = lmu2 b m1 m0 from rfl]
  by_cases hcond : (3/4 - lmu2 b m1 m0 ^ 2) * ((s1v b).dot (s1v b)) ≤
      (s2v b).dot (s2v b)
  · rw [if_pos hcond]
    exact Or.inr rfl
  · rw [if_neg hcond]
    exact Or.inl ⟨not_le.mp hcond, rfl⟩

theorem det_mk_adv1 (b : Mat3) (m : ℚ) :
    (Mat3.mk b.c0 (b.c1 - m • b.c0) b.c2).det = b.det := by
  obtain ⟨c0, c1, c2⟩ := b
  obtain ⟨x0, y0, z0⟩ := c0
  obtain ⟨x1, y1, z1⟩ := c1
  obtain ⟨x2, y2, z2⟩ := c2
  simp only [Mat3.det, Vec3.cross, Vec3.dot, Vec3.sub_def, Vec3.smul_def]
  ring

theorem det_mk_swap1 (b : Mat3) (m : ℚ) :
    (Mat3.mk (b.c1 - m • b.c0) b.c0 b.c2).det = -b.det := by
  obtain ⟨c0, c1, c2⟩ := b
  obtain ⟨x0, y0, z0⟩ := c0
  obtain ⟨x1, y1, z1⟩ := c1
  obtain ⟨x2, y2, z2⟩ := c2
  simp only [Mat3.det, Vec3.cross, Vec3.dot, Vec3.sub_def, Vec3.smul_def]
  ring

theorem det_mk_adv2 (b : Mat3) (m1 m0 : ℚ) :
    (Mat3.mk b.c0 b.c1 (b.c2 - m1 • b.c1 - m0 • b.c0)).det = b.det := by
  obtain ⟨c0, c1, c2⟩ := b
  obtain ⟨x0, y0, z0⟩ := c0
  obtain ⟨x1, y1, z1⟩ := c1
  obtain ⟨x2, y2, z2⟩ := c2
  simp only [Mat3.det, Vec3.cross, Vec3.dot, Vec3.sub_def, Vec3.smul_def]
  ring

theorem det_mk_swap2 (b : Mat3) (m1 m0 : ℚ) :
    (Mat3.mk b.c0 (b.c2 - m1 • b.c1 - m0 • b.c0) b.c1).det = -b.det := by
  obtain ⟨c0, c1, c2⟩ := b
  obtain ⟨x0, y0, z0⟩ := c0
  obtain ⟨x1, y1, z1⟩ := c1
  obtain ⟨x2, y2, z2⟩ := c2
  simp only [Mat3.det, Vec3.cross, Vec3.dot, Vec3.sub_def, Vec3.smul_def]
  ring

theorem zero_dotq (z : Vec3 ℚ) : (Vec3.zero : Vec3 ℚ).dot z = 0 := by
  obtain ⟨z1, z2, z3⟩ := z
  simp only [Vec3.zero, Vec3.dot]
  ring

theorem zero_crossq (y : Vec3 ℚ) : (Vec3.zero : Vec3 ℚ).cross y = Vec3.zero := by
  obtain ⟨y1, y2, y3⟩ := y
  simp only [Vec3.zero, Vec3.cross, Vec3.mk.injEq]
  refine ⟨by ring, by ring, by ring⟩

theorem d1_pos_of_det (b : Mat3) (h : b.det ≠ 0) : 0 < d1 b := by
  rcases (dotq_self_nonneg b.c0).lt_or_eq with hlt | heq
  · exact hlt
  · exfalso
    have hc0 : b.c0 = Vec3.zero := (dotq_self_eq_zero b.c0).mp heq.symm
    have : b.det = 0 := by
      show (b.c0.cross b.c1).dot b.c2 = 0
      rw [hc0, zero_crossq, zero_dotq]
    exact h this

theorem d2_pos_of_det (b : Mat3) (h : b.det ≠ 0) : 0 < d2 b := by
  rcases (dotq_self_nonneg (b.c0.cross b.c1)).lt_or_eq with hlt | heq
  · exact hlt
  · exfalso
    have hcr : b.c0.cross b.c1 = Vec3.zero := (dotq_self_eq_zero _).mp heq.symm
    have : b.det = 0 := by
      show (b.c0.cross b.c1).dot b.c2 = 0
      rw [hcr, zero_dotq]
    exact h this

theorem s1v_dot_c0 (b : Mat3) (hg : b.c0.dot b.c0 ≠ 0) : (s1v b).dot b.c0 = 0 := by
  unfold s1v
  rw [dotq_sub_left, dotq_smul_left]
  field_simp

theorem s1v_norm_mul (b : Mat3) (hg : b.c0.dot b.c0 ≠ 0) :
    ((s1v b).dot (s1v b)) * (b.c0.dot b.c0) = d2 b := by
  unfold s1v d2
  obtain ⟨c0, c1, c2⟩ := b
  obtain ⟨x0, y0, z0⟩ := c0
  obtain ⟨x1, y1, z1⟩ := c1
  simp only [Vec3.dot, Vec3.sub_def, Vec3.smul_def, Vec3.cross, Vec3.normSq] at hg ⊢
  field_simp
  ring

theorem s2v_dot_c0 (b : Mat3) (hg : b.c0.dot b.c0 ≠ 0) : (s2v b).dot b.c0 = 0 := by
  unfold s2v
  rw [dotq_sub_left, dotq_sub_left, dotq_smul_left, dotq_smul_left, s1v_dot_c0 b hg]
  field_simp

theorem s2v_dot_s1v (b : Mat3) (hg : b.c0.dot b.c0 ≠ 0)
    (hs1 : (s1v b).dot (s1v b) ≠ 0) : (s2v b).dot (s1v b) = 0 := by
  unfold s2v
  rw [dotq_sub_left, dotq_sub_left, dotq_smul_left, dotq_smul_left,
    dotq_comm b.c0 (s1v b), s1v_dot_c0 b hg]
  field_simp

theorem dotq_three_sum (A B C : Vec3 ℚ) (p r : ℚ) :
    (A + p • B + r • C).dot (A + p • B + r • C) =
      A.dot A + p ^ 2 * B.dot B + r ^ 2 * C.dot C +
        2 * p * A.dot B + 2 * r * A.dot C + 2 * p * r * B.dot C := by
  obtain ⟨a1, a2, a3⟩ := A
  obtain ⟨b1, b2, b3⟩ := B
  obtain ⟨c1, c2, c3⟩ := C
  simp only [Vec3.dot, Vec3.add_def, Vec3.smul_def]
  ring

theorem dotq_two_sum (A C : Vec3 ℚ) (p : ℚ) :
    (A + p • C).dot (A + p • C) =
      A.dot A + p ^ 2 * C.dot C + 2 * p * A.dot C := by
  obtain ⟨a1, a2, a3⟩ := A
  obtain ⟨c1, c2, c3⟩ := C
  simp only [Vec3.dot, Vec3.add_def, Vec3.smul_def]
  ring

theorem swap1_decrease (b : Mat3) (m : ℤ) (hg : 0 < b.c0.dot b.c0)
    (hfail : (s1v b).dot (s1v b) < (3/4 - lmu1 b m ^ 2) * (b.c0.dot b.c0)) :
    d1 (Mat3.mk (b.c1 - (m : ℚ) • b.c0) b.c0 b.c2) < 3/4 * d1 b ∧
    d2 (Mat3.mk (b.c1 - (m : ℚ) • b.c0) b.c0 b.c2) = d2 b := by
  have hg' : b.c0.dot b.c0 ≠ 0 := ne_of_gt hg
  constructor
  · have hrepr : b.c1 - (m : ℚ) • b.c0 =
        s1v b + (b.c1.dot b.c0 / b.c0.dot b.c0 - (m : ℚ)) • b.c0 := by
      unfold s1v
      exact vec3_sub_smul_rearrange b.c1 b.c0 _ _
    have horth := s1v_dot_c0 b hg'
    have hmu : lmu1 b m = b.c1.dot b.c0 / b.c0.dot b.c0 - (m : ℚ) := by
      unfold lmu1
      rw [hrepr, dotq_add_left, dotq_smul_left, horth]
      field_simp
    have hnorm : (b.c1 - (m : ℚ) • b.c0).dot (b.c1 - (m : ℚ) • b.c0) =
        (s1v b).dot (s1v b) +
          (b.c1.dot b.c0 / b.c0.dot b.c0 - (m : ℚ)) ^ 2 * (b.c0.dot b.c0) := by
      rw [hrepr, dotq_two_sum, horth]
      ring
    rw [hmu] at hfail
    show (b.c1 - (m : ℚ) • b.c0).dot (b.c1 - (m : ℚ) • b.c0) < 3/4 * d1 b
    rw [hnorm]
    unfold d1
    have hexp : (3/4 - (b.c1.dot b.c0 / b.c0.dot b.c0 - (m : ℚ)) ^ 2) *
        (b.c0.dot b.c0) = 3/4 * (b.c0.dot b.c0) -
          (b.c1.dot b.c0 / b.c0.dot b.c0 - (m : ℚ)) ^ 2 * (b.c0.dot b.c0) := by
      ring
    rw [hexp] at hfail
    linarith
  · show ((b.c1 - (m : ℚ) • b.c0).cross b.c0).normSq = (b.c0.cross b.c1).normSq
    rw [crossq_normSq_comm, crossq_sub_smul]

theorem swap2_decrease (b : Mat3) (m1 m0 : ℤ) (hg : 0 < b.c0.dot b.c0)
    (hs1 : 0 < (s1v b).dot (s1v b))
    (hfail : (s2v b).dot (s2v b) <
      (3/4 - lmu2 b m1 m0 ^ 2) * ((s1v b).dot (s1v b))) :
    d2 (Mat3.mk b.c0 (b.c2 - (m1 : ℚ) • b.c1 - (m0 : ℚ) • b.c0) b.c1) <
      3/4 * d2 b := by
  have hg' : b.c0.dot b.c0 ≠ 0 := ne_of_gt hg
  have hs1' : (s1v b).dot (s1v b) ≠ 0 := ne_of_gt hs1
  have horth10 := s1v_dot_c0 b hg'
  have horth20 := s2v_dot_c0 b hg'
  have horth21 := s2v_dot_s1v b hg' hs1'
  have hw : b.c2 - (m1 : ℚ) • b.c1 - (m0 : ℚ) • b.c0 =
      s2v b + (b.c2.dot (s1v b) / (s1v b).dot (s1v b) - (m1 : ℚ)) • s1v b +
        (b.c2.dot b.c0 / b.c0.dot b.c0 -
          (m1 : ℚ) * (b.c1.dot b.c0 / b.c0.dot b.c0) - (m0 : ℚ)) • b.c0 := by
    unfold s2v s1v
    obtain ⟨c0, c1, c2⟩ := b
    obtain ⟨x0, y0, z0⟩ := c0
    obtain ⟨x1, y1, z1⟩ := c1
    obtain ⟨x2, y2, z2⟩ := c2
    simp only [Vec3.dot, Vec3.sub_def, Vec3.smul_def, Vec3.add_def, Vec3.mk.injEq]
    refine ⟨by ring, by ring, by ring⟩
  have hmu : lmu2 b m1 m0 =
      b.c2.dot (s1v b) / (s1v b).dot (s1v b) - (m1 : ℚ) := by
    unfold lmu2
    rw [hw, dotq_add_left, dotq_add_left, dotq_smul_left, dotq_smul_left, horth21,
      dotq_comm b.c0 (s1v b), horth10]
    field_simp
  have hwnorm : (b.c2 - (m1 : ℚ) • b.c1 - (m0 : ℚ) • b.c0).dot
      (b.c2 - (m1 : ℚ) • b.c1 - (m0 : ℚ) • b.c0) =
      (s2v b).dot (s2v b) +
        (b.c2.dot (s1v b) / (s1v b).dot (s1v b) - (m1 : ℚ)) ^ 2 *
          ((s1v b).dot (s1v b)) +
        (b.c2.dot b.c0 / b.c0.dot b.c0 -
          (m1 : ℚ) * (b.c1.dot b.c0 / b.c0.dot b.c0) - (m0 : ℚ)) ^ 2 *
          (b.c0.dot b.c0) := by
    rw [hw, dotq_three_sum, horth21, horth20, horth10]
    ring
  have hdotc0 : b.c0.dot (b.c2 - (m1 : ℚ) • b.c1 - (m0 : ℚ) • b.c0) =
      (b.c2.dot b.c0 / b.c0.dot b.c0 -
        (m1 : ℚ) * (b.c1.dot b.c0 / b.c0.dot b.c0) - (m0 : ℚ)) *
        (b.c0.dot b.c0) := by
    rw [hw, dotq_add_right, dotq_add_right, dotq_smul_right, dotq_smul_right,
      dotq_comm b.c0 (s2v b), horth20, dotq_comm b.c0 (s1v b), horth10]
    ring
  rw [hmu] at hfail
  show (b.c0.cross (b.c2 - (m1 : ℚ) • b.c1 - (m0 : ℚ) • b.c0)).normSq < 3/4 * d2 b
  rw [lagrange_q, hwnorm, hdotc0]
  have hd2 : d2 b = ((s1v b).dot (s1v b)) * (b.c0.dot b.c0) :=
    (s1v_norm_mul b hg').symm
  rw [hd2]
  have hfail' : (s2v b).dot (s2v b) +
      (b.c2.dot (s1v b) / (s1v b).dot (s1v b) - (m1 : ℚ)) ^ 2 *
        ((s1v b).dot (s1v b)) < 3/4 * ((s1v b).dot (s1v b)) := by
    have hexp : (3/4 - (b.c2.dot (s1v b) / (s1v b).dot (s1v b) - (m1 : ℚ)) ^ 2) *
        ((s1v b).dot (s1v b)) = 3/4 * ((s1v b).dot (s1v b)) -
          (b.c2.dot (s1v b) / (s1v b).dot (s1v b) - (m1 : ℚ)) ^ 2 *
            ((s1v b).dot (s1v b)) := by
      ring
    rw [hexp] at hfail
    linarith
  nlinarith [mul_lt_mul_of_pos_left hfail' hg]

theorem inLat_sub_int (u0 u1 u2 v w : Vec3 ℚ) (m : ℤ)
    (hv : inLat u0 u1 u2 v) (hw : inLat u0 u1 u2 w) :
    inLat u0 u1 u2 (v - (m : ℚ) • w) := by
  obtain ⟨a1, b1, c1, rfl⟩ := hv
  obtain ⟨a2, b2, c2, rfl⟩ := hw
  refine ⟨a1 - m * a2, b1 - m * b2, c1 - m * c2, ?_⟩
  obtain ⟨p0, r0, t0⟩ := u0
  obtain ⟨p1, r1, t1⟩ := u1
  obtain ⟨p2, r2, t2⟩ := u2
  simp only [Vec3.smul_def, Vec3.add_def, Vec3.sub_def, Vec3.mk.injEq]
  push_cast
  refine ⟨by ring, by ring, by ring⟩

theorem inLat_dot (u0 u1 u2 v w : Vec3 ℚ) (q : ℕ)
    (hgram : ∀ x y : Vec3 ℚ, (x = u0 ∨ x = u1 ∨ x = u2) →
      (y = u0 ∨ y = u1 ∨ y = u2) → ∃ n : ℤ, (q : ℚ) * x.dot y = (n : ℚ))
    (hv : inLat u0 u1 u2 v) (hw : inLat u0 u1 u2 w) :
    ∃ n : ℤ, (q : ℚ) * v.dot w = (n : ℚ) := by
  obtain ⟨a1, b1, c1, rfl⟩ := hv
  obtain ⟨a2, b2, c2, rfl⟩ := hw
  obtain ⟨n00, h00⟩ := hgram u0 u0 (Or.inl rfl) (Or.inl rfl)
  obtain ⟨n01, h01⟩ := hgram u0 u1 (Or.inl rfl) (Or.inr (Or.inl rfl))
  obtain ⟨n02, h02⟩ := hgram u0 u2 (Or.inl rfl) (Or.inr (Or.inr rfl))
  obtain ⟨n10, h10⟩ := hgram u1 u0 (Or.inr (Or.inl rfl)) (Or.inl rfl)
  obtain ⟨n11, h11⟩ := hgram u1 u1 (Or.inr (Or.inl rfl)) (Or.inr (Or.inl rfl))
  obtain ⟨n12, h12⟩ := hgram u1 u2 (Or.inr (Or.inl rfl)) (Or.inr (Or.inr rfl))
  obtain ⟨n20, h20⟩ := hgram u2 u0 (Or.inr (Or.inr rfl)) (Or.inl rfl)
  obtain ⟨n21, h21⟩ := hgram u2 u1 (Or.inr (Or.inr rfl)) (Or.inr (Or.inl rfl))
  obtain ⟨n22, h22⟩ := hgram u2 u2 (Or.inr (Or.inr rfl)) (Or.inr (Or.inr rfl))
  refine ⟨a1 * a2 * n00 + a1 * b2 * n01 + a1 * c2 * n02 +
    b1 * a2 * n10 + b1 * b2 * n11 + b1 * c2 * n12 +
    c1 * a2 * n20 + c1 * b2 * n21 + c1 * c2 * n22, ?_⟩
  obtain ⟨p0, r0, t0⟩ := u0
  obtain ⟨p1, r1, t1⟩ := u1
  obtain ⟨p2, r2, t2⟩ := u2
  simp only [Vec3.dot, Vec3.add_def, Vec3.smul_def] at h00 h01 h02 h10 h11 h12 h20 h21 h22 ⊢
  push_cast
  linear_combination ((a1 : ℚ) * (a2 : ℚ)) * h00 + ((a1 : ℚ) * (b2 : ℚ)) * h01 +
    ((a1 : ℚ) * (c2 : ℚ)) * h02 + ((b1 : ℚ) * (a2 : ℚ)) * h10 +
    ((b1 : ℚ) * (b2 : ℚ)) * h11 + ((b1 : ℚ) * (c2 : ℚ)) * h12 +
    ((c1 : ℚ) * (a2 : ℚ)) * h20 + ((c1 : ℚ) * (b2 : ℚ)) * h21 +
    ((c1 : ℚ) * (c2 : ℚ)) * h22

theorem common_denom (l : List ℚ) :
    ∃ k : ℕ, 0 < k ∧ ∀ x ∈ l, ∃ n : ℤ, (k : ℚ) * x = (n : ℚ) := by
  induction l with
  | nil => exact ⟨1, one_pos, by simp⟩
  | cons a t ih =>
    obtain ⟨k, hk, hall⟩ := ih
    refine ⟨a.den * k, Nat.mul_pos a.pos hk, ?_⟩
    intro x hx
    rcases List.mem_cons.mp hx with rfl | hxt
    · refine ⟨k * x.num, ?_⟩
      have h1 : (x.den : ℚ) * x = (x.num : ℚ) := by
        rw [mul_comm]
        exact_mod_cast Rat.mul_den_eq_num x
      push_cast
      calc ((x.den : ℚ) * (k : ℚ)) * x = (k : ℚ) * ((x.den : ℚ) * x) := by ring
        _ = (k : ℚ) * (x.num : ℚ) := by rw [h1]
    · obtain ⟨n, hn⟩ := hall x hxt
      refine ⟨(a.den : ℤ) * n, ?_⟩
      push_cast
      calc ((a.den : ℚ) * (k : ℚ)) * x = (a.den : ℚ) * ((k : ℚ) * x) := by ring
        _ = (a.den : ℚ) * (n : ℚ) := by rw [hn]

theorem pot_lower (u0 u1 u2 : Vec3 ℚ) (q : ℕ) (hq : 0 < q)
    (hgram : ∀ x y : Vec3 ℚ, (x = u0 ∨ x = u1 ∨ x = u2) →
      (y = u0 ∨ y = u1 ∨ y = u2) → ∃ n : ℤ, (q : ℚ) * x.dot y = (n : ℚ))
    (b : Mat3) (hinv : lllInv u0 u1 u2 b) :
    1 / (q : ℚ) ^ 3 ≤ lllPot b := by
  obtain ⟨h0, h1, h2, hdet⟩ := hinv
  have hqQ : (0 : ℚ) < q := by exact_mod_cast hq
  have hd1 := d1_pos_of_det b hdet
  have hd2 := d2_pos_of_det b hdet
  obtain ⟨n1, hn1⟩ := inLat_dot u0 u1 u2 b.c0 b.c0 q hgram h0 h0
  obtain ⟨n2, hn2⟩ := inLat_dot u0 u1 u2 b.c1 b.c1 q hgram h1 h1
  obtain ⟨n3, hn3⟩ := inLat_dot u0 u1 u2 b.c0 b.c1 q hgram h0 h1
  have hn1pos : (0 : ℚ) < (n1 : ℚ) := by
    rw [← hn1]
    exact mul_pos hqQ hd1
  have hn1ge : (1 : ℚ) ≤ (n1 : ℚ) := by exact_mod_cast hn1pos
  have hd1ge : 1 / (q : ℚ) ≤ d1 b := by
    rw [div_le_iff₀ hqQ]
    have e : d1 b * (q : ℚ) = (q : ℚ) * (b.c0.dot b.c0) := by
      unfold d1
      ring
    rw [e, hn1]
    exact hn1ge
  have hq2d2 : (q : ℚ) ^ 2 * d2 b = ((n1 * n2 - n3 ^ 2 : ℤ) : ℚ) := by
    unfold d2
    rw [lagrange_q]
    push_cast
    linear_combination ((q : ℚ) * (b.c1.dot b.c1)) * hn1 + (n1 : ℚ) * hn2 -
      ((q : ℚ) * (b.c0.dot b.c1) + (n3 : ℚ)) * hn3
  have hmQpos : (0 : ℚ) < ((n1 * n2 - n3 ^ 2 : ℤ) : ℚ) := by
    rw [← hq2d2]
    positivity
  have hmge : (1 : ℚ) ≤ ((n1 * n2 - n3 ^ 2 : ℤ) : ℚ) := by exact_mod_cast hmQpos
  have hd2ge : 1 / (q : ℚ) ^ 2 ≤ d2 b := by
    rw [div_le_iff₀ (by positivity)]
    have e : d2 b * (q : ℚ) ^ 2 = (q : ℚ) ^ 2 * d2 b := by ring
    rw [e, hq2d2]
    exact hmge
  have hmul : (1 / (q : ℚ)) * (1 / (q : ℚ) ^ 2) ≤ d1 b * d2 b :=
    mul_le_mul hd1ge hd2ge (by positivity) (le_of_lt hd1)
  calc 1 / (q : ℚ) ^ 3 = (1 / (q : ℚ)) * (1 / (q : ℚ) ^ 2) := by ring
    _ ≤ d1 b * d2 b := hmul
    _ = lllPot b := rfl

theorem lllGo?_some_eq (fuel : ℕ) :
    ∀ b k r, lllGo? fuel b k = some r → lllGo fuel b k = r := by
  induction fuel with
  | zero =>
    intro b k r h
    by_cases hk : k < 3
    · have : lllGo? 0 b k = none := by
        show (if k < 3 then none else some b) = none
        rw [if_pos hk]
      rw [this] at h
      exact Option.noConfusion h
    · have : lllGo? 0 b k = some b := by
        show (if k < 3 then none else some b) = some b
        rw [if_neg hk]
      rw [this] at h
      exact Option.some.inj h
  | succ f ih =>
    intro b k r h
    by_cases hk : k < 3
    · rw [lllGo?_succ f b k hk] at h
      have := ih _ _ _ h
      show (if k < 3 then lllGo f (lllStep b k).1 (lllStep b k).2 else b) = r
      rw [if_pos hk]
      exact this
    · rw [lllGo?_stop (f + 1) b k hk] at h
      show (if k < 3 then lllGo f (lllStep b k).1 (lllStep b k).2 else b) = r
      rw [if_neg hk]
      exact Option.some.inj h

theorem lllGo_term_aux (u0 u1 u2 : Vec3 ℚ) (q : ℕ) (hq : 0 < q)
    (hgram : ∀ x y : Vec3 ℚ, (x = u0 ∨ x = u1 ∨ x = u2) →
      (y = u0 ∨ y = u1 ∨ y = u2) → ∃ n : ℤ, (q : ℚ) * x.dot y = (n : ℚ)) :
    ∀ s : ℕ, ∀ b : Mat3, lllInv u0 u1 u2 b →
      lllPot b * ((3 : ℚ)/4) ^ s < 1 / (q : ℚ) ^ 3 →
      ∀ k, (k = 1 ∨ k = 2) → ∃ fuel, (lllGo? fuel b k).isSome := by
  intro s
  induction s with
  | zero =>
    intro b hinv hP k _
    exfalso
    have hlow := pot_lower u0 u1 u2 q hq hgram b hinv
    simp only [pow_zero, mul_one] at hP
    linarith
  | succ s ih =>
    intro b hinv hP k hk
    have h2 : ∀ b2 : Mat3, lllInv u0 u1 u2 b2 →
        lllPot b2 * ((3 : ℚ)/4) ^ (s + 1) < 1 / (q : ℚ) ^ 3 →
        ∃ fuel, (lllGo? fuel b2 2).isSome := by
      intro b2 hinv2 hP2
      obtain ⟨hL0, hL1, hL2, hdet⟩ := hinv2
      have hd1 := d1_pos_of_det b2 hdet
      have hd2 := d2_pos_of_det b2 hdet
      obtain ⟨m1, m0, hcase⟩ := lllStep_two_cases b2
      rcases hcase with ⟨hfailIneq, hstep⟩ | hstep
      · have hs1pos : 0 < (s1v b2).dot (s1v b2) := by
          have hmul := s1v_norm_mul b2 (ne_of_gt hd1)
          have hg0 : 0 < b2.c0.dot b2.c0 := hd1
          have hd2' : 0 < (s1v b2).dot (s1v b2) * (b2.c0.dot b2.c0) := by
            rw [hmul]
            exact hd2
          nlinarith [hd2', hg0]
        have hdec := swap2_decrease b2 m1 m0 hd1 hs1pos hfailIneq
        have hinv' : lllInv u0 u1 u2
            (Mat3.mk b2.c0 (b2.c2 - (m1 : ℚ) • b2.c1 - (m0 : ℚ) • b2.c0) b2.c1) := by
          refine ⟨hL0, ?_, hL1, ?_⟩
          · exact inLat_sub_int u0 u1 u2 _ _ m0
              (inLat_sub_int u0 u1 u2 _ _ m1 hL2 hL1) hL0
          · rw [det_mk_swap2]
            exact neg_ne_zero.mpr hdet
        have hPnew : lllPot (Mat3.mk b2.c0
            (b2.c2 - (m1 : ℚ) • b2.c1 - (m0 : ℚ) • b2.c0) b2.c1) <
            3/4 * lllPot b2 := by
          unfold lllPot
          have e1 : d1 (Mat3.mk b2.c0
              (b2.c2 - (m1 : ℚ) • b2.c1 - (m0 : ℚ) • b2.c0) b2.c1) = d1 b2 := rfl
          rw [e1]
          calc d1 b2 * d2 (Mat3.mk b2.c0
              (b2.c2 - (m1 : ℚ) • b2.c1 - (m0 : ℚ) • b2.c0) b2.c1) <
                d1 b2 * (3/4 * d2 b2) := mul_lt_mul_of_pos_left hdec hd1
            _ = 3/4 * (d1 b2 * d2 b2) := by ring
        have hP' : lllPot (Mat3.mk b2.c0
            (b2.c2 - (m1 : ℚ) • b2.c1 - (m0 : ℚ) • b2.c0) b2.c1) *
              ((3 : ℚ)/4) ^ s < 1 / (q : ℚ) ^ 3 := by
          calc lllPot (Mat3.mk b2.c0
              (b2.c2 - (m1 : ℚ) • b2.c1 - (m0 : ℚ) • b2.c0) b2.c1) *
                ((3 : ℚ)/4) ^ s <
              (3/4 * lllPot b2) * ((3 : ℚ)/4) ^ s :=
                mul_lt_mul_of_pos_right hPnew (pow_pos (by norm_num) s)
            _ = lllPot b2 * ((3 : ℚ)/4) ^ (s + 1) := by ring
            _ < 1 / (q : ℚ) ^ 3 := hP2
        obtain ⟨f, hf⟩ := ih _ hinv' hP' 1 (Or.inl rfl)
        refine ⟨f + 1, ?_⟩
        rw [lllGo?_succ f b2 2 (by norm_num), hstep]
        exact hf
      · refine ⟨2, ?_⟩
        rw [lllGo?_succ 1 b2 2 (by norm_num), hstep]
        rw [show ((Mat3.mk b2.c0 b2.c1
          (b2.c2 - (m1 : ℚ) • b2.c1 - (m0 : ℚ) • b2.c0), 3) :
            Mat3 × ℕ).1 = Mat3.mk b2.c0 b2.c1
          (b2.c2 - (m1 : ℚ) • b2.c1 - (m0 : ℚ) • b2.c0) from rfl]
        rw [lllGo?_stop 1 _ 3 (by norm_num)]
        rfl
    rcases hk with rfl | rfl
    · obtain ⟨hL0, hL1, hL2, hdet⟩ := hinv
      have hd1 := d1_pos_of_det b hdet
      have hd2 := d2_pos_of_det b hdet
      obtain ⟨m, hcase⟩ := lllStep_one_cases b
      rcases hcase with ⟨hfailIneq, hstep⟩ | hstep
      · have hdec := swap1_decrease b m hd1 hfailIneq
        have hinv' : lllInv u0 u1 u2
            (Mat3.mk (b.c1 - (m : ℚ) • b.c0) b.c0 b.c2) := by
          refine ⟨inLat_sub_int u0 u1 u2 _ _ m hL1 hL0, hL0, hL2, ?_⟩
          rw [det_mk_swap1]
          exact neg_ne_zero.mpr hdet
        have hPnew : lllPot (Mat3.mk (b.c1 - (m : ℚ) • b.c0) b.c0 b.c2) <
            3/4 * lllPot b := by
          unfold lllPot
          rw [hdec.2]
          calc d1 (Mat3.mk (b.c1 - (m : ℚ) • b.c0) b.c0 b.c2) * d2 b <
              (3/4 * d1 b) * d2 b := mul_lt_mul_of_pos_right hdec.1 hd2
            _ = 3/4 * (d1 b * d2 b) := by ring
        have hP' : lllPot (Mat3.mk (b.c1 - (m : ℚ) • b.c0) b.c0 b.c2) *
            ((3 : ℚ)/4) ^ s < 1 / (q : ℚ) ^ 3 := by
          calc lllPot (Mat3.mk (b.c1 - (m : ℚ) • b.c0) b.c0 b.c2) *
              ((3 : ℚ)/4) ^ s < (3/4 * lllPot b) * ((3 : ℚ)/4) ^ s :=
                mul_lt_mul_of_pos_right hPnew (pow_pos (by norm_num) s)
            _ = lllPot b * ((3 : ℚ)/4) ^ (s + 1) := by ring
            _ < 1 / (q : ℚ) ^ 3 := hP
        obtain ⟨f, hf⟩ := ih _ hinv' hP' 1 (Or.inl rfl)
        refine ⟨f + 1, ?_⟩
        rw [lllGo?_succ f b 1 (by norm_num), hstep]
        exact hf
      · have hinv2 : lllInv u0 u1 u2
            (Mat3.mk b.c0 (b.c1 - (m : ℚ) • b.c0) b.c2) := by
          refine ⟨hL0, inLat_sub_int u0 u1 u2 _ _ m hL1 hL0, hL2, ?_⟩
          rw [det_mk_adv1]
          exact hdet
        have hPsame : lllPot (Mat3.mk b.c0 (b.c1 - (m : ℚ) • b.c0) b.c2) =
            lllPot b := by
          unfold lllPot
          have e2 : d2 (Mat3.mk b.c0 (b.c1 - (m : ℚ) • b.c0) b.c2) = d2 b := by
            show (b.c0.cross (b.c1 - (m : ℚ) • b.c0)).normSq =
              (b.c0.cross b.c1).normSq
            rw [crossq_sub_smul]
          rw [e2]
          rfl
        obtain ⟨f, hf⟩ := h2 _ hinv2 (by rw [hPsame]; exact hP)
        refine ⟨f + 1, ?_⟩
        rw [lllGo?_succ f b 1 (by norm_num), hstep]
        exact hf
    · exact h2 b hinv hP

/-- **C7**: `lll_reduce` terminates on every non-singular basis: for some
finite fuel the embedded `while k < 3` loop reaches `k = 3` and returns
(so the fuelled embedding `lll_reduce` computes the loop's actual output).
The proof is the standard LLL potential argument with δ = 3/4 carried out
exactly over ℚ: every swap multiplies `d₁·d₂` by less than 3/4, size
reductions and advances leave it unchanged, and the potential of any
integer combination of the input columns is bounded below by the input's
Gram denominators. -/
theorem lll_reduce_terminates (basis : Mat3) (hdet : basis.det ≠ 0) :
    ∃ fuel r, lllGo? fuel basis 1 = some r ∧ lll_reduce fuel basis = r := by
  obtain ⟨q, hq, hdenom⟩ := common_denom
    [basis.c0.dot basis.c0, basis.c0.dot basis.c1, basis.c0.dot basis.c2,
     basis.c1.dot basis.c0, basis.c1.dot basis.c1, basis.c1.dot basis.c2,
     basis.c2.dot basis.c0, basis.c2.dot basis.c1, basis.c2.dot basis.c2]
  have hgram : ∀ x y : Vec3 ℚ,
      (x = basis.c0 ∨ x = basis.c1 ∨ x = basis.c2) →
      (y = basis.c0 ∨ y = basis.c1 ∨ y = basis.c2) →
      ∃ n : ℤ, (q : ℚ) * x.dot y = (n : ℚ) := by
    intro x y hx hy
    rcases hx with rfl | rfl | rfl <;> rcases hy with rfl | rfl | rfl <;>
      exact hdenom _ (by simp)
  have hlat0 : inLat basis.c0 basis.c1 basis.c2 basis.c0 := by
    refine ⟨1, 0, 0, ?_⟩
    obtain ⟨p0, r0, t0⟩ := basis.c0
    obtain ⟨p1, r1, t1⟩ := basis.c1
    obtain ⟨p2, r2, t2⟩ := basis.c2
    simp only [Vec3.smul_def, Vec3.add_def, Vec3.mk.injEq]
    push_cast
    refine ⟨by ring, by ring, by ring⟩
  have hlat1 : inLat basis.c0 basis.c1 basis.c2 basis.c1 := by
    refine ⟨0, 1, 0, ?_⟩
    obtain ⟨p0, r0, t0⟩ := basis.c0
    obtain ⟨p1, r1, t1⟩ := basis.c1
    obtain ⟨p2, r2, t2⟩ := basis.c2
    simp only [Vec3.smul_def, Vec3.add_def, Vec3.mk.injEq]
    push_cast
    refine ⟨by ring, by ring, by ring⟩
  have hlat2 : inLat basis.c0 basis.c1 basis.c2 basis.c2 := by
    refine ⟨0, 0, 1, ?_⟩
    obtain ⟨p0, r0, t0⟩ := basis.c0
    obtain ⟨p1, r1, t1⟩ := basis.c1
    obtain ⟨p2, r2, t2⟩ := basis.c2
    simp only [Vec3.smul_def, Vec3.add_def, Vec3.mk.injEq]
    push_cast
    refine ⟨by ring, by ring, by ring⟩
  have hinv : lllInv basis.c0 basis.c1 basis.c2 basis := ⟨hlat0, hlat1, hlat2, hdet⟩
  have hPpos : 0 < lllPot basis :=
    mul_pos (d1_pos_of_det _ hdet) (d2_pos_of_det _ hdet)
  have hqQ : (0 : ℚ) < q := by exact_mod_cast hq
  obtain ⟨s, hs⟩ := exists_pow_lt_of_lt_one
    (show (0 : ℚ) < (1 / (q : ℚ) ^ 3) / lllPot basis by positivity)
    (show (3 : ℚ)/4 < 1 by norm_num)
  have hbound : lllPot basis * ((3 : ℚ)/4) ^ s < 1 / (q : ℚ) ^ 3 := by
    have := (lt_div_iff₀ hPpos).mp hs
    linarith [this]
  obtain ⟨fuel, hfuel⟩ :=
    lllGo_term_aux basis.c0 basis.c1 basis.c2 q hq hgram s basis hinv hbound 1
      (Or.inl rfl)
  obtain ⟨r, hr⟩ := Option.isSome_iff_exists.mp hfuel
  exact ⟨fuel, r, hr, lllGo?_some_eq fuel basis 1 r hr⟩

/-- Witness for C7: the identity basis is non-singular and the loop
terminates on it. -/
theorem lll_reduce_terminates_witness :
    (Mat3.one.det ≠ 0) ∧
    (∃ fuel r, lllGo? fuel Mat3.one 1 = some r ∧ lll_reduce fuel Mat3.one = r) :=
  ⟨by with_unfolding_all decide,
   lll_reduce_terminates Mat3.one (by with_unfolding_all decide)⟩


end PolySurf
